import Mathlib

/-!
# Limit order book (`src/code.cpp`): embedding and checked properties

The C++ class `OrderBook` keeps two `std::map`s from price to a FIFO `std::list`
of orders (`buyOrders_` ordered by `greater<Price>`, `sellOrders_` by
`less<Price>`) and an `unordered_map` from order id to the order and its list
position (`orderLookup_`).

Embedding decisions:

* `Price = int32_t` is written `Int` (prices are only compared, never computed
  with); `OrderId = uint64_t` is written `Nat` (ids are only compared);
  `Quantity = uint32_t` is written `Nat`, with `% 2 ^ 32` spelled out at the one
  place where the code adds quantities (`GetOrderInfos`). `Order::Fill` subtracts
  only after checking `qty <= remainingQty_`, so that subtraction never wraps.
* A `std::map` is the list of its `(key, value)` pairs in iteration order.
* The order object is shared by its queue node and its registry entry. The
  queue holds the order (with the remaining quantity that `Fill` changes); the
  registry entry holds what the book reads through `orderPtr_` (`GetSide`,
  `GetPrice`, `GetOrderType`, all fixed at construction). The `listIt_` handle
  is the node of the queue that carries the registered id.
* A C++ reference bound to a container element (`buyer`, `seller`, `existing`,
  `orderRef`) is read as the value it referred to when it was bound.
* `throw logic_error` is `Except.error Fault.logic_error`. The crossing loop is
  structurally recursive on a fuel argument; running out of fuel is
  `Fault.out_of_fuel`.
-/

/-- Order type: `enum class OrderType`. -/
inductive OrderType where
  | GoodTillCancel
  | FillAndKill
  deriving DecidableEq, Repr

/-- Market side: `enum class Side`. -/
inductive Side where
  | Buy
  | Sell
  deriving DecidableEq, Repr

/-- Snapshot entry `struct LevelInfo`. -/
structure LevelInfo where
  price_ : Int
  quantity_ : Nat
  deriving DecidableEq, Repr

abbrev LevelInfos := List LevelInfo

/-- Snapshot of both sides: `class OrderBookLevelInfos`. -/
structure OrderBookLevelInfos where
  bidLevels_ : LevelInfos
  askLevels_ : LevelInfos
  deriving DecidableEq, Repr

/-- The ways a call can fail to return a value. -/
inductive Fault where
  | logic_error
  | out_of_fuel
  deriving DecidableEq, Repr

/-- An order: `class Order`. -/
structure Order where
  type_ : OrderType
  id_ : Nat
  side_ : Side
  price_ : Int
  initialQty_ : Nat
  remainingQty_ : Nat
  deriving DecidableEq, Repr

/-- The constructor `Order(type, id, side, price, qty)`. -/
def Order.new (type : OrderType) (id : Nat) (side : Side) (price : Int)
    (qty : Nat) : Order :=
  ⟨type, id, side, price, qty, qty⟩

/-- The getter `Order::IsFilled`. -/
def Order.IsFilled (o : Order) : Bool := o.remainingQty_ == 0

/-- The method `Order::Fill`: throws when `qty > remainingQty_`, else subtracts. -/
def Order.Fill (o : Order) (qty : Nat) : Except Fault Order :=
  if qty > o.remainingQty_ then .error .logic_error
  else .ok { o with remainingQty_ := o.remainingQty_ - qty }

abbrev OrderList := List Order

/-- A modification request: `class OrderModify`. -/
structure OrderModify where
  id_ : Nat
  price_ : Int
  side_ : Side
  qty_ : Nat
  deriving DecidableEq, Repr

/-- The method `OrderModify::ToOrderPointer`. -/
def OrderModify.ToOrderPointer (m : OrderModify) (type : OrderType) : Order :=
  Order.new type m.id_ m.side_ m.price_ m.qty_

/-- One side of a trade: `struct TradeInfo`. -/
structure TradeInfo where
  orderId_ : Nat
  price_ : Int
  quantity_ : Nat
  deriving DecidableEq, Repr

/-- A trade: `class Trade`. -/
structure Trade where
  buyerInfo_ : TradeInfo
  sellerInfo_ : TradeInfo
  deriving DecidableEq, Repr

def Trade.GetBidTrade (t : Trade) : TradeInfo := t.buyerInfo_
def Trade.GetAskTrade (t : Trade) : TradeInfo := t.sellerInfo_

abbrev Trades := List Trade

/-- What a registry entry (`struct OrderEntry`) gives the book: the fields read
through `orderPtr_`. The `listIt_` handle is the queue node with the entry's id. -/
structure OrderEntry where
  type_ : OrderType
  side_ : Side
  price_ : Int
  deriving DecidableEq, Repr

/-- The registry entry made for an order at `orderLookup_.emplace`. -/
def Order.entry (o : Order) : OrderEntry := ⟨o.type_, o.side_, o.price_⟩

/-- A `std::map<Price, OrderList, Compare>` as its pairs in iteration order. -/
abbrev Levels := List (Int × OrderList)

/-- The key comparison of a side's map: `greater<Price>` for bids, `less<Price>`
for asks. -/
def Side.before : Side → Int → Int → Bool
  | .Buy, a, b => decide (a > b)
  | .Sell, a, b => decide (a < b)

/-- The statement `levels[price].push_back(order)`: `operator[]` finds the level or
creates it at its place in the ordering. -/
def Levels.pushBack (side : Side) (price : Int) (o : Order) : Levels → Levels
  | [] => [(price, [o])]
  | (p, q) :: rest =>
    if price = p then (p, q ++ [o]) :: rest
    else if side.before price p then (price, [o]) :: (p, q) :: rest
    else (p, q) :: Levels.pushBack side price o rest

/-- The call `levels.erase(price)`. -/
def Levels.erase (price : Int) : Levels → Levels
  | [] => []
  | (p, q) :: rest => if p = price then rest else (p, q) :: Levels.erase price rest

/-- The queue part of `CancelOrder`: `orderList = levels[price]`,
`orderList.erase(iterRef)` (the node carrying `id`), and `levels.erase(price)` when
the list is left empty. A level that `operator[]` would have to create is created
empty and erased again. -/
def Levels.cancel (price : Int) (id : Nat) : Levels → Levels
  | [] => []
  | (p, q) :: rest =>
    if p = price then
      if (q.eraseP (fun o => o.id_ == id)).isEmpty then rest
      else (p, q.eraseP (fun o => o.id_ == id)) :: rest
    else (p, q) :: Levels.cancel price id rest

/-- The registry `unordered_map<OrderId, OrderEntry>` as an association list. -/
abbrev Registry := List (Nat × OrderEntry)

/-- The call `orderLookup_.contains(id)`. -/
def Registry.contains (r : Registry) (id : Nat) : Bool := (r.lookup id).isSome

/-- The call `orderLookup_.erase(id)`. -/
def Registry.erase (r : Registry) (id : Nat) : Registry :=
  r.filter (fun e => e.1 != id)

/-- The call `orderLookup_.emplace(id, entry)`: no effect on a key already present. -/
def Registry.emplace (r : Registry) (id : Nat) (e : OrderEntry) : Registry :=
  if r.contains id then r else (id, e) :: r

/-- The book: `class OrderBook`. -/
structure OrderBook where
  buyOrders_ : Levels
  sellOrders_ : Levels
  orderLookup_ : Registry
  deriving DecidableEq, Repr

/-- A freshly constructed book. -/
def OrderBook.empty : OrderBook := ⟨[], [], []⟩

/-- The method `OrderBook::Size`. -/
def OrderBook.Size (ob : OrderBook) : Nat := ob.orderLookup_.length

/-- The method `OrderBook::CanMatch`. -/
def OrderBook.CanMatch (ob : OrderBook) (side : Side) (price : Int) : Bool :=
  match side with
  | .Buy =>
    match ob.sellOrders_ with
    | [] => false
    | (bestAsk, _) :: _ => decide (price ≥ bestAsk)
  | .Sell =>
    match ob.buyOrders_ with
    | [] => false
    | (bestBid, _) :: _ => decide (price ≤ bestBid)

/-- The method `OrderBook::CancelOrder`. -/
def OrderBook.CancelOrder (ob : OrderBook) (id : Nat) : OrderBook :=
  match ob.orderLookup_.lookup id with
  | none => ob
  | some orderRef =>
    match orderRef.side_ with
    | .Buy =>
      { buyOrders_ := Levels.cancel orderRef.price_ id ob.buyOrders_
        sellOrders_ := ob.sellOrders_
        orderLookup_ := ob.orderLookup_.erase id }
    | .Sell =>
      { buyOrders_ := ob.buyOrders_
        sellOrders_ := Levels.cancel orderRef.price_ id ob.sellOrders_
        orderLookup_ := ob.orderLookup_.erase id }

/-- All orders held in the queues of one side, best level first, each queue from
its head. -/
def Levels.orders (l : Levels) : List Order := (l.map Prod.snd).flatten

/-- Number of queued orders on both sides. -/
def OrderBook.queued (ob : OrderBook) : Nat :=
  ob.buyOrders_.orders.length + ob.sellOrders_.orders.length

/-- What one pass through the loops of `MatchOrders` does. -/
inductive Round where
  | exit
  | idle
  | traded (ob : OrderBook) (t : Trade)
  | thrown
  deriving DecidableEq, Repr

/-- The two statements `if (o->IsFilled()) { list.pop_front(); ... }`, queue part. -/
def popFilled (o : Order) (tail : OrderList) : OrderList :=
  if o.IsFilled then tail else o :: tail

/-- The two statements `if (o->IsFilled()) { ...; orderLookup_.erase(o->GetOrderId()); }`,
registry part. -/
def eraseFilled (o : Order) (r : Registry) : Registry :=
  if o.IsFilled then r.erase o.id_ else r

/-- The statement `if (topList.empty()) levels.erase(topPrice);` on the best level. -/
def dropEmptied (topPrice : Int) (topList : OrderList) (rest : Levels) : Levels :=
  if topList.isEmpty then Levels.erase topPrice ((topPrice, topList) :: rest)
  else (topPrice, topList) :: rest

/-- One pass of the crossing loop of `MatchOrders`: the outer loop test, the `break`
on `topBuyPrice < topSellPrice`, and one run of the inner loop body (skipped when
one of the two best queues is empty). The body fills the two front orders by the
minimum of their remaining quantities, pops the filled ones (erasing them from the
registry), erases an emptied level and records the trade. -/
def OrderBook.matchRound (ob : OrderBook) : Round :=
  match ob.buyOrders_, ob.sellOrders_ with
  | (topBuyPrice, topBuyList) :: buyRest, (topSellPrice, topSellList) :: sellRest =>
    if topBuyPrice < topSellPrice then .exit
    else
      match topBuyList, topSellList with
      | buyer :: buyTail, seller :: sellTail =>
        let tradeQty := min buyer.remainingQty_ seller.remainingQty_
        match buyer.Fill tradeQty, seller.Fill tradeQty with
        | .ok buyer1, .ok seller1 =>
          .traded
            ⟨dropEmptied topBuyPrice (popFilled buyer1 buyTail) buyRest,
             dropEmptied topSellPrice (popFilled seller1 sellTail) sellRest,
             eraseFilled seller1 (eraseFilled buyer1 ob.orderLookup_)⟩
            ⟨⟨buyer1.id_, buyer1.price_, tradeQty⟩, ⟨seller1.id_, seller1.price_, tradeQty⟩⟩
        | _, _ => .thrown
      | _, _ => .idle
  | _, _ => .exit

/-- The crossing loop of `MatchOrders`, by fuel. The inner `while` is folded into
the outer one: the two best levels keep their keys while the inner loop runs, so
re-reading them and re-testing `topBuyPrice < topSellPrice` before each trade
changes nothing. Once a level has been erased, the inner test on `topBuyList` or
`topSellList` is read on the emptied queue and ends the inner loop, and the outer
loop reads the new best levels. A best level with an empty queue makes the outer
loop spin without change, here until the fuel is gone. -/
def OrderBook.crossingLoop : Nat → OrderBook → Trades → Except Fault (OrderBook × Trades)
  | 0, _, _ => .error .out_of_fuel
  | fuel + 1, ob, matchedTrades =>
    match ob.matchRound with
    | .exit => .ok (ob, matchedTrades)
    | .idle => OrderBook.crossingLoop fuel ob matchedTrades
    | .traded ob1 t => OrderBook.crossingLoop fuel ob1 (matchedTrades ++ [t])
    | .thrown => .error .logic_error

/-- The first cleanup block of `MatchOrders`: cancel the front order of the best
bid level when it is `FillAndKill`. (`front()` of an empty queue is left alone.) -/
def OrderBook.cleanupBuy (ob : OrderBook) : OrderBook :=
  match ob.buyOrders_ with
  | (_, frontBuyer :: _) :: _ =>
    if frontBuyer.type_ = .FillAndKill then ob.CancelOrder frontBuyer.id_ else ob
  | _ => ob

/-- The second cleanup block of `MatchOrders`, for the best ask level. -/
def OrderBook.cleanupSell (ob : OrderBook) : OrderBook :=
  match ob.sellOrders_ with
  | (_, frontSeller :: _) :: _ =>
    if frontSeller.type_ = .FillAndKill then ob.CancelOrder frontSeller.id_ else ob
  | _ => ob

/-- The method `OrderBook::MatchOrders`. The crossing loop removes an order in every
pass that trades, so `queued + 1` passes are enough for a book without an empty
level. -/
def OrderBook.MatchOrders (ob : OrderBook) : Except Fault (OrderBook × Trades) :=
  match ob.crossingLoop (ob.queued + 1) [] with
  | .ok (ob1, matchedTrades) => .ok (ob1.cleanupBuy.cleanupSell, matchedTrades)
  | .error e => .error e

/-- The insertion part of `OrderBook::AddOrder`: `push_back` on the order's side and
price, then `orderLookup_.emplace`. -/
def OrderBook.insert (ob : OrderBook) (newOrder : Order) : OrderBook :=
  match newOrder.side_ with
  | .Buy =>
    { buyOrders_ := Levels.pushBack .Buy newOrder.price_ newOrder ob.buyOrders_
      sellOrders_ := ob.sellOrders_
      orderLookup_ := ob.orderLookup_.emplace newOrder.id_ newOrder.entry }
  | .Sell =>
    { buyOrders_ := ob.buyOrders_
      sellOrders_ := Levels.pushBack .Sell newOrder.price_ newOrder ob.sellOrders_
      orderLookup_ := ob.orderLookup_.emplace newOrder.id_ newOrder.entry }

/-- The method `OrderBook::AddOrder`. -/
def OrderBook.AddOrder (ob : OrderBook) (newOrder : Order) :
    Except Fault (OrderBook × Trades) :=
  if ob.orderLookup_.contains newOrder.id_ then .ok (ob, [])
  else if newOrder.type_ = .FillAndKill ∧ ob.CanMatch newOrder.side_ newOrder.price_ = false then
    .ok (ob, [])
  else (ob.insert newOrder).MatchOrders

/-- The method `OrderBook::MatchOrder`, the modification entry point. -/
def OrderBook.MatchOrder (ob : OrderBook) (mod : OrderModify) :
    Except Fault (OrderBook × Trades) :=
  match ob.orderLookup_.lookup mod.id_ with
  | none => .ok (ob, [])
  | some existing => (ob.CancelOrder mod.id_).AddOrder (mod.ToOrderPointer existing.type_)

/-- The lambda `BuildLevelInfo` of `GetOrderInfos`: `accumulate` over the queue in
`Quantity` (`uint32_t`) arithmetic. -/
def BuildLevelInfo (price : Int) (orders : OrderList) : LevelInfo :=
  ⟨price, orders.foldl (fun sum order => (sum + order.remainingQty_) % 2 ^ 32) 0⟩

/-- The method `OrderBook::GetOrderInfos`. -/
def OrderBook.GetOrderInfos (ob : OrderBook) : OrderBookLevelInfos :=
  ⟨ob.buyOrders_.map (fun l => BuildLevelInfo l.1 l.2),
   ob.sellOrders_.map (fun l => BuildLevelInfo l.1 l.2)⟩


/-! ## Notions used to state the properties -/

/-- All queued orders of the book, bids first. -/
def OrderBook.allOrders (ob : OrderBook) : List Order :=
  ob.buyOrders_.orders ++ ob.sellOrders_.orders

/-- The registry entry an order stands for: its id with the fields fixed at
construction. -/
def Order.key (o : Order) : Nat × OrderEntry := (o.id_, o.entry)

/-- The order with its remaining quantity lowered by `q` (what a successful
`Fill` leaves). -/
def Order.reduce (o : Order) (q : Nat) : Order :=
  { o with remainingQty_ := o.remainingQty_ - q }

/-- The queue at a price on one side (empty when the level is absent). -/
def Levels.queue (l : Levels) (price : Int) : OrderList :=
  (l.lookup price).getD []

/-- Sum of the remaining quantities of a list of orders, as an exact integer. -/
def totalRemaining (l : List Order) : Nat := (l.map (fun o => o.remainingQty_)).sum

/-- Sum of the quantities of a list of trades, as an exact integer. -/
def tradedQty (ts : Trades) : Nat := (ts.map (fun t => t.buyerInfo_.quantity_)).sum

/-- Shape of one side's map: keys strictly ordered by the side's comparison, no
empty queue, and every order filed under its own side and price. -/
structure Levels.WF (side : Side) (l : Levels) : Prop where
  sorted : l.Pairwise (fun a b => side.before a.1 b.1 = true)
  nonempty : ∀ x ∈ l, x.2 ≠ []
  own : ∀ x ∈ l, ∀ o ∈ x.2, o.side_ = side ∧ o.price_ = x.1

/-- A registry and a list of queued orders in step: the registry holds exactly the
entries of the listed orders, and no id is listed twice. -/
structure Lockstep (R : Registry) (l : List Order) : Prop where
  perm : R.Perm (l.map Order.key)
  nodup : (l.map (fun o => o.id_)).Nodup

/-- Well-formed book: both maps well shaped, no id queued twice, and the registry
holding exactly the entries of the queued orders. -/
structure OrderBook.WF (ob : OrderBook) : Prop where
  buy : Levels.WF .Buy ob.buyOrders_
  sell : Levels.WF .Sell ob.sellOrders_
  nodup : (ob.allOrders.map (fun o => o.id_)).Nodup
  lockstep : ob.orderLookup_.Perm (ob.allOrders.map Order.key)

/-- No bid level is priced at or above an ask level. -/
def OrderBook.Uncrossed (ob : OrderBook) : Prop :=
  ∀ b ∈ ob.buyOrders_, ∀ s ∈ ob.sellOrders_, b.1 < s.1

/-- No level of either side has an empty queue. -/
def OrderBook.NoEmptyLevel (ob : OrderBook) : Prop :=
  (∀ x ∈ ob.buyOrders_, x.2 ≠ []) ∧ (∀ x ∈ ob.sellOrders_, x.2 ≠ [])

/-- The other side of the market. -/
def Side.opposite : Side → Side
  | .Buy => .Sell
  | .Sell => .Buy

/-- The level map of a side: `buyOrders_` or `sellOrders_`. -/
def OrderBook.levels (ob : OrderBook) : Side → Levels
  | .Buy => ob.buyOrders_
  | .Sell => ob.sellOrders_

/-- The half of a trade that belongs to a side: `GetBidTrade` or `GetAskTrade`. -/
def Trade.info (t : Trade) : Side → TradeInfo
  | .Buy => t.buyerInfo_
  | .Sell => t.sellerInfo_

/-- The trade record of quantity `q` between an order `o` and an order `a` of the
other side. -/
def tradeOf (o a : Order) (q : Nat) : Trade :=
  match o.side_ with
  | .Buy => ⟨⟨o.id_, o.price_, q⟩, ⟨a.id_, a.price_, q⟩⟩
  | .Sell => ⟨⟨a.id_, a.price_, q⟩, ⟨o.id_, o.price_, q⟩⟩

/-- No queued order is `FillAndKill`. -/
def OrderBook.NoFAK (ob : OrderBook) : Prop :=
  ∀ o ∈ ob.allOrders, o.type_ = .GoodTillCancel

/-- The invariant of reachable books. -/
structure OrderBook.Inv (ob : OrderBook) : Prop where
  wf : ob.WF
  uncrossed : ob.Uncrossed
  noFAK : ob.NoFAK

/-- Where the crossing loop stands while an incoming order `o`, alone on a new best
level of its side, sweeps the other side of the book `ob0`. Either `o` is still
queued (`alive`): the resting orders `pre` were filled completely, one trade each,
and the rest `post` is untouched; or `o` has been filled and popped (`gone`): its
last trade took `q` from the resting order `a`. -/
inductive Sweep (ob0 : OrderBook) (o : Order) : OrderBook → Trades → Prop where
  | alive (ob : OrderBook) (T : Trades) (pre post : List Order) :
      (ob0.levels o.side_.opposite).orders = pre ++ post →
      (ob.levels o.side_.opposite).orders = post →
      ob.levels o.side_ = (o.price_, [o.reduce (totalRemaining pre)]) :: ob0.levels o.side_ →
      totalRemaining pre ≤ o.remainingQty_ →
      T = pre.map (fun a => tradeOf o a a.remainingQty_) →
      (∀ a ∈ pre, o.side_.before a.price_ o.price_ = false) →
      (∀ x ∈ ob0.levels o.side_, ∀ y ∈ ob.levels o.side_.opposite,
        o.side_.before y.1 x.1 = true) →
      Sweep ob0 o ob T
  | gone (ob : OrderBook) (T : Trades) (pre : List Order) (a : Order) (post : List Order)
      (q : Nat) :
      (ob0.levels o.side_.opposite).orders = pre ++ a :: post →
      (ob.levels o.side_.opposite).orders = popFilled (a.reduce q) post →
      ob.levels o.side_ = ob0.levels o.side_ →
      totalRemaining pre + q = o.remainingQty_ →
      q ≤ a.remainingQty_ →
      T = pre.map (fun a => tradeOf o a a.remainingQty_) ++ [tradeOf o a q] →
      (∀ x ∈ pre ++ [a], o.side_.before x.price_ o.price_ = false) →
      (∀ x ∈ ob.levels o.side_, ∀ y ∈ ob.levels o.side_.opposite,
        o.side_.before y.1 x.1 = true) →
      Sweep ob0 o ob T

/-- A sample book: asks 6 and 9 queued at 100, ask 8 at 101, bid 10 at 99. -/
def sampleBook : OrderBook :=
  ⟨[(99, [Order.new .GoodTillCancel 10 .Buy 99 3])],
   [(100, [Order.new .GoodTillCancel 6 .Sell 100 5, Order.new .GoodTillCancel 9 .Sell 100 3]),
    (101, [Order.new .GoodTillCancel 8 .Sell 101 5])],
   [(10, ⟨.GoodTillCancel, .Buy, 99⟩), (9, ⟨.GoodTillCancel, .Sell, 100⟩),
    (8, ⟨.GoodTillCancel, .Sell, 101⟩), (6, ⟨.GoodTillCancel, .Sell, 100⟩)]⟩

/-- The remaining quantity of the queued order that carries an id (0 when none
does). -/
def OrderBook.remainingOf (ob : OrderBook) (id : Nat) : Nat :=
  match ob.allOrders.find? (fun a => a.id_ == id) with
  | some a => a.remainingQty_
  | none => 0

/-- Exact sum of the remaining quantities of the registered orders of a side. -/
def OrderBook.registeredRemaining (ob : OrderBook) (side : Side) : Nat :=
  ((ob.orderLookup_.filter (fun x => x.2.side_ = side)).map (fun x => ob.remainingOf x.1)).sum

/-- One side of a snapshot: `GetBids` or `GetAsks`. -/
def OrderBookLevelInfos.side (s : OrderBookLevelInfos) : Side → LevelInfos
  | .Buy => s.bidLevels_
  | .Sell => s.askLevels_

/-- The orders of a side resting at a price. -/
def OrderBook.restingAt (ob : OrderBook) (side : Side) (price : Int) : List Order :=
  (ob.levels side).orders.filter (fun a => a.price_ == price)

/-- A book with two bids of `2 ^ 31` each at price 100. -/
def wrapBook : OrderBook :=
  ⟨[(100, [Order.new .GoodTillCancel 1 .Buy 100 2147483648,
           Order.new .GoodTillCancel 2 .Buy 100 2147483648])],
   [],
   [(2, ⟨.GoodTillCancel, .Buy, 100⟩), (1, ⟨.GoodTillCancel, .Buy, 100⟩)]⟩

/-- Soundness of one trade `t` made when `o` comes in against the resting orders
`resting`: the bid half is not priced below the ask half, the bid half names a buy
order and the ask half a sell order, each being `o` or one of `resting`. -/
def TradeSound (resting : List Order) (o : Order) (t : Trade) : Prop :=
  t.GetBidTrade.price_ ≥ t.GetAskTrade.price_ ∧
    (∃ b, (b = o ∨ b ∈ resting) ∧ b.side_ = .Buy ∧ b.id_ = t.GetBidTrade.orderId_ ∧
      b.price_ = t.GetBidTrade.price_) ∧
    (∃ s, (s = o ∨ s ∈ resting) ∧ s.side_ = .Sell ∧ s.id_ = t.GetAskTrade.orderId_ ∧
      s.price_ = t.GetAskTrade.price_)

/-- The front order of the best level of a side: `levels.begin()->second.front()`. -/
def Levels.front : Levels → Option Order
  | (_, o :: _) :: _ => some o
  | _ => none

/-- A crossed book (not reachable) whose best bid queue starts with an order of
remaining quantity 0. -/
def crossedBook : OrderBook :=
  ⟨[(101, [⟨.GoodTillCancel, 1, .Buy, 101, 5, 0⟩, Order.new .GoodTillCancel 2 .Buy 101 4])],
   [(100, [Order.new .GoodTillCancel 3 .Sell 100 3])],
   [(1, ⟨.GoodTillCancel, .Buy, 101⟩), (2, ⟨.GoodTillCancel, .Buy, 101⟩),
    (3, ⟨.GoodTillCancel, .Sell, 100⟩)]⟩

/-- A well-formed book (not reachable) with `FillAndKill` orders resting behind the
head of the best bid level, at a second bid level, at the head of the best ask
level and at a second ask level. -/
def deepBook : OrderBook :=
  ⟨[(100, [Order.new .GoodTillCancel 1 .Buy 100 5, Order.new .FillAndKill 2 .Buy 100 4]),
    (99, [Order.new .FillAndKill 3 .Buy 99 2])],
   [(101, [Order.new .FillAndKill 4 .Sell 101 1, Order.new .GoodTillCancel 6 .Sell 101 2]),
    (102, [Order.new .FillAndKill 5 .Sell 102 7])],
   [(1, ⟨.GoodTillCancel, .Buy, 100⟩), (2, ⟨.FillAndKill, .Buy, 100⟩),
    (3, ⟨.FillAndKill, .Buy, 99⟩), (4, ⟨.FillAndKill, .Sell, 101⟩),
    (6, ⟨.GoodTillCancel, .Sell, 101⟩), (5, ⟨.FillAndKill, .Sell, 102⟩)]⟩

/-- Whether a resting order `a` of the other side is priced within the limit of the
incoming order `o`: an ask at or below a buy's price, a bid at or above a sell's. -/
def Order.crosses (o a : Order) : Bool :=
  match o.side_ with
  | .Buy => decide (a.price_ ≤ o.price_)
  | .Sell => decide (a.price_ ≥ o.price_)

/-- Exact sum of the remaining quantities of the other side's resting orders that the
incoming order `o` crosses. -/
def OrderBook.crossingLiquidity (ob : OrderBook) (o : Order) : Nat :=
  totalRemaining ((ob.levels o.side_.opposite).orders.filter (fun a => o.crosses a))

/-- Book states obtained from the empty book by the three public mutators. -/
inductive Reachable : OrderBook → Prop where
  | empty : Reachable OrderBook.empty
  | add (ob : OrderBook) (o : Order) (ob1 : OrderBook) (ts : Trades) :
      Reachable ob → ob.AddOrder o = .ok (ob1, ts) → Reachable ob1
  | cancel (ob : OrderBook) (id : Nat) : Reachable ob → Reachable (ob.CancelOrder id)
  | modify (ob : OrderBook) (m : OrderModify) (ob1 : OrderBook) (ts : Trades) :
      Reachable ob → ob.MatchOrder m = .ok (ob1, ts) → Reachable ob1

/-- Book states obtained from the empty book when every order handed to `AddOrder` is
an object `class Order` can be (constructed with remaining = initial quantity and
changed by `Fill` only, so remaining <= initial). With `positive` set, every order
submitted also has a quantity left above 0 and every modification a quantity above
0. -/
inductive ReachableWith (positive : Bool) : OrderBook → Prop where
  | empty : ReachableWith positive OrderBook.empty
  | add (ob : OrderBook) (o : Order) (ob1 : OrderBook) (ts : Trades) :
      ReachableWith positive ob → o.remainingQty_ ≤ o.initialQty_ →
      (positive = true → 0 < o.remainingQty_) →
      ob.AddOrder o = .ok (ob1, ts) → ReachableWith positive ob1
  | cancel (ob : OrderBook) (id : Nat) :
      ReachableWith positive ob → ReachableWith positive (ob.CancelOrder id)
  | modify (ob : OrderBook) (m : OrderModify) (ob1 : OrderBook) (ts : Trades) :
      ReachableWith positive ob → (positive = true → 0 < m.qty_) →
      ob.MatchOrder m = .ok (ob1, ts) → ReachableWith positive ob1

/-- The book after a `GoodTillCancel` buy of quantity 0 on the empty book. -/
def zeroBook : OrderBook :=
  ⟨[(100, [Order.new .GoodTillCancel 1 .Buy 100 0])], [], [(1, ⟨.GoodTillCancel, .Buy, 100⟩)]⟩

/-! ## Orders, queues and levels -/

theorem Order.Fill_eq (o : Order) (q : Nat) (h : q ≤ o.remainingQty_) :
    o.Fill q = .ok (o.reduce q) := by
  simp [Order.Fill, Order.reduce, Nat.not_lt.mpr h]

@[simp] theorem Order.reduce_id (o : Order) (q : Nat) : (o.reduce q).id_ = o.id_ := rfl
@[simp] theorem Order.reduce_price (o : Order) (q : Nat) : (o.reduce q).price_ = o.price_ := rfl
@[simp] theorem Order.reduce_side (o : Order) (q : Nat) : (o.reduce q).side_ = o.side_ := rfl
@[simp] theorem Order.reduce_type (o : Order) (q : Nat) : (o.reduce q).type_ = o.type_ := rfl
@[simp] theorem Order.reduce_key (o : Order) (q : Nat) : (o.reduce q).key = o.key := rfl
@[simp] theorem Order.reduce_remaining (o : Order) (q : Nat) :
    (o.reduce q).remainingQty_ = o.remainingQty_ - q := rfl
@[simp] theorem Order.key_fst (o : Order) : o.key.1 = o.id_ := rfl

@[simp] theorem Levels.orders_nil : Levels.orders [] = [] := rfl

@[simp] theorem Levels.orders_cons (p : Int) (q : OrderList) (l : Levels) :
    Levels.orders ((p, q) :: l) = q ++ Levels.orders l := by
  simp [Levels.orders]

theorem Levels.mem_orders {l : Levels} {o : Order} :
    o ∈ l.orders ↔ ∃ x ∈ l, o ∈ x.2 := by
  simp only [Levels.orders, List.mem_flatten, List.mem_map]
  constructor
  · rintro ⟨q, ⟨x, hx, rfl⟩, ho⟩
    exact ⟨x, hx, ho⟩
  · rintro ⟨x, hx, ho⟩
    exact ⟨x.2, ⟨x, hx, rfl⟩, ho⟩

@[simp] theorem dropEmptied_orders (p : Int) (q : OrderList) (rest : Levels) :
    (dropEmptied p q rest).orders = q ++ rest.orders := by
  unfold dropEmptied
  cases q <;> simp [Levels.erase]

theorem popFilled_filled {o : Order} (tail : OrderList) (h : o.remainingQty_ = 0) :
    popFilled o tail = tail := by
  simp [popFilled, Order.IsFilled, h]

theorem popFilled_rest {o : Order} (tail : OrderList) (h : o.remainingQty_ ≠ 0) :
    popFilled o tail = o :: tail := by
  simp [popFilled, Order.IsFilled, h]

/-- The pass on a book whose two best queues are non-empty and cross. -/
theorem OrderBook.matchRound_cross (bp sp : Int) (b s : Order) (bt st : OrderList)
    (B S : Levels) (R : Registry) (h : sp ≤ bp) :
    OrderBook.matchRound ⟨(bp, b :: bt) :: B, (sp, s :: st) :: S, R⟩ =
      .traded
        ⟨dropEmptied bp (popFilled (b.reduce (min b.remainingQty_ s.remainingQty_)) bt) B,
         dropEmptied sp (popFilled (s.reduce (min b.remainingQty_ s.remainingQty_)) st) S,
         eraseFilled (s.reduce (min b.remainingQty_ s.remainingQty_))
           (eraseFilled (b.reduce (min b.remainingQty_ s.remainingQty_)) R)⟩
        ⟨⟨b.id_, b.price_, min b.remainingQty_ s.remainingQty_⟩,
         ⟨s.id_, s.price_, min b.remainingQty_ s.remainingQty_⟩⟩ := by
  simp only [OrderBook.matchRound, Int.not_lt.mpr h, if_false]
  rw [Order.Fill_eq b _ (Nat.min_le_left _ _), Order.Fill_eq s _ (Nat.min_le_right _ _)]
  rfl

/-- The pass on a book whose best levels do not cross. -/
theorem OrderBook.matchRound_apart (bp sp : Int) (bl sl : OrderList)
    (B S : Levels) (R : Registry) (h : bp < sp) :
    OrderBook.matchRound ⟨(bp, bl) :: B, (sp, sl) :: S, R⟩ = .exit := by
  simp [OrderBook.matchRound, h]

@[simp] theorem OrderBook.matchRound_noBuy (S : Levels) (R : Registry) :
    OrderBook.matchRound ⟨[], S, R⟩ = .exit := by
  simp [OrderBook.matchRound]

@[simp] theorem OrderBook.matchRound_noSell (B : Levels) (R : Registry) :
    OrderBook.matchRound ⟨B, [], R⟩ = .exit := by
  cases B <;> simp [OrderBook.matchRound]

/-- Every pass that trades starts from two non-empty, crossing best queues and
leaves the book described in `matchRound_cross`. -/
theorem OrderBook.matchRound_traded_inv {ob ob1 : OrderBook} {t : Trade}
    (h : ob.matchRound = .traded ob1 t) :
    ∃ bp sp b s bt st B S, ob.buyOrders_ = (bp, b :: bt) :: B ∧
      ob.sellOrders_ = (sp, s :: st) :: S ∧ sp ≤ bp ∧
      ob1 = ⟨dropEmptied bp (popFilled (b.reduce (min b.remainingQty_ s.remainingQty_)) bt) B,
         dropEmptied sp (popFilled (s.reduce (min b.remainingQty_ s.remainingQty_)) st) S,
         eraseFilled (s.reduce (min b.remainingQty_ s.remainingQty_))
           (eraseFilled (b.reduce (min b.remainingQty_ s.remainingQty_)) ob.orderLookup_)⟩ ∧
      t = ⟨⟨b.id_, b.price_, min b.remainingQty_ s.remainingQty_⟩,
         ⟨s.id_, s.price_, min b.remainingQty_ s.remainingQty_⟩⟩ := by
  obtain ⟨buy, sell, R⟩ := ob
  match buy, sell with
  | [], _ => simp at h
  | _ :: _, [] => simp at h
  | (bp, bl) :: B, (sp, sl) :: S =>
    by_cases hlt : bp < sp
    · rw [OrderBook.matchRound_apart _ _ _ _ _ _ _ hlt] at h
      cases h
    · have hle : sp ≤ bp := Int.not_lt.mp hlt
      match bl, sl with
      | [], _ => simp [OrderBook.matchRound, hlt] at h
      | _ :: _, [] => simp [OrderBook.matchRound, hlt] at h
      | b :: bt, s :: st =>
        rw [OrderBook.matchRound_cross _ _ _ _ _ _ _ _ _ hle] at h
        injection h with h1 h2
        exact ⟨bp, sp, b, s, bt, st, B, S, rfl, rfl, hle, h1.symm, h2.symm⟩

/-- A pass exits only when a side is empty or the best levels are apart. -/
theorem OrderBook.matchRound_exit_inv {ob : OrderBook} (h : ob.matchRound = .exit) :
    ob.buyOrders_ = [] ∨ ob.sellOrders_ = [] ∨
      ∃ bp bl B sp sl S, ob.buyOrders_ = (bp, bl) :: B ∧ ob.sellOrders_ = (sp, sl) :: S ∧
        bp < sp := by
  obtain ⟨buy, sell, R⟩ := ob
  match buy, sell with
  | [], _ => exact Or.inl rfl
  | _ :: _, [] => exact Or.inr (Or.inl rfl)
  | (bp, bl) :: B, (sp, sl) :: S =>
    by_cases hlt : bp < sp
    · exact Or.inr (Or.inr ⟨bp, bl, B, sp, sl, S, rfl, rfl, hlt⟩)
    · have hle : sp ≤ bp := Int.not_lt.mp hlt
      match bl, sl with
      | [], _ => simp [OrderBook.matchRound, hlt] at h
      | _ :: _, [] => simp [OrderBook.matchRound, hlt] at h
      | b :: bt, s :: st =>
        rw [OrderBook.matchRound_cross _ _ _ _ _ _ _ _ _ hle] at h
        cases h

/-- On a book without an empty level a pass either exits or trades. -/
theorem OrderBook.matchRound_of_noEmptyLevel {ob : OrderBook} (h : ob.NoEmptyLevel) :
    ob.matchRound = .exit ∨ ∃ ob1 t, ob.matchRound = .traded ob1 t := by
  obtain ⟨buy, sell, R⟩ := ob
  match buy, sell with
  | [], _ => exact Or.inl (by simp)
  | _ :: _, [] => exact Or.inl (by simp)
  | (bp, bl) :: B, (sp, sl) :: S =>
    by_cases hlt : bp < sp
    · exact Or.inl (OrderBook.matchRound_apart _ _ _ _ _ _ _ hlt)
    · have hle : sp ≤ bp := Int.not_lt.mp hlt
      match bl, sl with
      | [], _ => exact absurd rfl (h.1 (bp, []) (by simp))
      | _ :: _, [] => exact absurd rfl (h.2 (sp, []) (by simp))
      | b :: bt, s :: st =>
        exact Or.inr ⟨_, _, OrderBook.matchRound_cross _ _ _ _ _ _ _ _ _ hle⟩

theorem dropEmptied_nonempty {p : Int} {q : OrderList} {rest : Levels}
    (h : ∀ x ∈ rest, x.2 ≠ []) : ∀ x ∈ dropEmptied p q rest, x.2 ≠ [] := by
  unfold dropEmptied
  cases q with
  | nil => simpa [Levels.erase] using h
  | cons a t =>
    intro x hx
    simp only [List.isEmpty_cons, Bool.false_eq_true, if_false, List.mem_cons] at hx
    rcases hx with rfl | hx
    · simp
    · exact h x hx

theorem OrderBook.NoEmptyLevel.round_noEmptyLevel {ob ob1 : OrderBook} {t : Trade}
    (h : ob.NoEmptyLevel) (hr : ob.matchRound = .traded ob1 t) : ob1.NoEmptyLevel := by
  obtain ⟨bp, sp, b, s, bt, st, B, S, hb, hs, -, rfl, -⟩ := OrderBook.matchRound_traded_inv hr
  refine ⟨dropEmptied_nonempty ?_, dropEmptied_nonempty ?_⟩
  · intro x hx
    exact h.1 x (by rw [hb]; exact List.mem_cons_of_mem _ hx)
  · intro x hx
    exact h.2 x (by rw [hs]; exact List.mem_cons_of_mem _ hx)

theorem popFilled_length_le (o : Order) (tail : OrderList) :
    (popFilled o tail).length ≤ tail.length + 1 := by
  unfold popFilled
  split <;> simp

/-- A pass that trades removes at least one order from the queues. -/
theorem OrderBook.queued_round {ob ob1 : OrderBook} {t : Trade}
    (hr : ob.matchRound = .traded ob1 t) : ob1.queued < ob.queued := by
  obtain ⟨bp, sp, b, s, bt, st, B, S, hb, hs, -, rfl, -⟩ := OrderBook.matchRound_traded_inv hr
  simp only [OrderBook.queued, hb, hs, dropEmptied_orders, Levels.orders_cons,
    List.length_append, List.length_cons]
  have h1 := popFilled_length_le (b.reduce (min b.remainingQty_ s.remainingQty_)) bt
  have h2 := popFilled_length_le (s.reduce (min b.remainingQty_ s.remainingQty_)) st
  rcases Nat.le_total b.remainingQty_ s.remainingQty_ with hle | hle
  · have : popFilled (b.reduce (min b.remainingQty_ s.remainingQty_)) bt = bt :=
      popFilled_filled _ (by simp [Nat.min_eq_left hle])
    rw [this]
    omega
  · have : popFilled (s.reduce (min b.remainingQty_ s.remainingQty_)) st = st :=
      popFilled_filled _ (by simp [Nat.min_eq_right hle])
    rw [this]
    omega

/-- The crossing loop returns on every book without an empty level, given fuel
above the number of queued orders. -/
theorem OrderBook.crossingLoop_total (fuel : Nat) (ob : OrderBook) (T : Trades)
    (h : ob.NoEmptyLevel) (hf : ob.queued < fuel) :
    ∃ r, ob.crossingLoop fuel T = .ok r := by
  induction fuel generalizing ob T with
  | zero => omega
  | succ n ih =>
    rcases OrderBook.matchRound_of_noEmptyLevel h with he | ⟨ob1, t, ht⟩
    · exact ⟨(ob, T), by simp [OrderBook.crossingLoop, he]⟩
    · have hq := OrderBook.queued_round ht
      obtain ⟨r, hr⟩ := ih ob1 (T ++ [t]) (h.round_noEmptyLevel ht) (by omega)
      exact ⟨r, by simp [OrderBook.crossingLoop, ht, hr]⟩

/-- Loop rule: a property of (book, trades so far) kept by every trading pass holds
when the loop returns, and the returned book is one on which a pass exits. -/
theorem OrderBook.crossingLoop_rule (I : OrderBook → Trades → Prop)
    (hstep : ∀ ob T ob1 t, I ob T → ob.matchRound = .traded ob1 t → I ob1 (T ++ [t]))
    (fuel : Nat) (ob : OrderBook) (T : Trades) (r : OrderBook × Trades)
    (h0 : I ob T) (hr : ob.crossingLoop fuel T = .ok r) :
    I r.1 r.2 ∧ r.1.matchRound = .exit := by
  induction fuel generalizing ob T with
  | zero => simp [OrderBook.crossingLoop] at hr
  | succ n ih =>
    unfold OrderBook.crossingLoop at hr
    split at hr
    · next he =>
      cases hr
      exact ⟨h0, he⟩
    · exact ih ob T h0 hr
    · next ob1 t ht => exact ih ob1 (T ++ [t]) (hstep ob T ob1 t h0 ht) hr
    · cases hr

/-! ## Registry -/

theorem Registry.lookup_erase (r : Registry) (id id1 : Nat) :
    (r.erase id).lookup id1 = if id1 = id then none else r.lookup id1 := by
  induction r with
  | nil => simp [Registry.erase]
  | cons x r ih =>
    obtain ⟨k, e⟩ := x
    simp only [Registry.erase] at ih ⊢
    by_cases hk : k = id
    · subst hk
      by_cases h1 : id1 = k
      · subst h1
        simpa [List.filter_cons] using ih
      · have : (id1 == k) = false := by simpa using h1
        simp [List.filter_cons, List.lookup_cons, this, ih, h1]
    · have hk2 : (k != id) = true := by simpa using hk
      by_cases h1 : id1 = k
      · subst h1
        simp [List.filter_cons, hk2, List.lookup_cons, hk]
      · have : (id1 == k) = false := by simpa using h1
        simp [List.filter_cons, hk2, List.lookup_cons, this, ih]

theorem Registry.lookup_eq_none {r : Registry} {id : Nat} :
    r.lookup id = none ↔ id ∉ r.map Prod.fst := by
  induction r with
  | nil => simp
  | cons x r ih =>
    obtain ⟨k, e⟩ := x
    by_cases h : id = k
    · subst h
      simp [List.lookup_cons]
    · have : (id == k) = false := by simpa using h
      simp [List.lookup_cons, this, ih, h]

theorem Registry.lookup_eq_some {r : Registry} {id : Nat} {e : OrderEntry}
    (hn : (r.map Prod.fst).Nodup) : r.lookup id = some e ↔ (id, e) ∈ r := by
  induction r with
  | nil => simp
  | cons x r ih =>
    obtain ⟨k, e1⟩ := x
    simp only [List.map_cons, List.nodup_cons] at hn
    by_cases h : id = k
    · subst h
      simp only [List.lookup_cons, beq_self_eq_true, Option.some.injEq, List.mem_cons,
        Prod.mk.injEq, true_and]
      constructor
      · intro h1
        exact Or.inl h1.symm
      · rintro (h1 | h1)
        · exact h1.symm
        · exact absurd (List.mem_map_of_mem Prod.fst h1) hn.1
    · have : (id == k) = false := by simpa using h
      simp [List.lookup_cons, this, ih hn.2, h]

theorem Registry.contains_eq_false {r : Registry} {id : Nat} :
    r.contains id = false ↔ r.lookup id = none := by
  simp [Registry.contains]

theorem Registry.erase_of_not_mem {r : Registry} {id : Nat}
    (h : r.lookup id = none) : r.erase id = r := by
  rw [Registry.lookup_eq_none] at h
  simp only [Registry.erase, List.filter_eq_self]
  intro x hx
  have : x.1 ≠ id := fun hxe => h (hxe ▸ List.mem_map_of_mem Prod.fst hx)
  simpa using this

/-! ## Removing one order from a list without repeated ids -/

theorem eraseP_eq_filter_of_nodup (l : List Order) (id : Nat)
    (hn : (l.map (fun o => o.id_)).Nodup) :
    l.eraseP (fun o => o.id_ == id) = l.filter (fun o => o.id_ != id) := by
  induction l with
  | nil => rfl
  | cons a l ih =>
    simp only [List.map_cons, List.nodup_cons] at hn
    by_cases h : a.id_ = id
    · have h1 : (a.id_ == id) = true := by simpa using h
      have h2 : (a.id_ != id) = false := by simpa using h
      rw [List.eraseP_cons, List.filter_cons]
      simp only [h1, h2, cond_true, Bool.false_eq_true, if_false]
      symm
      rw [List.filter_eq_self]
      intro x hx
      have : x.id_ ≠ id := fun hxe =>
        hn.1 (by rw [h, ← hxe]; exact List.mem_map_of_mem (fun o => o.id_) hx)
      simpa using this
    · have h1 : ¬ (a.id_ == id) = true := by simpa using h
      have h2 : (a.id_ != id) = true := by simpa using h
      have h3 : (a.id_ == id) = false := by simpa using h
      rw [List.eraseP_cons, List.filter_cons]
      simp only [h3, h2, cond_false, if_true, ih hn.2]

theorem filter_id_of_not_mem (l : List Order) (id : Nat)
    (h : id ∉ l.map (fun o => o.id_)) : l.filter (fun o => o.id_ != id) = l := by
  rw [List.filter_eq_self]
  intro x hx
  have : x.id_ ≠ id := fun hxe => h (hxe ▸ List.mem_map_of_mem (fun o => o.id_) hx)
  simpa using this

theorem map_key_filter (l : List Order) (id : Nat) :
    (l.filter (fun o => o.id_ != id)).map Order.key =
      (l.map Order.key).filter (fun k => k.1 != id) := by
  induction l with
  | nil => rfl
  | cons a l ih =>
    by_cases h : a.id_ = id
    · have h2 : (a.id_ != id) = false := by simpa using h
      simp [List.filter_cons, h2, ih, Order.key]
    · have h2 : (a.id_ != id) = true := by simpa using h
      simp [List.filter_cons, h2, ih, Order.key]

theorem map_id_eq_map_key (l : List Order) :
    l.map (fun o => o.id_) = (l.map Order.key).map Prod.fst := by
  simp [Order.key]

/-- Erasing a registered id keeps the registry in step with the queues that lost
the order of that id. -/
theorem lockstep_erase {R : Registry} {l : List Order} (id : Nat)
    (h : R.Perm (l.map Order.key)) :
    (R.erase id).Perm ((l.filter (fun o => o.id_ != id)).map Order.key) := by
  rw [map_key_filter]
  exact h.filter _

theorem nodup_filter_id {l : List Order} (id : Nat)
    (h : (l.map (fun o => o.id_)).Nodup) :
    ((l.filter (fun o => o.id_ != id)).map (fun o => o.id_)).Nodup :=
  h.sublist ((List.filter_sublist l).map _)

theorem filter_id_middle (X Y : List Order) (o : Order)
    (hn : ((X ++ o :: Y).map (fun o => o.id_)).Nodup) :
    (X ++ o :: Y).filter (fun x => x.id_ != o.id_) = X ++ Y := by
  have hn1 := hn
  simp only [List.map_append, List.map_cons, List.nodup_append, List.nodup_cons] at hn1
  obtain ⟨-, ⟨hoY, -⟩, hdis⟩ := hn1
  rw [List.filter_append, List.filter_cons]
  have hX : o.id_ ∉ X.map (fun o => o.id_) := fun hx => hdis hx (List.mem_cons_self _ _)
  rw [filter_id_of_not_mem X _ hX, filter_id_of_not_mem Y _ hoY]
  simp

theorem Lockstep.remove {R : Registry} {X Y : List Order} {o : Order}
    (h : Lockstep R (X ++ o :: Y)) : Lockstep (R.erase o.id_) (X ++ Y) := by
  have hf := filter_id_middle X Y o h.nodup
  constructor
  · have := lockstep_erase o.id_ h.perm
    rwa [hf] at this
  · have := nodup_filter_id o.id_ h.nodup
    rwa [hf] at this

theorem Lockstep.update {R : Registry} {X Y : List Order} {o : Order} (q : Nat)
    (h : Lockstep R (X ++ o :: Y)) : Lockstep R (X ++ o.reduce q :: Y) := by
  constructor
  · have := h.perm
    simpa using this
  · have := h.nodup
    simpa using this

/-- A fill of the order at a position, then the pop-and-erase when it is filled,
keeps registry and queues in step. -/
theorem Lockstep.fill {R : Registry} {X t Y : List Order} {o : Order} (q : Nat)
    (h : Lockstep R (X ++ o :: (t ++ Y))) :
    Lockstep (eraseFilled (o.reduce q) R) (X ++ (popFilled (o.reduce q) t ++ Y)) := by
  unfold eraseFilled popFilled
  by_cases hf : (o.reduce q).IsFilled = true
  · simp only [hf, if_true]
    exact h.remove
  · simp only [hf, Bool.false_eq_true, if_false, List.cons_append]
    exact h.update q

theorem Levels.WF.tail {side : Side} {x : Int × OrderList} {L : Levels}
    (h : Levels.WF side (x :: L)) : Levels.WF side L :=
  ⟨(List.pairwise_cons.mp h.sorted).2, fun y hy => h.nonempty y (List.mem_cons_of_mem _ hy),
   fun y hy => h.own y (List.mem_cons_of_mem _ hy)⟩

/-- Replacing the queue of the best level by a non-empty queue of orders of that
side and price keeps the side well shaped. -/
theorem Levels.WF.replaceHead {side : Side} {p : Int} {q q1 : OrderList} {L : Levels}
    (h : Levels.WF side ((p, q) :: L)) (hne : q1 ≠ [])
    (hown : ∀ o ∈ q1, o.side_ = side ∧ o.price_ = p) : Levels.WF side ((p, q1) :: L) := by
  refine ⟨?_, ?_, ?_⟩
  · have := h.sorted
    simp only [List.pairwise_cons] at this ⊢
    exact this
  · intro y hy
    rcases List.mem_cons.mp hy with rfl | hy
    · exact hne
    · exact h.nonempty y (List.mem_cons_of_mem _ hy)
  · intro y hy
    rcases List.mem_cons.mp hy with rfl | hy
    · exact hown
    · exact h.own y (List.mem_cons_of_mem _ hy)

theorem Levels.WF.round_levels {side : Side} {p : Int} {o : Order} {t : OrderList} {L : Levels}
    (q : Nat) (h : Levels.WF side ((p, o :: t) :: L)) :
    Levels.WF side (dropEmptied p (popFilled (o.reduce q) t) L) := by
  have hown := h.own (p, o :: t) (List.mem_cons_self _ _)
  unfold dropEmptied popFilled
  by_cases hf : (o.reduce q).IsFilled = true
  · simp only [hf, if_true]
    cases t with
    | nil => simpa [Levels.erase] using h.tail
    | cons a t =>
      simp only [List.isEmpty_cons, Bool.false_eq_true, if_false]
      exact h.replaceHead (by simp) (fun x hx => hown x (List.mem_cons_of_mem _ hx))
  · simp only [hf, Bool.false_eq_true, if_false, List.isEmpty_cons]
    refine h.replaceHead (by simp) ?_
    intro x hx
    rcases List.mem_cons.mp hx with rfl | hx
    · simpa using hown o (List.mem_cons_self _ _)
    · exact hown x (List.mem_cons_of_mem _ hx)

theorem OrderBook.WF.lock {ob : OrderBook} (h : ob.WF) :
    Lockstep ob.orderLookup_ ob.allOrders := ⟨h.lockstep, h.nodup⟩

/-- A trading pass keeps the book well formed. -/
theorem OrderBook.WF.round_wf {ob ob1 : OrderBook} {t : Trade}
    (h : ob.WF) (hr : ob.matchRound = .traded ob1 t) : ob1.WF := by
  obtain ⟨bp, sp, b, s, bt, st, B, S, hb, hs, -, rfl, -⟩ := OrderBook.matchRound_traded_inv hr
  have hbuy := h.buy
  have hsell := h.sell
  rw [hb] at hbuy
  rw [hs] at hsell
  have hl := h.lock
  simp only [OrderBook.allOrders, hb, hs, Levels.orders_cons] at hl
  have h1 : Lockstep (eraseFilled (b.reduce (min b.remainingQty_ s.remainingQty_)) ob.orderLookup_)
      ([] ++ (popFilled (b.reduce (min b.remainingQty_ s.remainingQty_)) bt ++
        (Levels.orders B ++ (s :: st ++ Levels.orders S)))) := by
    apply Lockstep.fill
    simpa using hl
  have h2 : Lockstep (eraseFilled (s.reduce (min b.remainingQty_ s.remainingQty_))
      (eraseFilled (b.reduce (min b.remainingQty_ s.remainingQty_)) ob.orderLookup_))
      ((popFilled (b.reduce (min b.remainingQty_ s.remainingQty_)) bt ++ Levels.orders B) ++
        (popFilled (s.reduce (min b.remainingQty_ s.remainingQty_)) st ++ Levels.orders S)) := by
    apply Lockstep.fill
    simpa using h1
  refine ⟨hbuy.round_levels _, hsell.round_levels _, ?_, ?_⟩
  · simpa [OrderBook.allOrders] using h2.nodup
  · simpa [OrderBook.allOrders] using h2.perm

/-! ## The level maps: `push_back` and the queue part of `CancelOrder` -/

theorem Side.before_irrefl (side : Side) (a : Int) : side.before a a = false := by
  cases side <;> simp [Side.before]

theorem Side.before_trans {side : Side} {a b c : Int}
    (h1 : side.before a b = true) (h2 : side.before b c = true) : side.before a c = true := by
  cases side
  · simp only [Side.before, decide_eq_true_eq, gt_iff_lt] at h1 h2 ⊢
    exact lt_trans h2 h1
  · simp only [Side.before, decide_eq_true_eq] at h1 h2 ⊢
    exact lt_trans h1 h2

theorem Side.before_of_not {side : Side} {a b : Int}
    (h1 : a ≠ b) (h2 : side.before a b = false) : side.before b a = true := by
  cases side
  · simp only [Side.before, decide_eq_true_eq, decide_eq_false_iff_not, gt_iff_lt, not_lt] at h2 ⊢
    exact lt_of_le_of_ne h2 h1
  · simp only [Side.before, decide_eq_true_eq, decide_eq_false_iff_not, not_lt] at h2 ⊢
    exact lt_of_le_of_ne h2 (Ne.symm h1)

theorem Levels.pushBack_orders_perm (side : Side) (p : Int) (o : Order) (l : Levels) :
    (Levels.pushBack side p o l).orders.Perm (o :: l.orders) := by
  induction l with
  | nil => simp [Levels.pushBack]
  | cons x l ih =>
    obtain ⟨p1, q⟩ := x
    unfold Levels.pushBack
    split
    · simp only [Levels.orders_cons, List.append_assoc, List.singleton_append]
      exact (List.perm_middle).trans (List.Perm.refl _)
    · split
      · simp
      · simp only [Levels.orders_cons]
        exact (List.Perm.append_left q ih).trans List.perm_middle

theorem Levels.mem_pushBack {side : Side} {p : Int} {o : Order} {l : Levels}
    {x : Int × OrderList} (hx : x ∈ Levels.pushBack side p o l) :
    x ∈ l ∨ x = (p, [o]) ∨ ∃ q, (p, q) ∈ l ∧ x = (p, q ++ [o]) := by
  induction l with
  | nil =>
    simp only [Levels.pushBack, List.mem_singleton] at hx
    exact Or.inr (Or.inl hx)
  | cons y l ih =>
    obtain ⟨p1, q⟩ := y
    unfold Levels.pushBack at hx
    split at hx
    · next hp =>
      rcases List.mem_cons.mp hx with rfl | hx
      · exact Or.inr (Or.inr ⟨q, by simp [hp], by simp [hp]⟩)
      · exact Or.inl (List.mem_cons_of_mem _ hx)
    · split at hx
      · rcases List.mem_cons.mp hx with rfl | hx
        · exact Or.inr (Or.inl rfl)
        · exact Or.inl hx
      · rcases List.mem_cons.mp hx with rfl | hx
        · exact Or.inl (List.mem_cons_self _ _)
        · rcases ih hx with h | h | ⟨q1, h, h1⟩
          · exact Or.inl (List.mem_cons_of_mem _ h)
          · exact Or.inr (Or.inl h)
          · exact Or.inr (Or.inr ⟨q1, List.mem_cons_of_mem _ h, h1⟩)

theorem Levels.pushBack_fst {side : Side} {p : Int} {o : Order} {l : Levels}
    {x : Int × OrderList} (hx : x ∈ Levels.pushBack side p o l) :
    x.1 = p ∨ x ∈ l := by
  rcases Levels.mem_pushBack hx with h | h | ⟨q, -, h⟩
  · exact Or.inr h
  · exact Or.inl (by rw [h])
  · exact Or.inl (by rw [h])

/-- The statement `levels[price].push_back(order)` keeps a side well shaped when the
order is of that side and price. -/
theorem Levels.WF.pushBack {side : Side} {l : Levels} (h : Levels.WF side l) (o : Order)
    (hs : o.side_ = side) : Levels.WF side (Levels.pushBack side o.price_ o l) := by
  refine ⟨?_, ?_, ?_⟩
  · have hsorted := h.sorted
    clear h
    induction l with
    | nil => simp [Levels.pushBack]
    | cons x l ih =>
      obtain ⟨p1, q⟩ := x
      have hc := List.pairwise_cons.mp hsorted
      unfold Levels.pushBack
      split
      · exact List.pairwise_cons.mpr ⟨hc.1, hc.2⟩
      · next hne =>
        split
        · next hb =>
          refine List.pairwise_cons.mpr ⟨?_, hsorted⟩
          intro y hy
          rcases List.mem_cons.mp hy with rfl | hy
          · exact hb
          · exact Side.before_trans hb (hc.1 y hy)
        · next hb =>
          refine List.pairwise_cons.mpr ⟨?_, ih hc.2⟩
          intro y hy
          rcases Levels.pushBack_fst hy with h1 | h1
          · rw [h1]
            exact Side.before_of_not hne (by simpa using hb)
          · exact hc.1 y h1
  · intro x hx
    rcases Levels.mem_pushBack hx with h1 | h1 | ⟨q, -, h1⟩
    · exact h.nonempty x h1
    · simp [h1]
    · simp [h1]
  · intro x hx a ha
    rcases Levels.mem_pushBack hx with h1 | h1 | ⟨q, hq, h1⟩
    · exact h.own x h1 a ha
    · subst h1
      simp only [List.mem_singleton] at ha
      subst ha
      exact ⟨hs, rfl⟩
    · subst h1
      rcases List.mem_append.mp ha with ha | ha
      · exact h.own _ hq a ha
      · simp only [List.mem_singleton] at ha
        subst ha
        exact ⟨hs, rfl⟩

theorem Levels.WF.key_ne {side : Side} {p : Int} {q : OrderList} {L : Levels}
    (h : Levels.WF side ((p, q) :: L)) : ∀ x ∈ L, x.1 ≠ p := by
  intro x hx hxe
  have := (List.pairwise_cons.mp h.sorted).1 x hx
  rw [hxe, Side.before_irrefl] at this
  cases this

/-- On a well-shaped side without repeated ids, the queue part of `CancelOrder`
removes exactly the orders carrying the id, provided they are filed at the price
the registry gave. -/
theorem Levels.cancel_orders {side : Side} {l : Levels} (h : Levels.WF side l)
    (p : Int) (id : Nat) (hn : (l.orders.map (fun o => o.id_)).Nodup)
    (hp : ∀ o ∈ l.orders, o.id_ = id → o.price_ = p) :
    (Levels.cancel p id l).orders = l.orders.filter (fun o => o.id_ != id) := by
  induction l with
  | nil => rfl
  | cons x l ih =>
    obtain ⟨p1, q⟩ := x
    simp only [Levels.orders_cons, List.map_append, List.nodup_append] at hn
    simp only [Levels.orders_cons, List.mem_append] at hp
    unfold Levels.cancel
    by_cases hpe : p1 = p
    · subst hpe
      have hrest : (Levels.orders l).filter (fun o => o.id_ != id) = Levels.orders l := by
        apply filter_id_of_not_mem
        intro hm
        obtain ⟨a, ha, hai⟩ := List.mem_map.mp hm
        obtain ⟨y, hy, hay⟩ := Levels.mem_orders.mp ha
        have h1 : a.price_ = y.1 := (h.own y (List.mem_cons_of_mem _ hy) a hay).2
        have h2 := hp a (Or.inr ha) hai
        exact h.key_ne y hy (h1.symm.trans h2)
      simp only [if_true, Levels.orders_cons, List.filter_append, hrest,
        ← eraseP_eq_filter_of_nodup q id hn.1]
      split
      · next he =>
        rw [List.isEmpty_iff] at he
        simp [he]
      · simp
    · simp only [hpe, if_false, Levels.orders_cons, List.filter_append]
      have hq : q.filter (fun o => o.id_ != id) = q := by
        apply filter_id_of_not_mem
        intro hm
        obtain ⟨a, ha, hai⟩ := List.mem_map.mp hm
        have h1 : a.price_ = p1 := (h.own (p1, q) (List.mem_cons_self _ _) a ha).2
        have h2 := hp a (Or.inl ha) hai
        exact hpe (h1.symm.trans h2)
      rw [hq, ih h.tail hn.2.1 (fun o ho => hp o (Or.inr ho))]

theorem Levels.mem_cancel {p : Int} {id : Nat} {l : Levels} {x : Int × OrderList}
    (hx : x ∈ Levels.cancel p id l) :
    x ∈ l ∨ ∃ q, (x.1, q) ∈ l ∧ x.2 = q.eraseP (fun o => o.id_ == id) ∧ x.2 ≠ [] := by
  induction l with
  | nil => simp [Levels.cancel] at hx
  | cons y l ih =>
    obtain ⟨p1, q⟩ := y
    unfold Levels.cancel at hx
    split at hx
    · split at hx
      · exact Or.inl (List.mem_cons_of_mem _ hx)
      · next hne =>
        rcases List.mem_cons.mp hx with rfl | hx
        · exact Or.inr ⟨q, List.mem_cons_self _ _, rfl, by simpa using hne⟩
        · exact Or.inl (List.mem_cons_of_mem _ hx)
    · rcases List.mem_cons.mp hx with rfl | hx
      · exact Or.inl (List.mem_cons_self _ _)
      · rcases ih hx with h | ⟨q1, h1, h2, h3⟩
        · exact Or.inl (List.mem_cons_of_mem _ h)
        · exact Or.inr ⟨q1, List.mem_cons_of_mem _ h1, h2, h3⟩

theorem Levels.cancel_fst {p : Int} {id : Nat} {l : Levels} {x : Int × OrderList}
    (hx : x ∈ Levels.cancel p id l) : ∃ y ∈ l, y.1 = x.1 := by
  rcases Levels.mem_cancel hx with h | ⟨q, h, -, -⟩
  · exact ⟨x, h, rfl⟩
  · exact ⟨_, h, rfl⟩

/-- The queue part of `CancelOrder` keeps a side well shaped. -/
theorem Levels.WF.cancel {side : Side} {l : Levels} (h : Levels.WF side l)
    (p : Int) (id : Nat) : Levels.WF side (Levels.cancel p id l) := by
  refine ⟨?_, ?_, ?_⟩
  · have hsorted := h.sorted
    clear h
    induction l with
    | nil => simp [Levels.cancel]
    | cons x l ih =>
      obtain ⟨p1, q⟩ := x
      have hc := List.pairwise_cons.mp hsorted
      unfold Levels.cancel
      split
      · split
        · exact hc.2
        · exact List.pairwise_cons.mpr ⟨hc.1, hc.2⟩
      · refine List.pairwise_cons.mpr ⟨?_, ih hc.2⟩
        intro y hy
        obtain ⟨z, hz, hze⟩ := Levels.cancel_fst hy
        rw [← hze]
        exact hc.1 z hz
  · intro x hx
    rcases Levels.mem_cancel hx with h1 | ⟨q, -, -, h3⟩
    · exact h.nonempty x h1
    · exact h3
  · intro x hx a ha
    rcases Levels.mem_cancel hx with h1 | ⟨q, h1, h2, -⟩
    · exact h.own x h1 a ha
    · rw [h2] at ha
      exact h.own _ h1 a (List.mem_of_mem_eraseP ha)

/-! ## Well-formed books: registry lookups, `CancelOrder`, insertion -/

theorem OrderBook.WF.regNodup {ob : OrderBook} (h : ob.WF) :
    (ob.orderLookup_.map Prod.fst).Nodup := by
  have hp : (ob.orderLookup_.map Prod.fst).Perm ((ob.allOrders.map Order.key).map Prod.fst) :=
    h.lockstep.map _
  rw [← map_id_eq_map_key] at hp
  exact hp.nodup_iff.mpr h.nodup

/-- In a well-formed book an id is registered with an entry exactly when a queued
order carries that id and stands for that entry. -/
theorem OrderBook.WF.lookup_iff {ob : OrderBook} (h : ob.WF) (id : Nat) (e : OrderEntry) :
    ob.orderLookup_.lookup id = some e ↔ ∃ o ∈ ob.allOrders, o.id_ = id ∧ o.entry = e := by
  rw [Registry.lookup_eq_some h.regNodup, h.lockstep.mem_iff, List.mem_map]
  constructor
  · rintro ⟨o, ho, hk⟩
    simp only [Order.key, Prod.mk.injEq] at hk
    exact ⟨o, ho, hk.1, hk.2⟩
  · rintro ⟨o, ho, h1, h2⟩
    exact ⟨o, ho, by simp [Order.key, h1, h2]⟩

theorem OrderBook.WF.lookup_none_iff {ob : OrderBook} (h : ob.WF) (id : Nat) :
    ob.orderLookup_.lookup id = none ↔ id ∉ ob.allOrders.map (fun o => o.id_) := by
  rw [Registry.lookup_eq_none, map_id_eq_map_key]
  have hp : (ob.orderLookup_.map Prod.fst).Perm ((ob.allOrders.map Order.key).map Prod.fst) :=
    h.lockstep.map _
  rw [hp.mem_iff]

theorem OrderBook.WF.side_of_mem_buy {ob : OrderBook} (h : ob.WF) {o : Order}
    (ho : o ∈ ob.buyOrders_.orders) : o.side_ = .Buy ∧ (∃ x ∈ ob.buyOrders_, o ∈ x.2 ∧ o.price_ = x.1) := by
  obtain ⟨x, hx, hox⟩ := Levels.mem_orders.mp ho
  exact ⟨(h.buy.own x hx o hox).1, x, hx, hox, (h.buy.own x hx o hox).2⟩

theorem OrderBook.WF.side_of_mem_sell {ob : OrderBook} (h : ob.WF) {o : Order}
    (ho : o ∈ ob.sellOrders_.orders) : o.side_ = .Sell ∧ (∃ x ∈ ob.sellOrders_, o ∈ x.2 ∧ o.price_ = x.1) := by
  obtain ⟨x, hx, hox⟩ := Levels.mem_orders.mp ho
  exact ⟨(h.sell.own x hx o hox).1, x, hx, hox, (h.sell.own x hx o hox).2⟩

/-- Two queued orders of a well-formed book with the same id are the same order. -/
theorem OrderBook.WF.eq_of_id {ob : OrderBook} (h : ob.WF) {a b : Order}
    (ha : a ∈ ob.allOrders) (hb : b ∈ ob.allOrders) (hab : a.id_ = b.id_) : a = b :=
  List.inj_on_of_nodup_map h.nodup ha hb hab

theorem OrderBook.CancelOrder_none {ob : OrderBook} {id : Nat}
    (h : ob.orderLookup_.lookup id = none) : ob.CancelOrder id = ob := by
  simp [OrderBook.CancelOrder, h]

theorem OrderBook.CancelOrder_buy {ob : OrderBook} {id : Nat} {e : OrderEntry}
    (h : ob.orderLookup_.lookup id = some e) (hs : e.side_ = .Buy) :
    ob.CancelOrder id =
      ⟨Levels.cancel e.price_ id ob.buyOrders_, ob.sellOrders_, ob.orderLookup_.erase id⟩ := by
  simp [OrderBook.CancelOrder, h, hs]

theorem OrderBook.CancelOrder_sell {ob : OrderBook} {id : Nat} {e : OrderEntry}
    (h : ob.orderLookup_.lookup id = some e) (hs : e.side_ = .Sell) :
    ob.CancelOrder id =
      ⟨ob.buyOrders_, Levels.cancel e.price_ id ob.sellOrders_, ob.orderLookup_.erase id⟩ := by
  simp [OrderBook.CancelOrder, h, hs]

/-- On a well-formed book `CancelOrder` removes from the queues exactly the orders
carrying the id (none when the id is not registered) and erases the id from the
registry. -/
theorem OrderBook.WF.cancel_eq {ob : OrderBook} (h : ob.WF) (id : Nat) :
    (ob.CancelOrder id).buyOrders_.orders = ob.buyOrders_.orders.filter (fun o => o.id_ != id) ∧
    (ob.CancelOrder id).sellOrders_.orders = ob.sellOrders_.orders.filter (fun o => o.id_ != id) ∧
    (ob.CancelOrder id).orderLookup_ = ob.orderLookup_.erase id := by
  have hn := h.nodup
  simp only [OrderBook.allOrders, List.map_append, List.nodup_append] at hn
  cases hl : ob.orderLookup_.lookup id with
  | none =>
    have hnot := (h.lookup_none_iff id).mp hl
    simp only [OrderBook.allOrders, List.map_append, List.mem_append, not_or] at hnot
    rw [OrderBook.CancelOrder_none hl, filter_id_of_not_mem _ _ hnot.1,
      filter_id_of_not_mem _ _ hnot.2, Registry.erase_of_not_mem hl]
    exact ⟨rfl, rfl, rfl⟩
  | some e =>
    obtain ⟨o, ho, hoid, hoe⟩ := (h.lookup_iff id e).mp hl
    have huniq : ∀ a ∈ ob.allOrders, a.id_ = id → a = o := fun a ha hai =>
      h.eq_of_id ha ho (hai.trans hoid.symm)
    have hos : o.side_ = e.side_ := by rw [← hoe]; rfl
    have hop : o.price_ = e.price_ := by rw [← hoe]; rfl
    cases hs : e.side_ with
    | Buy =>
      rw [OrderBook.CancelOrder_buy hl hs]
      have hob : o ∈ ob.buyOrders_.orders := by
        rcases List.mem_append.mp ho with h1 | h1
        · exact h1
        · have := (h.side_of_mem_sell h1).1
          rw [hos, hs] at this
          cases this
      have hnot : id ∉ ob.sellOrders_.orders.map (fun o => o.id_) := by
        intro hm
        refine hn.2.2 ?_ hm
        rw [← hoid]
        exact List.mem_map_of_mem (fun o => o.id_) hob
      rw [filter_id_of_not_mem _ _ hnot]
      refine ⟨?_, rfl, rfl⟩
      apply Levels.cancel_orders h.buy _ _ hn.1
      intro a ha hai
      rw [huniq a (List.mem_append_left _ ha) hai, hop]
    | Sell =>
      rw [OrderBook.CancelOrder_sell hl hs]
      have hob : o ∈ ob.sellOrders_.orders := by
        rcases List.mem_append.mp ho with h1 | h1
        · have := (h.side_of_mem_buy h1).1
          rw [hos, hs] at this
          cases this
        · exact h1
      have hnot : id ∉ ob.buyOrders_.orders.map (fun o => o.id_) := by
        intro hm
        refine hn.2.2 hm ?_
        rw [← hoid]
        exact List.mem_map_of_mem (fun o => o.id_) hob
      rw [filter_id_of_not_mem _ _ hnot]
      refine ⟨rfl, ?_, rfl⟩
      apply Levels.cancel_orders h.sell _ _ hn.2.1
      intro a ha hai
      rw [huniq a (List.mem_append_right _ ha) hai, hop]

theorem OrderBook.CancelOrder_levels (ob : OrderBook) (id : Nat) :
    (∃ p, (ob.CancelOrder id).buyOrders_ = Levels.cancel p id ob.buyOrders_ ∧
      (ob.CancelOrder id).sellOrders_ = ob.sellOrders_) ∨
    (∃ p, (ob.CancelOrder id).sellOrders_ = Levels.cancel p id ob.sellOrders_ ∧
      (ob.CancelOrder id).buyOrders_ = ob.buyOrders_) ∨
    ob.CancelOrder id = ob := by
  cases hl : ob.orderLookup_.lookup id with
  | none => exact Or.inr (Or.inr (OrderBook.CancelOrder_none hl))
  | some e =>
    cases hs : e.side_ with
    | Buy =>
      rw [OrderBook.CancelOrder_buy hl hs]
      exact Or.inl ⟨e.price_, rfl, rfl⟩
    | Sell =>
      rw [OrderBook.CancelOrder_sell hl hs]
      exact Or.inr (Or.inl ⟨e.price_, rfl, rfl⟩)

/-- The method `CancelOrder` keeps the book well formed. -/
theorem OrderBook.WF.cancelOrder_wf {ob : OrderBook} (h : ob.WF) (id : Nat) :
    (ob.CancelOrder id).WF := by
  obtain ⟨h1, h2, h3⟩ := h.cancel_eq id
  have hall : (ob.CancelOrder id).allOrders = ob.allOrders.filter (fun o => o.id_ != id) := by
    simp only [OrderBook.allOrders, h1, h2, List.filter_append]
  refine ⟨?_, ?_, ?_, ?_⟩
  · rcases OrderBook.CancelOrder_levels ob id with ⟨p, hp, -⟩ | ⟨p, -, hp⟩ | hp
    · rw [hp]; exact h.buy.cancel p id
    · rw [hp]; exact h.buy
    · rw [hp]; exact h.buy
  · rcases OrderBook.CancelOrder_levels ob id with ⟨p, -, hp⟩ | ⟨p, hp, -⟩ | hp
    · rw [hp]; exact h.sell
    · rw [hp]; exact h.sell.cancel p id
    · rw [hp]; exact h.sell
  · rw [hall]
    exact nodup_filter_id id h.nodup
  · rw [hall, h3]
    exact lockstep_erase id h.lockstep

/-- Insertion of an order with an unregistered id keeps the book well formed. -/
theorem OrderBook.WF.insert_wf {ob : OrderBook} (h : ob.WF) (o : Order)
    (hid : ob.orderLookup_.lookup o.id_ = none) : (ob.insert o).WF := by
  have hnot := (h.lookup_none_iff o.id_).mp hid
  have hc : ob.orderLookup_.contains o.id_ = false := Registry.contains_eq_false.mpr hid
  unfold OrderBook.insert
  cases hs : o.side_ with
  | Buy =>
    have hperm : (OrderBook.allOrders ⟨Levels.pushBack .Buy o.price_ o ob.buyOrders_,
        ob.sellOrders_, ob.orderLookup_.emplace o.id_ o.entry⟩).Perm (o :: ob.allOrders) := by
      simp only [OrderBook.allOrders]
      exact (Levels.pushBack_orders_perm _ _ _ _).append_right _
    refine ⟨h.buy.pushBack o hs, h.sell, ?_, ?_⟩
    · rw [(hperm.map _).nodup_iff]
      exact List.nodup_cons.mpr ⟨hnot, h.nodup⟩
    · simp only [Registry.emplace, hc, Bool.false_eq_true, if_false]
      refine List.Perm.trans ?_ (hperm.map _).symm
      exact List.Perm.cons _ h.lockstep
  | Sell =>
    have hperm : (OrderBook.allOrders ⟨ob.buyOrders_,
        Levels.pushBack .Sell o.price_ o ob.sellOrders_,
        ob.orderLookup_.emplace o.id_ o.entry⟩).Perm (o :: ob.allOrders) := by
      simp only [OrderBook.allOrders]
      exact ((Levels.pushBack_orders_perm _ _ _ _).append_left _).trans List.perm_middle
    refine ⟨h.buy, h.sell.pushBack o hs, ?_, ?_⟩
    · rw [(hperm.map _).nodup_iff]
      exact List.nodup_cons.mpr ⟨hnot, h.nodup⟩
    · simp only [Registry.emplace, hc, Bool.false_eq_true, if_false]
      refine List.Perm.trans ?_ (hperm.map _).symm
      exact List.Perm.cons _ h.lockstep

/-! ## An incoming order sweeping the other side -/

theorem dropEmptied_fst {p : Int} {q : OrderList} {rest : Levels} {x : Int × OrderList}
    (hx : x ∈ dropEmptied p q rest) : x.1 = p ∨ x ∈ rest := by
  unfold dropEmptied at hx
  cases q with
  | nil =>
    simp only [List.isEmpty_nil, if_true, Levels.erase] at hx
    exact Or.inr hx
  | cons a t =>
    simp only [List.isEmpty_cons, Bool.false_eq_true, if_false, List.mem_cons] at hx
    rcases hx with rfl | hx
    · exact Or.inl rfl
    · exact Or.inr hx

theorem dropEmptied_nil (p : Int) (rest : Levels) : dropEmptied p [] rest = rest := by
  simp [dropEmptied, Levels.erase]

theorem dropEmptied_cons (p : Int) (a : Order) (t : OrderList) (rest : Levels) :
    dropEmptied p (a :: t) rest = (p, a :: t) :: rest := by
  simp [dropEmptied]

theorem Order.reduce_reduce (o : Order) (a b : Nat) :
    (o.reduce a).reduce b = o.reduce (a + b) := by
  simp [Order.reduce, Nat.sub_sub]

@[simp] theorem totalRemaining_nil : totalRemaining [] = 0 := rfl

@[simp] theorem totalRemaining_cons (a : Order) (l : List Order) :
    totalRemaining (a :: l) = a.remainingQty_ + totalRemaining l := by
  simp [totalRemaining]

@[simp] theorem totalRemaining_append (l1 l2 : List Order) :
    totalRemaining (l1 ++ l2) = totalRemaining l1 + totalRemaining l2 := by
  simp [totalRemaining]

/-- A trading pass during the sweep of an incoming buy order. -/
theorem Sweep.round_buy {ob0 : OrderBook} {o : Order} (hside : o.side_ = .Buy)
    {ob ob1 : OrderBook} {T : Trades} {t : Trade} (hwf : ob.WF)
    (hsw : Sweep ob0 o ob T) (hr : ob.matchRound = .traded ob1 t) :
    Sweep ob0 o ob1 (T ++ [t]) := by
  obtain ⟨bp, sp, b, s, bt, st, B, S, hb, hs, hle, rfl, rfl⟩ :=
    OrderBook.matchRound_traded_inv hr
  have hsown := hwf.sell.own (sp, s :: st) (by rw [hs]; exact List.mem_cons_self _ _) s
    (List.mem_cons_self _ _)
  cases hsw with
  | alive pre post h0 hpost hown hk hT hcross hun =>
    simp only [hside, Side.opposite, OrderBook.levels] at h0 hpost hown hun hcross
    rw [hb] at hown
    injection hown with h1 h2
    injection h1 with h3 h4
    injection h4 with h5 h6
    subst h3 h5 h6 h2
    rw [hs, Levels.orders_cons] at hpost
    have hsp : s.price_ = sp := hsown.2
    have hcs : Side.before .Buy s.price_ o.price_ = false := by
      simp only [Side.before, decide_eq_false_iff_not, gt_iff_lt, not_lt, hsp]
      exact hle
    have hkeys : ∀ x ∈ ob0.buyOrders_, ∀ y ∈
        dropEmptied sp (popFilled (s.reduce (min (o.reduce (totalRemaining pre)).remainingQty_
          s.remainingQty_)) st) S, Side.before .Buy y.1 x.1 = true := by
      intro x hx y hy
      rcases dropEmptied_fst hy with h | h
      · rw [h]
        exact hun x hx (sp, s :: st) (by rw [hs]; exact List.mem_cons_self _ _)
      · exact hun x hx y (by rw [hs]; exact List.mem_cons_of_mem _ h)
    by_cases hlt : s.remainingQty_ < (o.reduce (totalRemaining pre)).remainingQty_
    · -- the resting order is filled, the incoming order stays
      have hmin : min (o.reduce (totalRemaining pre)).remainingQty_ s.remainingQty_ =
          s.remainingQty_ := Nat.min_eq_right (Nat.le_of_lt hlt)
      rw [hmin] at hkeys ⊢
      simp only [Order.reduce_remaining] at hlt
      have hb1 : popFilled ((o.reduce (totalRemaining pre)).reduce s.remainingQty_) [] =
          [o.reduce (totalRemaining (pre ++ [s]))] := by
        rw [Order.reduce_reduce, popFilled_rest]
        · simp
        · simp only [Order.reduce_remaining]
          omega
      have hs1 : popFilled (s.reduce s.remainingQty_) st = st :=
        popFilled_filled _ (by simp)
      rw [hs1] at hkeys
      refine Sweep.alive _ _ (pre ++ [s]) (st ++ Levels.orders S) ?_ ?_ ?_ ?_ ?_ ?_ ?_
      · simp only [hside, Side.opposite, OrderBook.levels]
        rw [h0, ← hpost]
        simp
      · simp only [hside, Side.opposite, OrderBook.levels, dropEmptied_orders, hs1]
      · simp only [hside, OrderBook.levels, hb1, dropEmptied_cons]
      · simp only [totalRemaining_append, totalRemaining_cons, totalRemaining_nil]
        omega
      · simp only [hT, List.map_append, List.map_cons, List.map_nil, tradeOf, hside,
          Order.reduce_id, Order.reduce_price]
      · intro a ha
        rcases List.mem_append.mp ha with ha | ha
        · simpa [hside] using hcross a ha
        · simp only [List.mem_singleton] at ha
          subst ha
          simpa [hside] using hcs
      · simpa only [hside, Side.opposite, OrderBook.levels, hs1] using hkeys
    · -- the incoming order is filled and popped
      have hge : (o.reduce (totalRemaining pre)).remainingQty_ ≤ s.remainingQty_ :=
        Nat.le_of_not_lt hlt
      have hmin : min (o.reduce (totalRemaining pre)).remainingQty_ s.remainingQty_ =
          (o.reduce (totalRemaining pre)).remainingQty_ := Nat.min_eq_left hge
      rw [hmin] at hkeys ⊢
      have hb1 : popFilled ((o.reduce (totalRemaining pre)).reduce
          (o.reduce (totalRemaining pre)).remainingQty_) [] = [] :=
        popFilled_filled _ (by simp)
      refine Sweep.gone _ _ pre s (st ++ Levels.orders S)
        (o.reduce (totalRemaining pre)).remainingQty_ ?_ ?_ ?_ ?_ ?_ ?_ ?_ ?_
      · simp only [hside, Side.opposite, OrderBook.levels]
        rw [h0, ← hpost]
        simp
      · simp only [hside, Side.opposite, OrderBook.levels, dropEmptied_orders]
        unfold popFilled
        split <;> simp
      · simp only [hside, OrderBook.levels, hb1, dropEmptied_nil]
      · simp only [Order.reduce_remaining]
        omega
      · exact hge
      · simp only [hT, tradeOf, hside, Order.reduce_id, Order.reduce_price]
      · intro a ha
        rcases List.mem_append.mp ha with ha | ha
        · simpa [hside] using hcross a ha
        · simp only [List.mem_singleton] at ha
          subst ha
          simpa [hside] using hcs
      · simpa only [hside, Side.opposite, OrderBook.levels, hb1, dropEmptied_nil] using hkeys
  | gone pre a post q h0 hpost hown hk hq hT hcross hun =>
    exfalso
    simp only [hside, Side.opposite, OrderBook.levels] at hun
    have := hun (bp, b :: bt) (by rw [hb]; exact List.mem_cons_self _ _) (sp, s :: st)
      (by rw [hs]; exact List.mem_cons_self _ _)
    simp only [Side.before, decide_eq_true_eq, gt_iff_lt] at this
    exact absurd hle (Int.not_le.mpr this)

/-- A trading pass during the sweep of an incoming sell order. -/
theorem Sweep.round_sell {ob0 : OrderBook} {o : Order} (hside : o.side_ = .Sell)
    {ob ob1 : OrderBook} {T : Trades} {t : Trade} (hwf : ob.WF)
    (hsw : Sweep ob0 o ob T) (hr : ob.matchRound = .traded ob1 t) :
    Sweep ob0 o ob1 (T ++ [t]) := by
  obtain ⟨bp, sp, b, s, bt, st, B, S, hb, hs, hle, rfl, rfl⟩ :=
    OrderBook.matchRound_traded_inv hr
  have hbown := hwf.buy.own (bp, b :: bt) (by rw [hb]; exact List.mem_cons_self _ _) b
    (List.mem_cons_self _ _)
  cases hsw with
  | alive pre post h0 hpost hown hk hT hcross hun =>
    simp only [hside, Side.opposite, OrderBook.levels] at h0 hpost hown hun hcross
    rw [hs] at hown
    injection hown with h1 h2
    injection h1 with h3 h4
    injection h4 with h5 h6
    subst h3 h5 h6 h2
    rw [hb, Levels.orders_cons] at hpost
    have hbp : b.price_ = bp := hbown.2
    have hcs : Side.before .Sell b.price_ o.price_ = false := by
      simp only [Side.before, decide_eq_false_iff_not, not_lt, hbp]
      exact hle
    have hkeys : ∀ x ∈ ob0.sellOrders_, ∀ y ∈
        dropEmptied bp (popFilled (b.reduce (min b.remainingQty_
          (o.reduce (totalRemaining pre)).remainingQty_)) bt) B,
          Side.before .Sell y.1 x.1 = true := by
      intro x hx y hy
      rcases dropEmptied_fst hy with h | h
      · rw [h]
        exact hun x hx (bp, b :: bt) (by rw [hb]; exact List.mem_cons_self _ _)
      · exact hun x hx y (by rw [hb]; exact List.mem_cons_of_mem _ h)
    by_cases hlt : b.remainingQty_ < (o.reduce (totalRemaining pre)).remainingQty_
    · -- the resting order is filled, the incoming order stays
      have hmin : min b.remainingQty_ (o.reduce (totalRemaining pre)).remainingQty_ =
          b.remainingQty_ := Nat.min_eq_left (Nat.le_of_lt hlt)
      rw [hmin] at hkeys ⊢
      simp only [Order.reduce_remaining] at hlt
      have hs1 : popFilled ((o.reduce (totalRemaining pre)).reduce b.remainingQty_) [] =
          [o.reduce (totalRemaining (pre ++ [b]))] := by
        rw [Order.reduce_reduce, popFilled_rest]
        · simp
        · simp only [Order.reduce_remaining]
          omega
      have hb1 : popFilled (b.reduce b.remainingQty_) bt = bt :=
        popFilled_filled _ (by simp)
      rw [hb1] at hkeys
      refine Sweep.alive _ _ (pre ++ [b]) (bt ++ Levels.orders B) ?_ ?_ ?_ ?_ ?_ ?_ ?_
      · simp only [hside, Side.opposite, OrderBook.levels]
        rw [h0, ← hpost]
        simp
      · simp only [hside, Side.opposite, OrderBook.levels, dropEmptied_orders, hb1]
      · simp only [hside, OrderBook.levels, hs1, dropEmptied_cons]
      · simp only [totalRemaining_append, totalRemaining_cons, totalRemaining_nil]
        omega
      · simp only [hT, List.map_append, List.map_cons, List.map_nil, tradeOf, hside,
          Order.reduce_id, Order.reduce_price]
      · intro a ha
        rcases List.mem_append.mp ha with ha | ha
        · simpa [hside] using hcross a ha
        · simp only [List.mem_singleton] at ha
          subst ha
          simpa [hside] using hcs
      · simpa only [hside, Side.opposite, OrderBook.levels, hb1] using hkeys
    · -- the incoming order is filled and popped
      have hge : (o.reduce (totalRemaining pre)).remainingQty_ ≤ b.remainingQty_ :=
        Nat.le_of_not_lt hlt
      have hmin : min b.remainingQty_ (o.reduce (totalRemaining pre)).remainingQty_ =
          (o.reduce (totalRemaining pre)).remainingQty_ := Nat.min_eq_right hge
      rw [hmin] at hkeys ⊢
      have hs1 : popFilled ((o.reduce (totalRemaining pre)).reduce
          (o.reduce (totalRemaining pre)).remainingQty_) [] = [] :=
        popFilled_filled _ (by simp)
      refine Sweep.gone _ _ pre b (bt ++ Levels.orders B)
        (o.reduce (totalRemaining pre)).remainingQty_ ?_ ?_ ?_ ?_ ?_ ?_ ?_ ?_
      · simp only [hside, Side.opposite, OrderBook.levels]
        rw [h0, ← hpost]
        simp
      · simp only [hside, Side.opposite, OrderBook.levels, dropEmptied_orders]
        unfold popFilled
        split <;> simp
      · simp only [hside, OrderBook.levels, hs1, dropEmptied_nil]
      · simp only [Order.reduce_remaining]
        omega
      · exact hge
      · simp only [hT, tradeOf, hside, Order.reduce_id, Order.reduce_price]
      · intro a ha
        rcases List.mem_append.mp ha with ha | ha
        · simpa [hside] using hcross a ha
        · simp only [List.mem_singleton] at ha
          subst ha
          simpa [hside] using hcs
      · simpa only [hside, Side.opposite, OrderBook.levels, hs1, dropEmptied_nil] using hkeys
  | gone pre a post q h0 hpost hown hk hq hT hcross hun =>
    exfalso
    simp only [hside, Side.opposite, OrderBook.levels] at hun
    have := hun (sp, s :: st) (by rw [hs]; exact List.mem_cons_self _ _) (bp, b :: bt)
      (by rw [hb]; exact List.mem_cons_self _ _)
    simp only [Side.before, decide_eq_true_eq] at this
    exact absurd hle (Int.not_le.mpr this)

/-- A trading pass keeps the sweep description, whichever side the incoming order
is on. -/
theorem Sweep.round_sweep {ob0 : OrderBook} {o : Order}
    {ob ob1 : OrderBook} {T : Trades} {t : Trade} (hwf : ob.WF)
    (hsw : Sweep ob0 o ob T) (hr : ob.matchRound = .traded ob1 t) :
    Sweep ob0 o ob1 (T ++ [t]) := by
  cases hside : o.side_ with
  | Buy => exact Sweep.round_buy hside hwf hsw hr
  | Sell => exact Sweep.round_sell hside hwf hsw hr

/-! ## Crossing and the shape of the book after insertion -/

theorem OrderBook.matchRound_of_uncrossed {ob : OrderBook} (h : ob.Uncrossed) :
    ob.matchRound = .exit := by
  obtain ⟨buy, sell, R⟩ := ob
  match buy, sell with
  | [], _ => simp
  | _ :: _, [] => simp
  | (bp, bl) :: B, (sp, sl) :: S =>
    exact OrderBook.matchRound_apart _ _ _ _ _ _ _
      (h (bp, bl) (List.mem_cons_self _ _) (sp, sl) (List.mem_cons_self _ _))

/-- A well-formed book on which a pass exits is not crossed at any pair of levels. -/
theorem OrderBook.WF.uncrossed_of_exit {ob : OrderBook} (h : ob.WF)
    (he : ob.matchRound = .exit) : ob.Uncrossed := by
  intro x hx y hy
  rcases OrderBook.matchRound_exit_inv he with h1 | h1 | ⟨bp, bl, B, sp, sl, S, hb, hs, hlt⟩
  · rw [h1] at hx
    cases hx
  · rw [h1] at hy
    cases hy
  · have hbs := h.buy.sorted
    have hss := h.sell.sorted
    rw [hb] at hbs hx
    rw [hs] at hss hy
    have hxle : x.1 ≤ bp := by
      rcases List.mem_cons.mp hx with rfl | hx
      · exact le_refl _
      · have := (List.pairwise_cons.mp hbs).1 x hx
        simp only [Side.before, decide_eq_true_eq, gt_iff_lt] at this
        exact le_of_lt this
    have hyge : sp ≤ y.1 := by
      rcases List.mem_cons.mp hy with rfl | hy
      · exact le_refl _
      · have := (List.pairwise_cons.mp hss).1 y hy
        simp only [Side.before, decide_eq_true_eq] at this
        exact le_of_lt this
    exact lt_of_le_of_lt hxle (lt_of_lt_of_le hlt hyge)

theorem OrderBook.Uncrossed.cancelOrder_uncrossed {ob : OrderBook} (h : ob.Uncrossed) (id : Nat) :
    (ob.CancelOrder id).Uncrossed := by
  intro x hx y hy
  rcases OrderBook.CancelOrder_levels ob id with ⟨p, hp, hq⟩ | ⟨p, hp, hq⟩ | hp
  · rw [hp] at hx
    rw [hq] at hy
    obtain ⟨z, hz, hze⟩ := Levels.cancel_fst hx
    rw [← hze]
    exact h z hz y hy
  · rw [hp] at hy
    rw [hq] at hx
    obtain ⟨z, hz, hze⟩ := Levels.cancel_fst hy
    rw [← hze]
    exact h x hx z hz
  · rw [hp] at hx hy
    exact h x hx y hy

theorem Levels.pushBack_head {side : Side} {p : Int} {o : Order} {l : Levels}
    (h : ∀ x ∈ l, side.before p x.1 = true) :
    Levels.pushBack side p o l = (p, [o]) :: l := by
  cases l with
  | nil => rfl
  | cons x l =>
    obtain ⟨p1, q⟩ := x
    have h1 := h (p1, q) (List.mem_cons_self _ _)
    have hne : p ≠ p1 := by
      intro he
      rw [he, Side.before_irrefl] at h1
      cases h1
    simp only [Levels.pushBack, hne, if_false]
    simp only at h1
    simp [h1]

@[simp] theorem Side.opposite_opposite (s : Side) : s.opposite.opposite = s := by
  cases s <;> rfl

theorem OrderBook.insert_levels_opposite (ob : OrderBook) (o : Order) :
    (ob.insert o).levels o.side_.opposite = ob.levels o.side_.opposite := by
  unfold OrderBook.insert
  cases hs : o.side_ <;> rfl

theorem OrderBook.insert_levels_own (ob : OrderBook) (o : Order) :
    (ob.insert o).levels o.side_ = Levels.pushBack o.side_ o.price_ o (ob.levels o.side_) := by
  unfold OrderBook.insert
  cases hs : o.side_ <;> rfl

theorem OrderBook.insert_lookup (ob : OrderBook) (o : Order) :
    (ob.insert o).orderLookup_ = ob.orderLookup_.emplace o.id_ o.entry := by
  unfold OrderBook.insert
  cases hs : o.side_ <;> rfl

/-- In an uncrossed book stated side by side: every level of a side is apart from
every level of the other side. -/
theorem OrderBook.Uncrossed.apart {ob : OrderBook} (h : ob.Uncrossed) (side : Side) :
    ∀ x ∈ ob.levels side, ∀ y ∈ ob.levels side.opposite, side.before y.1 x.1 = true := by
  intro x hx y hy
  cases side with
  | Buy =>
    simp only [Side.before, decide_eq_true_eq, gt_iff_lt]
    exact h x hx y hy
  | Sell =>
    simp only [Side.before, decide_eq_true_eq]
    exact h y hy x hx

/-- The predicate `CanMatch` side by side: the other side has a best level and the
price is not on the far side of it. -/
theorem OrderBook.CanMatch_iff (ob : OrderBook) (side : Side) (p : Int) :
    ob.CanMatch side p = true ↔
      ∃ y rest, ob.levels side.opposite = y :: rest ∧ side.before y.1 p = false := by
  cases side with
  | Buy =>
    simp only [OrderBook.CanMatch, OrderBook.levels, Side.opposite, Side.before]
    cases ob.sellOrders_ with
    | nil => simp
    | cons y rest =>
      obtain ⟨bestAsk, q⟩ := y
      simp
  | Sell =>
    simp only [OrderBook.CanMatch, OrderBook.levels, Side.opposite, Side.before]
    cases ob.buyOrders_ with
    | nil => simp
    | cons y rest =>
      obtain ⟨bestBid, q⟩ := y
      simp

theorem Side.before_of_before_of_not {side : Side} {a b c : Int}
    (h1 : side.before a b = true) (h2 : side.before a c = false) : side.before c b = true := by
  cases side
  · simp only [Side.before, decide_eq_true_eq, decide_eq_false_iff_not, gt_iff_lt, not_lt] at *
    exact lt_of_lt_of_le h1 h2
  · simp only [Side.before, decide_eq_true_eq, decide_eq_false_iff_not, not_lt] at *
    exact lt_of_le_of_lt h2 h1

/-- When the incoming order can match, insertion puts it alone on a new best level
of its side, and the sweep starts. -/
theorem Sweep.start {ob0 : OrderBook} (hun : ob0.Uncrossed) (o : Order)
    (hcan : ob0.CanMatch o.side_ o.price_ = true) : Sweep ob0 o (ob0.insert o) [] := by
  obtain ⟨y, rest, hy, hyp⟩ := (OrderBook.CanMatch_iff ob0 o.side_ o.price_).mp hcan
  have hhead : ∀ x ∈ ob0.levels o.side_, o.side_.before o.price_ x.1 = true := by
    intro x hx
    have := hun.apart o.side_ x hx y (by rw [hy]; exact List.mem_cons_self _ _)
    exact Side.before_of_before_of_not this hyp
  refine Sweep.alive _ _ [] (ob0.levels o.side_.opposite).orders ?_ ?_ ?_ ?_ ?_ ?_ ?_
  · simp
  · rw [OrderBook.insert_levels_opposite]
  · rw [OrderBook.insert_levels_own, Levels.pushBack_head hhead]
    simp [Order.reduce]
  · simp
  · simp
  · simp
  · rw [OrderBook.insert_levels_opposite]
    exact hun.apart o.side_

/-- When the incoming order cannot match, the book with the order inserted is not
crossed. -/
theorem OrderBook.Uncrossed.insert_uncrossed {ob : OrderBook} (hun : ob.Uncrossed) (hwf : ob.WF)
    (o : Order) (hcan : ob.CanMatch o.side_ o.price_ = false) : (ob.insert o).Uncrossed := by
  intro x hx y hy
  unfold OrderBook.insert at hx hy
  cases hs : o.side_ with
  | Buy =>
    simp only [hs] at hx hy
    rcases Levels.pushBack_fst hx with h | h
    · rw [h]
      simp only [hs, OrderBook.CanMatch] at hcan
      have hss := hwf.sell.sorted
      cases hsell : ob.sellOrders_ with
      | nil =>
        rw [hsell] at hy
        cases hy
      | cons y0 rest =>
        rw [hsell] at hcan hy hss
        obtain ⟨bestAsk, q⟩ := y0
        simp only [ge_iff_le, decide_eq_false_iff_not, not_le] at hcan
        rcases List.mem_cons.mp hy with rfl | hy
        · exact hcan
        · have := (List.pairwise_cons.mp hss).1 y hy
          simp only [Side.before, decide_eq_true_eq] at this
          exact lt_trans hcan this
    · exact hun x h y hy
  | Sell =>
    simp only [hs] at hx hy
    rcases Levels.pushBack_fst hy with h | h
    · rw [h]
      simp only [hs, OrderBook.CanMatch] at hcan
      have hbs := hwf.buy.sorted
      cases hbuy : ob.buyOrders_ with
      | nil =>
        rw [hbuy] at hx
        cases hx
      | cons x0 rest =>
        rw [hbuy] at hcan hx hbs
        obtain ⟨bestBid, q⟩ := x0
        simp only [decide_eq_false_iff_not, not_le] at hcan
        rcases List.mem_cons.mp hx with rfl | hx
        · exact hcan
        · have := (List.pairwise_cons.mp hbs).1 x hx
          simp only [Side.before, decide_eq_true_eq, gt_iff_lt] at this
          exact lt_trans this hcan
    · exact hun x hx y h

/-! ## The cleanup blocks of `MatchOrders` -/

theorem OrderBook.cleanupBuy_gtc {ob : OrderBook}
    (h : ∀ o ∈ ob.buyOrders_.orders, o.type_ = .GoodTillCancel) : ob.cleanupBuy = ob := by
  unfold OrderBook.cleanupBuy
  split
  · next p frontBuyer t rest hb =>
    have := h frontBuyer (by rw [hb]; simp)
    simp [this]
  · rfl

theorem OrderBook.cleanupSell_gtc {ob : OrderBook}
    (h : ∀ o ∈ ob.sellOrders_.orders, o.type_ = .GoodTillCancel) : ob.cleanupSell = ob := by
  unfold OrderBook.cleanupSell
  split
  · next p frontSeller t rest hb =>
    have := h frontSeller (by rw [hb]; simp)
    simp [this]
  · rfl

theorem OrderBook.NoFAK.cleanup_id {ob : OrderBook} (h : ob.NoFAK) :
    ob.cleanupBuy.cleanupSell = ob := by
  rw [OrderBook.cleanupBuy_gtc (fun o ho => h o (List.mem_append_left _ ho)),
    OrderBook.cleanupSell_gtc (fun o ho => h o (List.mem_append_right _ ho))]

theorem Levels.cancel_single (p : Int) (x : Order) (rest : Levels) :
    Levels.cancel p x.id_ ((p, [x]) :: rest) = rest := by
  simp [Levels.cancel, List.eraseP_cons]

/-- The buy-side cleanup on a well-formed book whose best bid level holds a single
`FillAndKill` order: the order is cancelled and its level erased. -/
theorem OrderBook.WF.cleanupBuy_fak {ob : OrderBook} (h : ob.WF) {p : Int} {x : Order}
    {rest : Levels} (hb : ob.buyOrders_ = (p, [x]) :: rest) (hx : x.type_ = .FillAndKill) :
    ob.cleanupBuy = ⟨rest, ob.sellOrders_, ob.orderLookup_.erase x.id_⟩ := by
  have hown := h.buy.own (p, [x]) (by rw [hb]; exact List.mem_cons_self _ _) x
    (List.mem_singleton.mpr rfl)
  have hl : ob.orderLookup_.lookup x.id_ = some x.entry :=
    (h.lookup_iff x.id_ x.entry).mpr ⟨x, by simp [OrderBook.allOrders, hb], rfl, rfl⟩
  have hc := OrderBook.CancelOrder_buy hl hown.1
  have hpx : x.entry.price_ = p := hown.2
  rw [hpx, hb, Levels.cancel_single] at hc
  unfold OrderBook.cleanupBuy
  rw [hb]
  simp only [hx, if_true]
  exact hc

/-- The sell-side cleanup on a well-formed book whose best ask level holds a single
`FillAndKill` order. -/
theorem OrderBook.WF.cleanupSell_fak {ob : OrderBook} (h : ob.WF) {p : Int} {x : Order}
    {rest : Levels} (hb : ob.sellOrders_ = (p, [x]) :: rest) (hx : x.type_ = .FillAndKill) :
    ob.cleanupSell = ⟨ob.buyOrders_, rest, ob.orderLookup_.erase x.id_⟩ := by
  have hown := h.sell.own (p, [x]) (by rw [hb]; exact List.mem_cons_self _ _) x
    (List.mem_singleton.mpr rfl)
  have hl : ob.orderLookup_.lookup x.id_ = some x.entry :=
    (h.lookup_iff x.id_ x.entry).mpr ⟨x, by simp [OrderBook.allOrders, hb], rfl, rfl⟩
  have hc := OrderBook.CancelOrder_sell hl hown.1
  have hpx : x.entry.price_ = p := hown.2
  rw [hpx, hb, Levels.cancel_single] at hc
  unfold OrderBook.cleanupSell
  rw [hb]
  simp only [hx, if_true]
  exact hc

theorem OrderBook.cleanupBuy_eq (ob : OrderBook) :
    ob.cleanupBuy = ob ∨ ∃ id, ob.cleanupBuy = ob.CancelOrder id := by
  unfold OrderBook.cleanupBuy
  split
  · split
    · exact Or.inr ⟨_, rfl⟩
    · exact Or.inl rfl
  · exact Or.inl rfl

theorem OrderBook.cleanupSell_eq (ob : OrderBook) :
    ob.cleanupSell = ob ∨ ∃ id, ob.cleanupSell = ob.CancelOrder id := by
  unfold OrderBook.cleanupSell
  split
  · split
    · exact Or.inr ⟨_, rfl⟩
    · exact Or.inl rfl
  · exact Or.inl rfl

theorem OrderBook.WF.cleanup_wf {ob : OrderBook} (h : ob.WF) : ob.cleanupBuy.cleanupSell.WF := by
  have h1 : ob.cleanupBuy.WF := by
    rcases ob.cleanupBuy_eq with he | ⟨id, he⟩
    · rw [he]; exact h
    · rw [he]; exact h.cancelOrder_wf id
  rcases ob.cleanupBuy.cleanupSell_eq with he | ⟨id, he⟩
  · rw [he]; exact h1
  · rw [he]; exact h1.cancelOrder_wf id

theorem OrderBook.Uncrossed.cleanup_uncrossed {ob : OrderBook} (h : ob.Uncrossed) :
    ob.cleanupBuy.cleanupSell.Uncrossed := by
  have h1 : ob.cleanupBuy.Uncrossed := by
    rcases ob.cleanupBuy_eq with he | ⟨id, he⟩
    · rw [he]; exact h
    · rw [he]; exact h.cancelOrder_uncrossed id
  rcases ob.cleanupBuy.cleanupSell_eq with he | ⟨id, he⟩
  · rw [he]; exact h1
  · rw [he]; exact h1.cancelOrder_uncrossed id

/-! ## `MatchOrders` and `AddOrder` on books that satisfy the invariant -/

theorem OrderBook.WF.noEmptyLevel {ob : OrderBook} (h : ob.WF) : ob.NoEmptyLevel :=
  ⟨h.buy.nonempty, h.sell.nonempty⟩

theorem OrderBook.MatchOrders_eq {ob obL : OrderBook} {T : Trades}
    (h : ob.crossingLoop (ob.queued + 1) [] = .ok (obL, T)) :
    ob.MatchOrders = .ok (obL.cleanupBuy.cleanupSell, T) := by
  simp [OrderBook.MatchOrders, h]

theorem OrderBook.AddOrder_insert {ob : OrderBook} {o : Order}
    (hid : ob.orderLookup_.lookup o.id_ = none)
    (h : o.type_ = .GoodTillCancel ∨ ob.CanMatch o.side_ o.price_ = true) :
    ob.AddOrder o = (ob.insert o).MatchOrders := by
  have hc : ob.orderLookup_.contains o.id_ = false := Registry.contains_eq_false.mpr hid
  unfold OrderBook.AddOrder
  rw [if_neg (by simp [hc]), if_neg]
  rintro ⟨h1, h2⟩
  rcases h with h | h
  · rw [h] at h1
    cases h1
  · rw [h] at h2
    cases h2

theorem OrderBook.mem_allOrders_of_levels {ob : OrderBook} {side : Side} {x : Order}
    (h : x ∈ (ob.levels side).orders) : x ∈ ob.allOrders := by
  cases side with
  | Buy => exact List.mem_append_left _ h
  | Sell => exact List.mem_append_right _ h

theorem OrderBook.mem_allOrders_iff (ob : OrderBook) (side : Side) (x : Order) :
    x ∈ ob.allOrders ↔ x ∈ (ob.levels side).orders ∨ x ∈ (ob.levels side.opposite).orders := by
  cases side with
  | Buy => exact List.mem_append
  | Sell => exact List.mem_append.trans Or.comm

/-- The queued orders after insertion are the new order and the old ones. -/
theorem OrderBook.insert_allOrders_perm (ob : OrderBook) (o : Order) :
    (ob.insert o).allOrders.Perm (o :: ob.allOrders) := by
  unfold OrderBook.insert
  cases hs : o.side_ with
  | Buy =>
    simp only [OrderBook.allOrders]
    exact (Levels.pushBack_orders_perm _ _ _ _).append_right _
  | Sell =>
    simp only [OrderBook.allOrders]
    exact ((Levels.pushBack_orders_perm _ _ _ _).append_left _).trans List.perm_middle

/-- The sweep of an incoming order that can match: the crossing loop returns, the
returned book is well formed, a further pass would exit, and the loop stands as
`Sweep` describes. `AddOrder` returns that book after the cleanup. -/
theorem OrderBook.Inv.addOrder_sweep {ob0 : OrderBook} (hinv : ob0.Inv) {o : Order}
    (hid : ob0.orderLookup_.lookup o.id_ = none)
    (hcan : ob0.CanMatch o.side_ o.price_ = true) :
    ∃ obL T, ob0.AddOrder o = .ok (obL.cleanupBuy.cleanupSell, T) ∧ Sweep ob0 o obL T ∧
      obL.WF ∧ obL.matchRound = .exit := by
  have hwf := hinv.wf.insert_wf o hid
  obtain ⟨r, hr⟩ := OrderBook.crossingLoop_total ((ob0.insert o).queued + 1) (ob0.insert o) []
    hwf.noEmptyLevel (Nat.lt_succ_self _)
  have hrule := OrderBook.crossingLoop_rule (fun ob T => ob.WF ∧ Sweep ob0 o ob T)
    (fun ob T ob1 t hI hround => ⟨hI.1.round_wf hround, hI.2.round_sweep hI.1 hround⟩)
    _ _ _ r ⟨hwf, Sweep.start hinv.uncrossed o hcan⟩ hr
  obtain ⟨obL, T⟩ := r
  refine ⟨obL, T, ?_, hrule.1.2, hrule.1.1, hrule.2⟩
  rw [OrderBook.AddOrder_insert hid (Or.inr hcan)]
  exact OrderBook.MatchOrders_eq hr

/-- An incoming order that cannot match and is `GoodTillCancel` is inserted, and
nothing trades. -/
theorem OrderBook.Inv.addOrder_rest {ob0 : OrderBook} (hinv : ob0.Inv) {o : Order}
    (hid : ob0.orderLookup_.lookup o.id_ = none)
    (hcan : ob0.CanMatch o.side_ o.price_ = false) (hgtc : o.type_ = .GoodTillCancel) :
    ob0.AddOrder o = .ok (ob0.insert o, []) ∧ (ob0.insert o).Inv := by
  have hwf := hinv.wf.insert_wf o hid
  have hun := hinv.uncrossed.insert_uncrossed hinv.wf o hcan
  have hno : (ob0.insert o).NoFAK := by
    intro x hx
    rcases List.mem_cons.mp ((ob0.insert_allOrders_perm o).mem_iff.mp hx) with h | h
    · rw [h]
      exact hgtc
    · exact hinv.noFAK x h
  refine ⟨?_, hwf, hun, hno⟩
  rw [OrderBook.AddOrder_insert hid (Or.inl hgtc)]
  have hloop : (ob0.insert o).crossingLoop ((ob0.insert o).queued + 1) [] =
      .ok (ob0.insert o, []) := by
    simp [OrderBook.crossingLoop, OrderBook.matchRound_of_uncrossed hun]
  rw [OrderBook.MatchOrders_eq hloop, hno.cleanup_id]

theorem mem_popFilled {x y : Order} {t : OrderList} (h : x ∈ popFilled y t) :
    x = y ∨ x ∈ t := by
  unfold popFilled at h
  split at h
  · exact Or.inr h
  · exact List.mem_cons.mp h

/-- After the sweep and the cleanup no `FillAndKill` order is queued, and a
`FillAndKill` incoming order is not registered. -/
theorem Sweep.final {ob0 obL : OrderBook} {o : Order} {T : Trades}
    (hsw : Sweep ob0 o obL T) (hwfL : obL.WF) (h0 : ob0.Inv)
    (hid : ob0.orderLookup_.lookup o.id_ = none) :
    obL.cleanupBuy.cleanupSell.NoFAK ∧
      (o.type_ = .FillAndKill →
        obL.cleanupBuy.cleanupSell.orderLookup_.lookup o.id_ = none) ∧
      (o.type_ = .GoodTillCancel → obL.cleanupBuy.cleanupSell = obL) := by
  have hnot := (h0.wf.lookup_none_iff o.id_).mp hid
  cases hsw with
  | alive pre post hpre hpost hown hk hT hcross hun =>
    have hopp : ∀ x ∈ (obL.levels o.side_.opposite).orders, x.type_ = .GoodTillCancel := by
      intro x hx
      rw [hpost] at hx
      exact h0.noFAK x (OrderBook.mem_allOrders_of_levels
        (by rw [hpre]; exact List.mem_append_right _ hx))
    have hrest : ∀ x ∈ (ob0.levels o.side_).orders, x.type_ = .GoodTillCancel :=
      fun x hx => h0.noFAK x (OrderBook.mem_allOrders_of_levels hx)
    cases htype : o.type_ with
    | GoodTillCancel =>
      have hno : obL.NoFAK := by
        intro x hx
        rcases (obL.mem_allOrders_iff o.side_ x).mp hx with h | h
        · rw [hown, Levels.orders_cons] at h
          rcases List.mem_append.mp h with h | h
          · rw [List.mem_singleton.mp h]
            exact htype
          · exact hrest x h
        · exact hopp x h
      rw [hno.cleanup_id]
      exact ⟨hno, (fun h => nomatch h), fun _ => rfl⟩
    | FillAndKill =>
      refine ⟨?_, fun _ => ?_, fun h => nomatch h⟩
      all_goals
        cases hside : o.side_ with
        | Buy =>
          simp only [hside, Side.opposite, OrderBook.levels] at hopp hrest hown
          have h1 := hwfL.cleanupBuy_fak hown (by simpa using htype)
          rw [h1, OrderBook.cleanupSell_gtc (by simpa using hopp)]
          first
          | exact fun x hx => (List.mem_append.mp hx).elim (hrest x) (hopp x)
          | simp [Registry.lookup_erase]
        | Sell =>
          simp only [hside, Side.opposite, OrderBook.levels] at hopp hrest hown
          rw [OrderBook.cleanupBuy_gtc (by simpa using hopp)]
          have h1 := hwfL.cleanupSell_fak hown (by simpa using htype)
          rw [h1]
          first
          | exact fun x hx => (List.mem_append.mp hx).elim (hopp x) (hrest x)
          | simp [Registry.lookup_erase]
  | gone pre a post q hpre hpost hown hk hq hT hcross hun =>
    have hsrc : ∀ x ∈ obL.allOrders, ∃ y ∈ ob0.allOrders, x.key = y.key := by
      intro x hx
      rcases (obL.mem_allOrders_iff o.side_ x).mp hx with h | h
      · rw [hown] at h
        exact ⟨x, OrderBook.mem_allOrders_of_levels h, rfl⟩
      · rw [hpost] at h
        rcases mem_popFilled h with h | h
        · exact ⟨a, OrderBook.mem_allOrders_of_levels (by rw [hpre]; simp), by rw [h]; rfl⟩
        · exact ⟨x, OrderBook.mem_allOrders_of_levels (by rw [hpre]; simp [h]), rfl⟩
    have hno : obL.NoFAK := by
      intro x hx
      obtain ⟨y, hy, hxy⟩ := hsrc x hx
      have : x.type_ = y.type_ := congrArg (fun k => k.2.type_) hxy
      rw [this]
      exact h0.noFAK y hy
    rw [hno.cleanup_id]
    refine ⟨hno, fun _ => ?_, fun _ => rfl⟩
    rw [hwfL.lookup_none_iff]
    intro hm
    obtain ⟨x, hx, hxi⟩ := List.mem_map.mp hm
    obtain ⟨y, hy, hxy⟩ := hsrc x hx
    have : x.id_ = y.id_ := congrArg (fun k => k.1) hxy
    exact hnot (List.mem_map.mpr ⟨y, hy, by rw [← this, hxi]⟩)

/-- The method `AddOrder` keeps the invariant. -/
theorem OrderBook.Inv.addOrder {ob0 : OrderBook} (hinv : ob0.Inv) {o : Order}
    {ob1 : OrderBook} {T : Trades} (h : ob0.AddOrder o = .ok (ob1, T)) : ob1.Inv := by
  cases hid : ob0.orderLookup_.lookup o.id_ with
  | some e =>
    have hc : ob0.orderLookup_.contains o.id_ = true := by simp [Registry.contains, hid]
    simp only [OrderBook.AddOrder, hc, if_true, Except.ok.injEq, Prod.mk.injEq] at h
    rw [← h.1]
    exact hinv
  | none =>
    cases hcan : ob0.CanMatch o.side_ o.price_ with
    | true =>
      obtain ⟨obL, T1, hadd, hsw, hwfL, hexit⟩ := hinv.addOrder_sweep hid hcan
      rw [hadd] at h
      simp only [Except.ok.injEq, Prod.mk.injEq] at h
      rw [← h.1]
      exact ⟨hwfL.cleanup_wf, (hwfL.uncrossed_of_exit hexit).cleanup_uncrossed, (hsw.final hwfL hinv hid).1⟩
    | false =>
      cases htype : o.type_ with
      | GoodTillCancel =>
        have := hinv.addOrder_rest hid hcan htype
        rw [this.1] at h
        simp only [Except.ok.injEq, Prod.mk.injEq] at h
        rw [← h.1]
        exact this.2
      | FillAndKill =>
        have hc : ob0.orderLookup_.contains o.id_ = false := Registry.contains_eq_false.mpr hid
        simp only [OrderBook.AddOrder, hc, Bool.false_eq_true, if_false, htype, hcan, and_self,
          if_true, Except.ok.injEq, Prod.mk.injEq] at h
        rw [← h.1]
        exact hinv

theorem OrderBook.NoFAK.cancelOrder_noFAK {ob : OrderBook} (h : ob.NoFAK) (hwf : ob.WF) (id : Nat) :
    (ob.CancelOrder id).NoFAK := by
  obtain ⟨h1, h2, -⟩ := hwf.cancel_eq id
  intro x hx
  simp only [OrderBook.allOrders, h1, h2] at hx
  rcases List.mem_append.mp hx with hx | hx
  · exact h x (List.mem_append_left _ (List.mem_of_mem_filter hx))
  · exact h x (List.mem_append_right _ (List.mem_of_mem_filter hx))

/-- The method `CancelOrder` keeps the invariant. -/
theorem OrderBook.Inv.cancelOrder_inv {ob : OrderBook} (hinv : ob.Inv) (id : Nat) :
    (ob.CancelOrder id).Inv :=
  ⟨hinv.wf.cancelOrder_wf id, hinv.uncrossed.cancelOrder_uncrossed id, hinv.noFAK.cancelOrder_noFAK hinv.wf id⟩

/-- The method `MatchOrder` (modification) keeps the invariant. -/
theorem OrderBook.Inv.matchOrder {ob : OrderBook} (hinv : ob.Inv) {m : OrderModify}
    {ob1 : OrderBook} {T : Trades} (h : ob.MatchOrder m = .ok (ob1, T)) : ob1.Inv := by
  unfold OrderBook.MatchOrder at h
  split at h
  · simp only [Except.ok.injEq, Prod.mk.injEq] at h
    rw [← h.1]
    exact hinv
  · exact (hinv.cancelOrder_inv m.id_).addOrder h

theorem OrderBook.Inv.empty : OrderBook.empty.Inv := by
  refine ⟨⟨⟨?_, ?_, ?_⟩, ⟨?_, ?_, ?_⟩, ?_, ?_⟩, ?_, ?_⟩ <;>
    simp [OrderBook.empty, OrderBook.allOrders, OrderBook.Uncrossed, OrderBook.NoFAK]

/-- Every reachable book satisfies the invariant. -/
theorem Reachable.inv {ob : OrderBook} (h : Reachable ob) : ob.Inv := by
  induction h with
  | empty => exact OrderBook.Inv.empty
  | add ob o ob1 ts _ hadd ih => exact ih.addOrder hadd
  | cancel ob id _ ih => exact ih.cancelOrder_inv id
  | modify ob m ob1 ts _ hmod ih => exact ih.matchOrder hmod

/-- What `AddOrder` returns on a book satisfying the invariant, for an order whose id
is not registered: either the order cannot match and nothing trades (the book is
unchanged for a `FillAndKill` order, and has the order inserted otherwise), or the
order sweeps the other side and the cleanup follows. -/
theorem OrderBook.Inv.addOrder_cases {ob0 : OrderBook} (hinv : ob0.Inv) (o : Order)
    (hid : ob0.orderLookup_.lookup o.id_ = none) :
    ∃ ob1 T, ob0.AddOrder o = .ok (ob1, T) ∧
      ((ob0.CanMatch o.side_ o.price_ = false ∧ T = [] ∧
          ((o.type_ = .FillAndKill ∧ ob1 = ob0) ∨
           (o.type_ = .GoodTillCancel ∧ ob1 = ob0.insert o))) ∨
       (ob0.CanMatch o.side_ o.price_ = true ∧
          ∃ obL, Sweep ob0 o obL T ∧ obL.WF ∧ obL.matchRound = .exit ∧
            ob1 = obL.cleanupBuy.cleanupSell)) := by
  cases hcan : ob0.CanMatch o.side_ o.price_ with
  | true =>
    obtain ⟨obL, T, hadd, hsw, hwfL, hexit⟩ := hinv.addOrder_sweep hid hcan
    exact ⟨_, T, hadd, Or.inr ⟨rfl, obL, hsw, hwfL, hexit, rfl⟩⟩
  | false =>
    cases htype : o.type_ with
    | GoodTillCancel =>
      exact ⟨_, [], (hinv.addOrder_rest hid hcan htype).1, Or.inl ⟨rfl, rfl, Or.inr ⟨rfl, rfl⟩⟩⟩
    | FillAndKill =>
      have hc : ob0.orderLookup_.contains o.id_ = false := Registry.contains_eq_false.mpr hid
      exact ⟨ob0, [], by simp [OrderBook.AddOrder, hc, htype, hcan],
        Or.inl ⟨rfl, rfl, Or.inl ⟨rfl, rfl⟩⟩⟩

theorem tradeOf_info_opposite (o a : Order) (q : Nat) :
    (tradeOf o a q).info o.side_.opposite = ⟨a.id_, a.price_, q⟩ := by
  unfold tradeOf
  cases hs : o.side_ <;> rfl

theorem tradeOf_info_own (o a : Order) (q : Nat) :
    (tradeOf o a q).info o.side_ = ⟨o.id_, o.price_, q⟩ := by
  unfold tradeOf
  cases hs : o.side_ <;> rfl

theorem OrderBook.WF.levels_sorted {ob : OrderBook} (h : ob.WF) (side : Side) :
    (ob.levels side).Pairwise (fun x y => side.before x.1 y.1 = true) := by
  cases side with
  | Buy => exact h.buy.sorted
  | Sell => exact h.sell.sorted

/-- The trades of a sweep, read on the resting side: their ids run along the resting
orders from the best one, and every trade but the last takes the whole remaining
quantity of its resting order. -/
theorem Sweep.trades {ob0 obL : OrderBook} {o : Order} {T : Trades}
    (hsw : Sweep ob0 o obL T) :
    T.map (fun t => (t.info o.side_.opposite).orderId_) <+:
        (ob0.levels o.side_.opposite).orders.map (fun a => a.id_) ∧
      T.dropLast.map (fun t =>
          ((t.info o.side_.opposite).orderId_, (t.info o.side_.opposite).quantity_)) <+:
        (ob0.levels o.side_.opposite).orders.map (fun a => (a.id_, a.remainingQty_)) := by
  cases hsw with
  | alive pre post hpre hpost hown hk hT hcross hun =>
    subst hT
    rw [hpre]
    constructor
    · simp only [List.map_map, List.map_append]
      refine ⟨post.map (fun a => a.id_), ?_⟩
      congr 1
      apply List.map_congr_left
      intro a _
      simp [tradeOf_info_opposite]
    · rw [← List.map_dropLast]
      simp only [List.map_map, List.map_append]
      have : (pre.dropLast.map ((fun t : Trade =>
          ((t.info o.side_.opposite).orderId_, (t.info o.side_.opposite).quantity_)) ∘
            fun a => tradeOf o a a.remainingQty_)) =
          pre.dropLast.map (fun a => (a.id_, a.remainingQty_)) := by
        apply List.map_congr_left
        intro a _
        simp [tradeOf_info_opposite]
      rw [this]
      exact ((List.dropLast_prefix pre).map _).trans (List.prefix_append _ _)
  | gone pre a post q hpre hpost hown hk hq hT hcross hun =>
    subst hT
    rw [hpre]
    constructor
    · simp only [List.map_map, List.map_append, List.map_cons, List.map_nil]
      refine ⟨post.map (fun a => a.id_), ?_⟩
      simp only [tradeOf_info_opposite, List.append_assoc, List.singleton_append]
      congr 1
      apply List.map_congr_left
      intro a _
      simp [tradeOf_info_opposite]
    · rw [List.dropLast_concat]
      simp only [List.map_map, List.map_append]
      have : (pre.map ((fun t : Trade =>
          ((t.info o.side_.opposite).orderId_, (t.info o.side_.opposite).quantity_)) ∘
            fun a => tradeOf o a a.remainingQty_)) =
          pre.map (fun a => (a.id_, a.remainingQty_)) := by
        apply List.map_congr_left
        intro a _
        simp [tradeOf_info_opposite]
      rw [this]
      exact List.prefix_append _ _

/-! ## The sample book -/

theorem sampleBook_reachable : Reachable sampleBook :=
  Reachable.add _ (Order.new .GoodTillCancel 10 .Buy 99 3) _ [] 
    (Reachable.add _ (Order.new .GoodTillCancel 9 .Sell 100 3) _ []
      (Reachable.add _ (Order.new .GoodTillCancel 8 .Sell 101 5) _ []
        (Reachable.add _ (Order.new .GoodTillCancel 6 .Sell 100 5) _ [] Reachable.empty rfl)
        rfl) rfl) rfl

/-! ## The claims -/

/-- C1, price-time priority. On a reachable book, `AddOrder` of an order whose id is
not registered returns, and the ids on the resting side of the returned trades, in
the order returned, are an initial segment of the other side's queued orders listed
level by level in map order (best price first: the map is ordered by its side's
comparison) and from the head of each queue. Every trade but the last takes the
whole remaining quantity of its resting order, so an order queued behind another
trades only after the one ahead is completely filled. -/
theorem price_time_priority (ob : OrderBook) (o : Order) (hr : Reachable ob)
    (hid : ob.orderLookup_.contains o.id_ = false) :
    ∃ ob1 T, ob.AddOrder o = .ok (ob1, T) ∧
      (ob.levels o.side_.opposite).Pairwise
        (fun x y => o.side_.opposite.before x.1 y.1 = true) ∧
      T.map (fun t => (t.info o.side_.opposite).orderId_) <+:
        (ob.levels o.side_.opposite).orders.map (fun a => a.id_) ∧
      T.dropLast.map (fun t =>
          ((t.info o.side_.opposite).orderId_, (t.info o.side_.opposite).quantity_)) <+:
        (ob.levels o.side_.opposite).orders.map (fun a => (a.id_, a.remainingQty_)) := by
  have hinv := hr.inv
  obtain ⟨ob1, T, hadd, hcase⟩ :=
    hinv.addOrder_cases o (Registry.contains_eq_false.mp hid)
  refine ⟨ob1, T, hadd, hinv.wf.levels_sorted _, ?_⟩
  rcases hcase with ⟨-, hT, -⟩ | ⟨-, obL, hsw, -, -, -⟩
  · subst hT
    exact ⟨List.nil_prefix, List.nil_prefix⟩
  · exact hsw.trades

theorem price_time_priority_witness :
    Reachable sampleBook ∧
      sampleBook.orderLookup_.contains (Order.new .GoodTillCancel 7 .Buy 101 10).id_ = false ∧
      ∃ ob1 T, sampleBook.AddOrder (Order.new .GoodTillCancel 7 .Buy 101 10) = .ok (ob1, T) ∧
        (sampleBook.levels (Order.new .GoodTillCancel 7 .Buy 101 10).side_.opposite).Pairwise
          (fun x y =>
            (Order.new .GoodTillCancel 7 .Buy 101 10).side_.opposite.before x.1 y.1 = true) ∧
        T.map (fun t =>
            (t.info (Order.new .GoodTillCancel 7 .Buy 101 10).side_.opposite).orderId_) <+:
          (sampleBook.levels
            (Order.new .GoodTillCancel 7 .Buy 101 10).side_.opposite).orders.map
              (fun a => a.id_) ∧
        T.dropLast.map (fun t =>
            ((t.info (Order.new .GoodTillCancel 7 .Buy 101 10).side_.opposite).orderId_,
             (t.info (Order.new .GoodTillCancel 7 .Buy 101 10).side_.opposite).quantity_)) <+:
          (sampleBook.levels
            (Order.new .GoodTillCancel 7 .Buy 101 10).side_.opposite).orders.map
              (fun a => (a.id_, a.remainingQty_)) :=
  ⟨sampleBook_reachable, rfl,
    price_time_priority sampleBook (Order.new .GoodTillCancel 7 .Buy 101 10)
      sampleBook_reachable rfl⟩

theorem OrderBook.WF.registry_entry {ob : OrderBook} (h : ob.WF) {x : Nat × OrderEntry}
    (hx : x ∈ ob.orderLookup_) : ∃ a ∈ ob.allOrders, a.key = x :=
  List.mem_map.mp (h.lockstep.mem_iff.mp hx)

/-- C2 as stated fails on a duplicate id: with the sell order 6 resting, `AddOrder` of
a `FillAndKill` order that reuses id 6 returns at the duplicate check, no trade is
made, and id 6 is still registered after the call. -/
theorem fill_and_kill_duplicate_id_stays_registered :
    Reachable sampleBook ∧
      (Order.new .FillAndKill 6 .Buy 100 10).type_ = .FillAndKill ∧
      sampleBook.AddOrder (Order.new .FillAndKill 6 .Buy 100 10) = .ok (sampleBook, []) ∧
      sampleBook.orderLookup_.contains (Order.new .FillAndKill 6 .Buy 100 10).id_ = true :=
  ⟨sampleBook_reachable, rfl, rfl, rfl⟩

/-- C2, amended: a `FillAndKill` order never rests. In every reachable book no queued
order and no registry entry is `FillAndKill`; and `AddOrder` of a `FillAndKill` order
whose id was not registered before the call returns and leaves that id unregistered
and carried by no queued order. The scenario of the fourth test: sell 6 (5 at 100)
resting, `FillAndKill` buy 7 (10 at 100) gives one trade of 5 and `Size() == 0`. -/
theorem fill_and_kill_never_rests (ob : OrderBook) (hr : Reachable ob) :
    (∀ x ∈ ob.allOrders, x.type_ = .GoodTillCancel) ∧
      (∀ x ∈ ob.orderLookup_, x.2.type_ = .GoodTillCancel) ∧
      (∀ o : Order, o.type_ = .FillAndKill → ob.orderLookup_.contains o.id_ = false →
        ∃ ob1 T, ob.AddOrder o = .ok (ob1, T) ∧ ob1.orderLookup_.contains o.id_ = false ∧
          ∀ x ∈ ob1.allOrders, x.id_ ≠ o.id_) ∧
      (∃ ob1 ob2 t,
        OrderBook.empty.AddOrder (Order.new .GoodTillCancel 6 .Sell 100 5) = .ok (ob1, []) ∧
        ob1.AddOrder (Order.new .FillAndKill 7 .Buy 100 10) = .ok (ob2, [t]) ∧
        t.buyerInfo_.quantity_ = 5 ∧ t.sellerInfo_.quantity_ = 5 ∧ ob2.Size = 0) := by
  have hinv := hr.inv
  refine ⟨hinv.noFAK, ?_, ?_, ⟨_, _, _, rfl, rfl, rfl, rfl, rfl⟩⟩
  · intro x hx
    obtain ⟨a, ha, hax⟩ := hinv.wf.registry_entry hx
    rw [← hax]
    exact hinv.noFAK a ha
  · intro o hfak hc
    have hid := Registry.contains_eq_false.mp hc
    obtain ⟨ob1, T, hadd, hcase⟩ := hinv.addOrder_cases o hid
    have hinv1 := hinv.addOrder hadd
    have hnone : ob1.orderLookup_.lookup o.id_ = none := by
      rcases hcase with ⟨-, -, ⟨-, h1⟩ | ⟨h1, -⟩⟩ | ⟨-, obL, hsw, hwfL, -, h1⟩
      · rw [h1]
        exact hid
      · rw [hfak] at h1
        cases h1
      · rw [h1]
        exact (hsw.final hwfL hinv hid).2.1 hfak
    refine ⟨ob1, T, hadd, Registry.contains_eq_false.mpr hnone, ?_⟩
    intro x hx hxe
    exact (hinv1.wf.lookup_none_iff o.id_).mp hnone (List.mem_map.mpr ⟨x, hx, hxe⟩)

theorem fill_and_kill_never_rests_witness :
    Reachable sampleBook ∧
      ((∀ x ∈ sampleBook.allOrders, x.type_ = .GoodTillCancel) ∧
      (∀ x ∈ sampleBook.orderLookup_, x.2.type_ = .GoodTillCancel) ∧
      (∀ o : Order, o.type_ = .FillAndKill → sampleBook.orderLookup_.contains o.id_ = false →
        ∃ ob1 T, sampleBook.AddOrder o = .ok (ob1, T) ∧
          ob1.orderLookup_.contains o.id_ = false ∧ ∀ x ∈ ob1.allOrders, x.id_ ≠ o.id_) ∧
      (∃ ob1 ob2 t,
        OrderBook.empty.AddOrder (Order.new .GoodTillCancel 6 .Sell 100 5) = .ok (ob1, []) ∧
        ob1.AddOrder (Order.new .FillAndKill 7 .Buy 100 10) = .ok (ob2, [t]) ∧
        t.buyerInfo_.quantity_ = 5 ∧ t.sellerInfo_.quantity_ = 5 ∧ ob2.Size = 0)) :=
  ⟨sampleBook_reachable, fill_and_kill_never_rests sampleBook sampleBook_reachable⟩

/-- Every trade of a sweep is between the incoming order and a resting order of the
other side that it crosses, for at most the resting order's remaining quantity. -/
theorem Sweep.trade_mem {ob0 obL : OrderBook} {o : Order} {T : Trades}
    (hsw : Sweep ob0 o obL T) :
    ∀ t ∈ T, ∃ a q, a ∈ (ob0.levels o.side_.opposite).orders ∧ t = tradeOf o a q ∧
      q ≤ a.remainingQty_ ∧ o.side_.before a.price_ o.price_ = false := by
  intro t ht
  cases hsw with
  | alive pre post hpre hpost hown hk hT hcross hun =>
    subst hT
    obtain ⟨a, ha, rfl⟩ := List.mem_map.mp ht
    exact ⟨a, a.remainingQty_, by rw [hpre]; exact List.mem_append_left _ ha, rfl,
      le_refl _, hcross a ha⟩
  | gone pre a post q hpre hpost hown hk hq hT hcross hun =>
    subst hT
    rcases List.mem_append.mp ht with ht | ht
    · obtain ⟨b, hb, rfl⟩ := List.mem_map.mp ht
      exact ⟨b, b.remainingQty_, by rw [hpre]; exact List.mem_append_left _ hb, rfl,
        le_refl _, hcross b (List.mem_append_left _ hb)⟩
    · rw [List.mem_singleton] at ht
      subst ht
      exact ⟨a, q, by rw [hpre]; simp, rfl, hq, hcross a (by simp)⟩

/-- On a book satisfying the invariant `AddOrder` returns, whatever the order, and
every returned trade is between the incoming order and a resting order of the
other side that it crosses. -/
theorem OrderBook.Inv.addOrder_trades {ob0 : OrderBook} (hinv : ob0.Inv) (o : Order) :
    ∃ ob1 T, ob0.AddOrder o = .ok (ob1, T) ∧
      ∀ t ∈ T, ∃ a q, a ∈ (ob0.levels o.side_.opposite).orders ∧ t = tradeOf o a q ∧
        q ≤ a.remainingQty_ ∧ o.side_.before a.price_ o.price_ = false := by
  cases hid : ob0.orderLookup_.lookup o.id_ with
  | some e =>
    have hc : ob0.orderLookup_.contains o.id_ = true := by simp [Registry.contains, hid]
    exact ⟨ob0, [], by simp [OrderBook.AddOrder, hc], fun t ht => by cases ht⟩
  | none =>
    obtain ⟨ob1, T, hadd, hcase⟩ := hinv.addOrder_cases o hid
    refine ⟨ob1, T, hadd, ?_⟩
    rcases hcase with ⟨-, hT, -⟩ | ⟨-, obL, hsw, -, -, -⟩
    · subst hT
      intro t ht
      cases ht
    · exact hsw.trade_mem

theorem OrderBook.Inv.addOrder_sound {ob0 : OrderBook} (hinv : ob0.Inv) (o : Order) :
    ∃ ob1 T, ob0.AddOrder o = .ok (ob1, T) ∧ ∀ t ∈ T, TradeSound ob0.allOrders o t := by
  obtain ⟨ob1, T, hadd, hT⟩ := hinv.addOrder_trades o
  refine ⟨ob1, T, hadd, ?_⟩
  intro t ht
  obtain ⟨a, q, ha, rfl, -, hcross⟩ := hT t ht
  have hamem := OrderBook.mem_allOrders_of_levels ha
  cases hside : o.side_ with
  | Buy =>
    simp only [hside, Side.opposite, OrderBook.levels] at ha
    simp only [hside, Side.before, decide_eq_false_iff_not, gt_iff_lt, not_lt] at hcross
    refine ⟨?_, ⟨o, Or.inl rfl, hside, ?_, ?_⟩, ⟨a, Or.inr hamem,
      (hinv.wf.side_of_mem_sell ha).1, ?_, ?_⟩⟩ <;>
      simp [tradeOf, hside, Trade.GetBidTrade, Trade.GetAskTrade, hcross]
  | Sell =>
    simp only [hside, Side.opposite, OrderBook.levels] at ha
    simp only [hside, Side.before, decide_eq_false_iff_not, not_lt] at hcross
    refine ⟨?_, ⟨a, Or.inr hamem, (hinv.wf.side_of_mem_buy ha).1, ?_, ?_⟩,
      ⟨o, Or.inl rfl, hside, ?_, ?_⟩⟩ <;>
      simp [tradeOf, hside, Trade.GetBidTrade, Trade.GetAskTrade, hcross]

/-- C3, no inverted crossing. On a reachable book `AddOrder` and `MatchOrder` (the
modification) return, and every returned trade has bid price at least the ask
price, its bid id and price being those of a buy order and its ask id and price
those of a sell order: the incoming order or an order resting before the call
(for a modification: the re-entered order or an order resting once the old one is
cancelled). -/
theorem no_inverted_crossing (ob : OrderBook) (hr : Reachable ob) :
    (∀ o : Order, ∃ ob1 T, ob.AddOrder o = .ok (ob1, T) ∧
      ∀ t ∈ T, TradeSound ob.allOrders o t) ∧
    (∀ m : OrderModify, ∃ ob1 T, ob.MatchOrder m = .ok (ob1, T) ∧
      ∀ t ∈ T, ∃ type,
        TradeSound (ob.CancelOrder m.id_).allOrders (m.ToOrderPointer type) t) := by
  have hinv := hr.inv
  refine ⟨hinv.addOrder_sound, ?_⟩
  intro m
  unfold OrderBook.MatchOrder
  cases hl : ob.orderLookup_.lookup m.id_ with
  | none => exact ⟨ob, [], rfl, fun t ht => by cases ht⟩
  | some existing =>
    obtain ⟨ob1, T, hadd, hT⟩ :=
      (hinv.cancelOrder_inv m.id_).addOrder_sound (m.ToOrderPointer existing.type_)
    exact ⟨ob1, T, hadd, fun t ht => ⟨existing.type_, hT t ht⟩⟩

theorem no_inverted_crossing_witness :
    Reachable sampleBook ∧
      ((∀ o : Order, ∃ ob1 T, sampleBook.AddOrder o = .ok (ob1, T) ∧
        ∀ t ∈ T, TradeSound sampleBook.allOrders o t) ∧
      (∀ m : OrderModify, ∃ ob1 T, sampleBook.MatchOrder m = .ok (ob1, T) ∧
        ∀ t ∈ T, ∃ type,
          TradeSound (sampleBook.CancelOrder m.id_).allOrders (m.ToOrderPointer type) t)) :=
  ⟨sampleBook_reachable, no_inverted_crossing sampleBook sampleBook_reachable⟩

theorem OrderBook.totalRemaining_allOrders (ob : OrderBook) (side : Side) :
    totalRemaining ob.allOrders =
      totalRemaining (ob.levels side).orders + totalRemaining (ob.levels side.opposite).orders := by
  cases side with
  | Buy => simp [OrderBook.allOrders, OrderBook.levels, Side.opposite]
  | Sell => simp [OrderBook.allOrders, OrderBook.levels, Side.opposite, Nat.add_comm]

theorem totalRemaining_popFilled (a : Order) (q : Nat) (t : OrderList) :
    totalRemaining (popFilled (a.reduce q) t) = (a.remainingQty_ - q) + totalRemaining t := by
  unfold popFilled
  by_cases h : (a.reduce q).IsFilled = true
  · simp only [h, if_true]
    simp only [Order.IsFilled, Order.reduce_remaining, beq_iff_eq] at h
    omega
  · simp [h]

theorem tradedQty_append (T1 T2 : Trades) : tradedQty (T1 ++ T2) = tradedQty T1 + tradedQty T2 := by
  simp [tradedQty]

theorem tradedQty_full (o : Order) (pre : List Order) :
    tradedQty (pre.map (fun a => tradeOf o a a.remainingQty_)) = totalRemaining pre := by
  induction pre with
  | nil => rfl
  | cons a pre ih =>
    simp only [tradedQty, List.map_cons, List.sum_cons] at ih ⊢
    rw [ih, totalRemaining_cons]
    congr 1
    unfold tradeOf
    cases o.side_ <;> rfl

theorem tradedQty_single (o a : Order) (q : Nat) : tradedQty [tradeOf o a q] = q := by
  unfold tradeOf tradedQty
  cases o.side_ <;> simp

/-- Conservation along a sweep: what is still queued plus twice what was traded is
what rested before plus what the incoming order brought. -/
theorem Sweep.conservation {ob0 obL : OrderBook} {o : Order} {T : Trades}
    (hsw : Sweep ob0 o obL T) :
    totalRemaining obL.allOrders + 2 * tradedQty T =
      totalRemaining ob0.allOrders + o.remainingQty_ := by
  rw [obL.totalRemaining_allOrders o.side_, ob0.totalRemaining_allOrders o.side_]
  cases hsw with
  | alive pre post hpre hpost hown hk hT hcross hun =>
    subst hT
    rw [hown, hpost, hpre, tradedQty_full]
    simp only [Levels.orders_cons, totalRemaining_append, totalRemaining_cons, totalRemaining_nil,
      Order.reduce_remaining]
    omega
  | gone pre a post q hpre hpost hown hk hq hT hcross hun =>
    subst hT
    rw [hown, hpost, hpre, tradedQty_append, tradedQty_full, tradedQty_single,
      totalRemaining_popFilled]
    simp only [totalRemaining_append, totalRemaining_cons]
    omega

theorem tradeOf_same_quantity (o a : Order) (q : Nat) :
    (tradeOf o a q).GetBidTrade.quantity_ = q ∧ (tradeOf o a q).GetAskTrade.quantity_ = q := by
  unfold tradeOf
  cases o.side_ <;> exact ⟨rfl, rfl⟩

/-- C4, quantity conservation. On a reachable book `AddOrder` returns; each returned
trade carries one quantity on both sides; and for a `GoodTillCancel` order with an
unregistered id the total remaining quantity queued afterwards is the total before
plus the order's quantity minus twice the traded total, as integers. -/
theorem quantity_conservation (ob : OrderBook) (hr : Reachable ob) (o : Order) :
    ∃ ob1 T, ob.AddOrder o = .ok (ob1, T) ∧
      (∀ t ∈ T, t.GetBidTrade.quantity_ = t.GetAskTrade.quantity_) ∧
      (o.type_ = .GoodTillCancel → ob.orderLookup_.contains o.id_ = false →
        (totalRemaining ob1.allOrders : Int) =
          (totalRemaining ob.allOrders : Int) + (o.remainingQty_ : Int)
            - 2 * (tradedQty T : Int)) := by
  have hinv := hr.inv
  obtain ⟨ob1, T, hadd, hT⟩ := hinv.addOrder_trades o
  refine ⟨ob1, T, hadd, ?_, ?_⟩
  · intro t ht
    obtain ⟨a, q, -, rfl, -, -⟩ := hT t ht
    rw [(tradeOf_same_quantity o a q).1, (tradeOf_same_quantity o a q).2]
  · intro hgtc hc
    have hid := Registry.contains_eq_false.mp hc
    obtain ⟨ob2, T2, hadd2, hcase⟩ := hinv.addOrder_cases o hid
    rw [hadd] at hadd2
    simp only [Except.ok.injEq, Prod.mk.injEq] at hadd2
    obtain ⟨rfl, rfl⟩ := hadd2
    have key : totalRemaining ob1.allOrders + 2 * tradedQty T =
        totalRemaining ob.allOrders + o.remainingQty_ := by
      rcases hcase with ⟨-, hT0, ⟨h1, -⟩ | ⟨-, h1⟩⟩ | ⟨-, obL, hsw, hwfL, -, h1⟩
      · rw [hgtc] at h1
        cases h1
      · subst hT0
        rw [h1]
        have hp := (ob.insert_allOrders_perm o).map (fun x => x.remainingQty_)
        simp only [totalRemaining, tradedQty, List.map_nil, List.sum_nil, hp.sum_eq,
          List.map_cons, List.sum_cons]
        omega
      · rw [h1, (hsw.final hwfL hinv hid).2.2 hgtc]
        exact hsw.conservation
    omega

theorem quantity_conservation_witness :
    Reachable sampleBook ∧
      ∃ ob1 T, sampleBook.AddOrder (Order.new .GoodTillCancel 7 .Buy 101 10) = .ok (ob1, T) ∧
        (∀ t ∈ T, t.GetBidTrade.quantity_ = t.GetAskTrade.quantity_) ∧
        ((Order.new .GoodTillCancel 7 .Buy 101 10).type_ = .GoodTillCancel →
          sampleBook.orderLookup_.contains (Order.new .GoodTillCancel 7 .Buy 101 10).id_ = false →
          (totalRemaining ob1.allOrders : Int) =
            (totalRemaining sampleBook.allOrders : Int) +
              ((Order.new .GoodTillCancel 7 .Buy 101 10).remainingQty_ : Int)
              - 2 * (tradedQty T : Int)) :=
  ⟨sampleBook_reachable,
    quantity_conservation sampleBook sampleBook_reachable (Order.new .GoodTillCancel 7 .Buy 101 10)⟩

theorem OrderBook.WF.levels_own {ob : OrderBook} (h : ob.WF) (side : Side) :
    ∀ x ∈ ob.levels side, ∀ a ∈ x.2, a.side_ = side ∧ a.price_ = x.1 := by
  cases side with
  | Buy => exact h.buy.own
  | Sell => exact h.sell.own

theorem OrderBook.WF.contains_iff {ob : OrderBook} (h : ob.WF) (id : Nat) :
    ob.orderLookup_.contains id = true ↔ id ∈ ob.allOrders.map (fun a => a.id_) := by
  rw [← not_iff_not, ← h.lookup_none_iff id, Bool.not_eq_true, Registry.contains_eq_false]

/-- C5, registry and book in lockstep. In a reachable book an id is carried by
exactly one queued order when it is registered and by none otherwise; the order
registered under an id sits in a queue of its own side, at the level of its own
price; every queued order is filed under its own side and price; and `Size()` is
the number of queued orders. -/
theorem registry_book_lockstep (ob : OrderBook) (hr : Reachable ob) :
    (∀ id, (ob.allOrders.map (fun a => a.id_)).count id =
        if ob.orderLookup_.contains id then 1 else 0) ∧
      (∀ id e, ob.orderLookup_.lookup id = some e →
        ∃ x ∈ ob.levels e.side_, x.1 = e.price_ ∧
          ∃ a ∈ x.2, a.id_ = id ∧ a.side_ = e.side_ ∧ a.price_ = e.price_ ∧
            a.type_ = e.type_) ∧
      (∀ side, ∀ x ∈ ob.levels side, ∀ a ∈ x.2, a.side_ = side ∧ a.price_ = x.1) ∧
      (ob.orderLookup_.map Prod.fst).Nodup ∧
      ob.Size = ob.allOrders.length := by
  have hwf := hr.inv.wf
  refine ⟨?_, ?_, hwf.levels_own, hwf.regNodup, ?_⟩
  · intro id
    by_cases hc : ob.orderLookup_.contains id = true
    · rw [if_pos hc]
      exact List.count_eq_one_of_mem hwf.nodup ((hwf.contains_iff id).mp hc)
    · rw [if_neg hc]
      exact List.count_eq_zero_of_not_mem (fun hm => hc ((hwf.contains_iff id).mpr hm))
  · intro id e hl
    obtain ⟨a, ha, hid, hae⟩ := (hwf.lookup_iff id e).mp hl
    have hs : a.side_ = e.side_ := by rw [← hae]; rfl
    have hp : a.price_ = e.price_ := by rw [← hae]; rfl
    have ht : a.type_ = e.type_ := by rw [← hae]; rfl
    have hmem : a ∈ (ob.levels e.side_).orders := by
      rcases (ob.mem_allOrders_iff e.side_ a).mp ha with h | h
      · exact h
      · obtain ⟨x, hx, hax⟩ := Levels.mem_orders.mp h
        have := (hwf.levels_own _ x hx a hax).1
        rw [hs] at this
        cases hse : e.side_ <;> rw [hse] at this <;> cases this
    obtain ⟨x, hx, hax⟩ := Levels.mem_orders.mp hmem
    refine ⟨x, hx, ?_, a, hax, hid, hs, hp, ht⟩
    rw [← hp]
    exact ((hwf.levels_own _ x hx a hax).2).symm
  · have := hwf.lockstep.length_eq
    simpa [OrderBook.Size] using this

theorem registry_book_lockstep_witness :
    Reachable sampleBook ∧
      ((∀ id, (sampleBook.allOrders.map (fun a => a.id_)).count id =
        if sampleBook.orderLookup_.contains id then 1 else 0) ∧
      (∀ id e, sampleBook.orderLookup_.lookup id = some e →
        ∃ x ∈ sampleBook.levels e.side_, x.1 = e.price_ ∧
          ∃ a ∈ x.2, a.id_ = id ∧ a.side_ = e.side_ ∧ a.price_ = e.price_ ∧
            a.type_ = e.type_) ∧
      (∀ side, ∀ x ∈ sampleBook.levels side, ∀ a ∈ x.2, a.side_ = side ∧ a.price_ = x.1) ∧
      (sampleBook.orderLookup_.map Prod.fst).Nodup ∧
      sampleBook.Size = sampleBook.allOrders.length) :=
  ⟨sampleBook_reachable, registry_book_lockstep sampleBook sampleBook_reachable⟩

/-- C6, the book is never left crossed. In a reachable book the bid side is empty, or
the ask side is empty, or the first bid level (the highest: every other bid level
is priced below it) is priced strictly below the first ask level (the lowest). -/
theorem never_left_crossed (ob : OrderBook) (hr : Reachable ob) :
    ob.buyOrders_ = [] ∨ ob.sellOrders_ = [] ∨
      ∃ bestBid bids bestAsk asks,
        ob.buyOrders_ = bestBid :: bids ∧ ob.sellOrders_ = bestAsk :: asks ∧
        (∀ x ∈ bids, x.1 < bestBid.1) ∧ (∀ y ∈ asks, bestAsk.1 < y.1) ∧
        bestBid.1 < bestAsk.1 := by
  have hinv := hr.inv
  cases hb : ob.buyOrders_ with
  | nil => exact Or.inl rfl
  | cons bestBid bids =>
    cases hs : ob.sellOrders_ with
    | nil => exact Or.inr (Or.inl rfl)
    | cons bestAsk asks =>
      refine Or.inr (Or.inr ⟨bestBid, bids, bestAsk, asks, rfl, rfl, ?_, ?_, ?_⟩)
      · have := hinv.wf.buy.sorted
        rw [hb] at this
        intro x hx
        simpa [Side.before] using (List.pairwise_cons.mp this).1 x hx
      · have := hinv.wf.sell.sorted
        rw [hs] at this
        intro y hy
        simpa [Side.before] using (List.pairwise_cons.mp this).1 y hy
      · exact hinv.uncrossed bestBid (by rw [hb]; exact List.mem_cons_self _ _) bestAsk
          (by rw [hs]; exact List.mem_cons_self _ _)

theorem never_left_crossed_witness :
    Reachable sampleBook ∧
      (sampleBook.buyOrders_ = [] ∨ sampleBook.sellOrders_ = [] ∨
        ∃ bestBid bids bestAsk asks,
          sampleBook.buyOrders_ = bestBid :: bids ∧ sampleBook.sellOrders_ = bestAsk :: asks ∧
          (∀ x ∈ bids, x.1 < bestBid.1) ∧ (∀ y ∈ asks, bestAsk.1 < y.1) ∧
          bestBid.1 < bestAsk.1) :=
  ⟨sampleBook_reachable, never_left_crossed sampleBook sampleBook_reachable⟩

theorem OrderBook.CancelOrder_lookup_self (ob : OrderBook) (id : Nat) :
    (ob.CancelOrder id).orderLookup_.lookup id = none := by
  cases hl : ob.orderLookup_.lookup id with
  | none => rw [OrderBook.CancelOrder_none hl]; exact hl
  | some e =>
    cases hs : e.side_ with
    | Buy => rw [OrderBook.CancelOrder_buy hl hs]; simp [Registry.lookup_erase]
    | Sell => rw [OrderBook.CancelOrder_sell hl hs]; simp [Registry.lookup_erase]

/-- C7, policy rejections are silent no-ops. On every book state: `AddOrder` of a
registered id, `AddOrder` of a `FillAndKill` order for which `CanMatch` is false,
and `MatchOrder` (modification) of an unregistered id return `ok` with no trade and
the same book; `CancelOrder` of an unregistered id returns the same book; `CanMatch`
is false for a buy exactly when the ask side is empty or the price is below the
best ask, and for a sell exactly when the bid side is empty or the price is above
the best bid; and cancelling an id twice leaves what cancelling it once leaves. -/
theorem policy_rejections_are_noops (ob : OrderBook) :
    (∀ o : Order, ob.orderLookup_.contains o.id_ = true → ob.AddOrder o = .ok (ob, [])) ∧
      (∀ o : Order, o.type_ = .FillAndKill → ob.CanMatch o.side_ o.price_ = false →
        ob.AddOrder o = .ok (ob, [])) ∧
      (∀ p, ob.CanMatch .Buy p = false ↔
        (ob.sellOrders_ = [] ∨ ∃ best rest, ob.sellOrders_ = best :: rest ∧ p < best.1)) ∧
      (∀ p, ob.CanMatch .Sell p = false ↔
        (ob.buyOrders_ = [] ∨ ∃ best rest, ob.buyOrders_ = best :: rest ∧ p > best.1)) ∧
      (∀ id, ob.orderLookup_.contains id = false → ob.CancelOrder id = ob) ∧
      (∀ m : OrderModify, ob.orderLookup_.contains m.id_ = false →
        ob.MatchOrder m = .ok (ob, [])) ∧
      (∀ id, (ob.CancelOrder id).CancelOrder id = ob.CancelOrder id) := by
  refine ⟨?_, ?_, ?_, ?_, ?_, ?_, ?_⟩
  · intro o hc
    simp [OrderBook.AddOrder, hc]
  · intro o hfak hcan
    unfold OrderBook.AddOrder
    split
    · rfl
    · rw [if_pos ⟨hfak, hcan⟩]
  · intro p
    unfold OrderBook.CanMatch
    cases ob.sellOrders_ with
    | nil => simp
    | cons best rest =>
      obtain ⟨bestAsk, q⟩ := best
      simp
  · intro p
    unfold OrderBook.CanMatch
    cases ob.buyOrders_ with
    | nil => simp
    | cons best rest =>
      obtain ⟨bestBid, q⟩ := best
      simp
  · intro id hc
    exact OrderBook.CancelOrder_none (Registry.contains_eq_false.mp hc)
  · intro m hc
    simp [OrderBook.MatchOrder, Registry.contains_eq_false.mp hc]
  · intro id
    exact OrderBook.CancelOrder_none (ob.CancelOrder_lookup_self id)

theorem policy_rejections_are_noops_witness :
    sampleBook.AddOrder (Order.new .GoodTillCancel 6 .Buy 100 10) = .ok (sampleBook, []) ∧
      sampleBook.AddOrder (Order.new .FillAndKill 7 .Buy 99 10) = .ok (sampleBook, []) ∧
      sampleBook.CancelOrder 7 = sampleBook ∧
      sampleBook.MatchOrder ⟨7, 100, .Buy, 1⟩ = .ok (sampleBook, []) ∧
      (sampleBook.CancelOrder 6).CancelOrder 6 = sampleBook.CancelOrder 6 :=
  ⟨(policy_rejections_are_noops sampleBook).1 (Order.new .GoodTillCancel 6 .Buy 100 10) rfl,
   (policy_rejections_are_noops sampleBook).2.1 (Order.new .FillAndKill 7 .Buy 99 10) rfl rfl,
   (policy_rejections_are_noops sampleBook).2.2.2.2.1 7 rfl,
   (policy_rejections_are_noops sampleBook).2.2.2.2.2.1 ⟨7, 100, .Buy, 1⟩ rfl,
   (policy_rejections_are_noops sampleBook).2.2.2.2.2.2 6⟩

/-! ## Queues by price -/

theorem Levels.queue_cons (p1 : Int) (q : OrderList) (l : Levels) (p : Int) :
    Levels.queue ((p1, q) :: l) p = if p = p1 then q else Levels.queue l p := by
  unfold Levels.queue
  by_cases h : p = p1
  · subst h
    simp [List.lookup_cons]
  · have : (p == p1) = false := by simpa using h
    simp [List.lookup_cons, this, h]

@[simp] theorem Levels.queue_nil (p : Int) : Levels.queue [] p = [] := rfl

theorem Levels.queue_of_not_key {l : Levels} {p : Int} (h : ∀ x ∈ l, x.1 ≠ p) :
    l.queue p = [] := by
  induction l with
  | nil => rfl
  | cons x l ih =>
    obtain ⟨p1, q⟩ := x
    have h1 : p ≠ p1 := fun he => h (p1, q) (List.mem_cons_self _ _) he.symm
    rw [Levels.queue_cons, if_neg h1]
    exact ih (fun y hy => h y (List.mem_cons_of_mem _ hy))

theorem Levels.mem_queue {l : Levels} {p : Int} {a : Order} (h : a ∈ l.queue p) :
    (p, l.queue p) ∈ l := by
  induction l with
  | nil => simp at h
  | cons x l ih =>
    obtain ⟨p1, q⟩ := x
    rw [Levels.queue_cons] at h ⊢
    by_cases hp : p = p1
    · rw [if_pos hp] at h ⊢
      rw [hp]
      exact List.mem_cons_self _ _
    · rw [if_neg hp] at h ⊢
      exact List.mem_cons_of_mem _ (ih h)

theorem Levels.mem_orders_of_mem_queue {l : Levels} {p : Int} {a : Order}
    (h : a ∈ l.queue p) : a ∈ l.orders :=
  Levels.mem_orders.mpr ⟨_, Levels.mem_queue h, h⟩

/-- In a well-shaped side the queue found at a price is the queue of the level
keyed by that price. -/
theorem Levels.WF.queue_of_mem {side : Side} {l : Levels} (h : Levels.WF side l)
    {x : Int × OrderList} (hx : x ∈ l) : l.queue x.1 = x.2 := by
  induction l with
  | nil => cases hx
  | cons y l ih =>
    obtain ⟨p1, q⟩ := y
    rw [Levels.queue_cons]
    rcases List.mem_cons.mp hx with rfl | hx
    · simp
    · rw [if_neg (h.key_ne x hx), ih h.tail hx]

theorem Levels.WF.mem_keys_iff {side : Side} {l : Levels} (h : Levels.WF side l) (p : Int) :
    p ∈ l.map Prod.fst ↔ l.queue p ≠ [] := by
  constructor
  · intro hp
    obtain ⟨x, hx, rfl⟩ := List.mem_map.mp hp
    rw [h.queue_of_mem hx]
    exact h.nonempty x hx
  · intro hq
    obtain ⟨a, ha⟩ := List.exists_mem_of_ne_nil _ hq
    exact List.mem_map.mpr ⟨_, Levels.mem_queue ha, rfl⟩

/-- The queues after the queue part of `CancelOrder`: every queue has lost the orders
carrying the id and nothing else. -/
theorem Levels.WF.queue_cancel {side : Side} {l : Levels} (h : Levels.WF side l)
    (p : Int) (id : Nat) (hn : (l.orders.map (fun o => o.id_)).Nodup)
    (hp : ∀ o ∈ l.orders, o.id_ = id → o.price_ = p) (p1 : Int) :
    (Levels.cancel p id l).queue p1 = (l.queue p1).filter (fun o => o.id_ != id) := by
  induction l with
  | nil => rfl
  | cons x l ih =>
    obtain ⟨p2, q⟩ := x
    simp only [Levels.orders_cons, List.map_append, List.nodup_append] at hn
    simp only [Levels.orders_cons, List.mem_append] at hp
    have hrestq : ∀ p3, p3 ≠ p →
        (Levels.queue l p3).filter (fun o => o.id_ != id) = Levels.queue l p3 := by
      intro p3 hp3
      apply filter_id_of_not_mem
      intro hm
      obtain ⟨a, ha, hai⟩ := List.mem_map.mp hm
      have h1 : a.price_ = p3 := (h.tail.own _ (Levels.mem_queue ha) a ha).2
      have h2 := hp a (Or.inr (Levels.mem_orders_of_mem_queue ha)) hai
      exact hp3 (h1.symm.trans h2)
    unfold Levels.cancel
    by_cases hpe : p2 = p
    · subst hpe
      simp only [if_true]
      have hq := eraseP_eq_filter_of_nodup q id hn.1
      have hkey : Levels.queue l p2 = [] := Levels.queue_of_not_key (h.key_ne)
      by_cases hp1 : p1 = p2
      · subst hp1
        split
        · next he =>
          rw [List.isEmpty_iff] at he
          rw [hkey, Levels.queue_cons, if_pos rfl, ← hq, he]
        · rw [Levels.queue_cons, if_pos rfl, Levels.queue_cons, if_pos rfl, hq]
      · split
        · rw [Levels.queue_cons, if_neg hp1, hrestq p1 hp1]
        · rw [Levels.queue_cons, if_neg hp1, Levels.queue_cons, if_neg hp1, hrestq p1 hp1]
    · simp only [hpe, if_false]
      rw [Levels.queue_cons, Levels.queue_cons]
      by_cases hp1 : p1 = p2
      · rw [if_pos hp1, if_pos hp1]
        symm
        apply filter_id_of_not_mem
        intro hm
        obtain ⟨a, ha, hai⟩ := List.mem_map.mp hm
        have h1 : a.price_ = p2 := (h.own (p2, q) (List.mem_cons_self _ _) a ha).2
        have h2 := hp a (Or.inl ha) hai
        exact hpe (h1.symm.trans h2)
      · rw [if_neg hp1, if_neg hp1]
        exact ih h.tail hn.2.1 (fun o ho => hp o (Or.inr ho))

theorem filter_id_length {l : List Order} {a : Order} (ha : a ∈ l)
    (hn : (l.map (fun o => o.id_)).Nodup) :
    (l.filter (fun o => o.id_ != a.id_)).length + 1 = l.length := by
  obtain ⟨X, Y, rfl⟩ := List.append_of_mem ha
  rw [filter_id_middle X Y a hn]
  simp only [List.length_append, List.length_cons]
  omega

theorem Levels.sublist_of_mem {l : Levels} {x : Int × OrderList} (hx : x ∈ l) :
    x.2.Sublist l.orders := by
  induction l with
  | nil => cases hx
  | cons y l ih =>
    obtain ⟨p1, q⟩ := y
    rw [Levels.orders_cons]
    rcases List.mem_cons.mp hx with rfl | hx
    · exact List.sublist_append_left _ _
    · exact (ih hx).trans (List.sublist_append_right _ _)

theorem OrderBook.CancelOrder_some {ob : OrderBook} {id : Nat} {e : OrderEntry}
    (hl : ob.orderLookup_.lookup id = some e) :
    (ob.CancelOrder id).levels e.side_ = Levels.cancel e.price_ id (ob.levels e.side_) ∧
      (ob.CancelOrder id).levels e.side_.opposite = ob.levels e.side_.opposite ∧
      (ob.CancelOrder id).orderLookup_ = ob.orderLookup_.erase id := by
  cases hs : e.side_ with
  | Buy => rw [OrderBook.CancelOrder_buy hl hs]; exact ⟨rfl, rfl, rfl⟩
  | Sell => rw [OrderBook.CancelOrder_sell hl hs]; exact ⟨rfl, rfl, rfl⟩

theorem Side.eq_or_opposite (a b : Side) : a = b ∨ a = b.opposite := by
  cases a <;> cases b <;> simp [Side.opposite]

theorem Side.opposite_ne (a : Side) : a.opposite ≠ a := by
  cases a <;> simp [Side.opposite]

theorem OrderBook.WF.levels_wf {ob : OrderBook} (h : ob.WF) (side : Side) :
    Levels.WF side (ob.levels side) := by
  cases side with
  | Buy => exact h.buy
  | Sell => exact h.sell

theorem OrderBook.WF.levels_nodup {ob : OrderBook} (h : ob.WF) (side : Side) :
    ((ob.levels side).orders.map (fun o => o.id_)).Nodup := by
  have hn := h.nodup
  simp only [OrderBook.allOrders, List.map_append, List.nodup_append] at hn
  cases side with
  | Buy => exact hn.1
  | Sell => exact hn.2.1

/-- On a well-formed book every queue after `CancelOrder` is the queue before without
the orders carrying the id. -/
theorem OrderBook.WF.queue_cancelOrder {ob : OrderBook} (h : ob.WF) (id : Nat)
    (side : Side) (p : Int) :
    ((ob.CancelOrder id).levels side).queue p =
      ((ob.levels side).queue p).filter (fun a => a.id_ != id) := by
  cases hl : ob.orderLookup_.lookup id with
  | none =>
    rw [OrderBook.CancelOrder_none hl]
    symm
    apply filter_id_of_not_mem
    intro hm
    obtain ⟨a, ha, hai⟩ := List.mem_map.mp hm
    exact (h.lookup_none_iff id).mp hl (List.mem_map.mpr
      ⟨a, OrderBook.mem_allOrders_of_levels (Levels.mem_orders_of_mem_queue ha), hai⟩)
  | some e =>
    obtain ⟨a, ha, hid, hae⟩ := (h.lookup_iff id e).mp hl
    have hs : a.side_ = e.side_ := by rw [← hae]; rfl
    have hp : a.price_ = e.price_ := by rw [← hae]; rfl
    obtain ⟨h1, h2, -⟩ := OrderBook.CancelOrder_some hl
    rcases Side.eq_or_opposite side e.side_ with rfl | rfl
    · rw [h1]
      apply (h.levels_wf e.side_).queue_cancel _ _ (h.levels_nodup e.side_)
      intro x hx hxi
      rw [h.eq_of_id (OrderBook.mem_allOrders_of_levels hx) ha (hxi.trans hid.symm), hp]
    · rw [h2]
      symm
      apply filter_id_of_not_mem
      intro hm
      obtain ⟨x, hx, hxi⟩ := List.mem_map.mp hm
      have hxo := Levels.mem_orders_of_mem_queue hx
      have hxa := h.eq_of_id (OrderBook.mem_allOrders_of_levels hxo) ha (hxi.trans hid.symm)
      obtain ⟨y, hy, hxy⟩ := Levels.mem_orders.mp hxo
      have := (h.levels_own _ y hy x hxy).1
      rw [hxa, hs] at this
      exact Side.opposite_ne _ this.symm

/-- C8, `CancelOrder` removes exactly the named order. On a reachable book, for a
registered id: afterwards the id is not registered and no queued order carries it;
`Size()` is one less; every other id has the registry entry it had; every queue, on
either side and at every price, is the queue before without the cancelled order
(same orders, same remaining quantities, same relative order); the other side's map
is unchanged; the levels at other prices stay; and the cancelled order's level is
gone exactly when its queue held that order alone. -/
theorem cancel_removes_exactly (ob : OrderBook) (hr : Reachable ob) (id : Nat)
    (e : OrderEntry) (hreg : ob.orderLookup_.lookup id = some e) :
    (ob.CancelOrder id).orderLookup_.contains id = false ∧
      (∀ x ∈ (ob.CancelOrder id).allOrders, x.id_ ≠ id) ∧
      (ob.CancelOrder id).Size + 1 = ob.Size ∧
      (∀ id1, id1 ≠ id →
        (ob.CancelOrder id).orderLookup_.lookup id1 = ob.orderLookup_.lookup id1) ∧
      (∀ side p, ((ob.CancelOrder id).levels side).queue p =
        ((ob.levels side).queue p).filter (fun a => a.id_ != id)) ∧
      (ob.CancelOrder id).levels e.side_.opposite = ob.levels e.side_.opposite ∧
      (∀ p, p ≠ e.price_ → (p ∈ ((ob.CancelOrder id).levels e.side_).map Prod.fst ↔
        p ∈ (ob.levels e.side_).map Prod.fst)) ∧
      (e.price_ ∈ ((ob.CancelOrder id).levels e.side_).map Prod.fst ↔
        ((ob.levels e.side_).queue e.price_).length ≠ 1) := by
  have hwf := hr.inv.wf
  have hwf1 := hwf.cancelOrder_wf id
  have hq := hwf.queue_cancelOrder id
  obtain ⟨a, ha, hid, hae⟩ := (hwf.lookup_iff id e).mp hreg
  have hs : a.side_ = e.side_ := by rw [← hae]; rfl
  have hp : a.price_ = e.price_ := by rw [← hae]; rfl
  have hnone := ob.CancelOrder_lookup_self id
  obtain ⟨h1, h2, h3⟩ := hwf.cancel_eq id
  have hall : (ob.CancelOrder id).allOrders = ob.allOrders.filter (fun o => o.id_ != id) := by
    simp only [OrderBook.allOrders, h1, h2, List.filter_append]
  -- the cancelled order sits in the queue at its own side and price
  have haq : a ∈ (ob.levels e.side_).queue e.price_ := by
    have hmem : a ∈ (ob.levels e.side_).orders := by
      rcases (ob.mem_allOrders_iff e.side_ a).mp ha with h | h
      · exact h
      · obtain ⟨x, hx, hax⟩ := Levels.mem_orders.mp h
        have := (hwf.levels_own _ x hx a hax).1
        rw [hs] at this
        exact absurd this.symm (Side.opposite_ne _)
    obtain ⟨x, hx, hax⟩ := Levels.mem_orders.mp hmem
    have hxp : x.1 = e.price_ := by rw [← hp]; exact ((hwf.levels_own _ x hx a hax).2).symm
    rw [← hxp, (hwf.levels_wf e.side_).queue_of_mem hx]
    exact hax
  have hqn : (((ob.levels e.side_).queue e.price_).map (fun o => o.id_)).Nodup := by
    have hsub : ((ob.levels e.side_).queue e.price_).Sublist (ob.levels e.side_).orders :=
      Levels.sublist_of_mem (Levels.mem_queue haq)
    exact (hwf.levels_nodup e.side_).sublist (hsub.map _)
  refine ⟨Registry.contains_eq_false.mpr hnone, ?_, ?_, ?_, hq, (OrderBook.CancelOrder_some hreg).2.1,
    ?_, ?_⟩
  · intro x hx hxi
    exact (hwf1.lookup_none_iff id).mp hnone (List.mem_map.mpr ⟨x, hx, hxi⟩)
  · have hl1 := hwf1.lockstep.length_eq
    have hl0 := hwf.lockstep.length_eq
    rw [List.length_map] at hl1 hl0
    have := filter_id_length ha hwf.nodup
    rw [hid, ← hall] at this
    simp only [OrderBook.Size]
    omega
  · intro id1 hne
    rw [h3, Registry.lookup_erase, if_neg hne]
  · intro p hpne
    rw [(hwf1.levels_wf e.side_).mem_keys_iff, (hwf.levels_wf e.side_).mem_keys_iff, hq]
    have : ((ob.levels e.side_).queue p).filter (fun a => a.id_ != id) =
        (ob.levels e.side_).queue p := by
      apply filter_id_of_not_mem
      intro hm
      obtain ⟨x, hx, hxi⟩ := List.mem_map.mp hm
      have hxa := hwf.eq_of_id (OrderBook.mem_allOrders_of_levels
        (Levels.mem_orders_of_mem_queue hx)) ha (hxi.trans hid.symm)
      have hxp : x.price_ = p := ((hwf.levels_own _ _ (Levels.mem_queue hx)) x hx).2
      rw [hxa, hp] at hxp
      exact hpne hxp.symm
    rw [this]
  · rw [(hwf1.levels_wf e.side_).mem_keys_iff, hq]
    have hlen := filter_id_length haq hqn
    rw [hid] at hlen
    rw [Ne, ← List.length_eq_zero]
    omega

theorem cancel_removes_exactly_witness :
    Reachable sampleBook ∧ sampleBook.orderLookup_.lookup 6 = some ⟨.GoodTillCancel, .Sell, 100⟩ ∧
      (sampleBook.CancelOrder 6).Size + 1 = sampleBook.Size ∧
      ((sampleBook.CancelOrder 6).levels .Sell).queue 100 =
        ((sampleBook.levels .Sell).queue 100).filter (fun a => a.id_ != 6) ∧
      (100 ∈ ((sampleBook.CancelOrder 6).levels .Sell).map Prod.fst ↔
        ((sampleBook.levels .Sell).queue 100).length ≠ 1) :=
  ⟨sampleBook_reachable, rfl,
    (cancel_removes_exactly sampleBook sampleBook_reachable 6 ⟨.GoodTillCancel, .Sell, 100⟩
      rfl).2.2.1,
    (cancel_removes_exactly sampleBook sampleBook_reachable 6 ⟨.GoodTillCancel, .Sell, 100⟩
      rfl).2.2.2.2.1 .Sell 100,
    (cancel_removes_exactly sampleBook sampleBook_reachable 6 ⟨.GoodTillCancel, .Sell, 100⟩
      rfl).2.2.2.2.2.2.2⟩

/-! ## Modification -/

theorem Levels.WF.queue_pushBack {side : Side} {l : Levels} (h : Levels.WF side l)
    (p : Int) (o : Order) (p1 : Int) :
    (Levels.pushBack side p o l).queue p1 =
      if p1 = p then l.queue p ++ [o] else l.queue p1 := by
  induction l with
  | nil =>
    simp only [Levels.pushBack, Levels.queue_cons, Levels.queue_nil, List.nil_append]
  | cons x l ih =>
    obtain ⟨p2, q⟩ := x
    unfold Levels.pushBack
    by_cases hp : p = p2
    · subst hp
      simp only [if_true, Levels.queue_cons]
      by_cases h1 : p1 = p <;> simp [h1]
    · simp only [hp, if_false]
      by_cases hb : side.before p p2 = true
      · simp only [hb, if_true]
        have hkey : Levels.queue ((p2, q) :: l) p = [] := by
          apply Levels.queue_of_not_key
          intro y hy hye
          rcases List.mem_cons.mp hy with rfl | hy
          · exact hp hye.symm
          · have h1 := (List.pairwise_cons.mp h.sorted).1 y hy
            have h2 := Side.before_trans hb h1
            rw [hye, Side.before_irrefl] at h2
            cases h2
        rw [Levels.queue_cons, hkey]
        by_cases h1 : p1 = p <;> simp [h1]
      · simp only [hb, Bool.false_eq_true, if_false]
        rw [Levels.queue_cons, ih h.tail, Levels.queue_cons, Levels.queue_cons]
        by_cases h1 : p1 = p
        · subst h1
          simp [hp]
        · simp [h1]

theorem OrderBook.CancelOrder_keys (ob : OrderBook) (id : Nat) (side : Side) :
    ∀ x ∈ (ob.CancelOrder id).levels side, ∃ z ∈ ob.levels side, z.1 = x.1 := by
  intro x hx
  rcases OrderBook.CancelOrder_levels ob id with ⟨p, hp, hq⟩ | ⟨p, hp, hq⟩ | hp
  · cases side with
    | Buy =>
      simp only [OrderBook.levels, hp] at hx
      exact Levels.cancel_fst hx
    | Sell =>
      simp only [OrderBook.levels, hq] at hx
      exact ⟨x, hx, rfl⟩
  · cases side with
    | Buy =>
      simp only [OrderBook.levels, hq] at hx
      exact ⟨x, hx, rfl⟩
    | Sell =>
      simp only [OrderBook.levels, hp] at hx
      exact Levels.cancel_fst hx
  · rw [hp] at hx
    exact ⟨x, hx, rfl⟩

theorem Side.before_of_sorted {side : Side} {y z p : Int}
    (h1 : side.before y p = true) (h2 : side.opposite.before y z = true) :
    side.before z p = true := by
  cases side
  · simp only [Side.before, Side.opposite, decide_eq_true_eq, gt_iff_lt] at *
    exact lt_trans h1 h2
  · simp only [Side.before, Side.opposite, decide_eq_true_eq, gt_iff_lt] at *
    exact lt_trans h2 h1

/-- On a well-formed book `CanMatch` is false exactly when every level of the other
side is priced beyond the price. -/
theorem OrderBook.WF.canMatch_false_iff {ob : OrderBook} (h : ob.WF) (side : Side) (p : Int) :
    ob.CanMatch side p = false ↔
      ∀ y ∈ ob.levels side.opposite, side.before y.1 p = true := by
  rw [← Bool.not_eq_true, OrderBook.CanMatch_iff]
  constructor
  · intro hno y hy
    cases hl : ob.levels side.opposite with
    | nil =>
      rw [hl] at hy
      cases hy
    | cons y0 rest =>
      have h0 : side.before y0.1 p = true := by
        by_contra hc
        exact hno ⟨y0, rest, hl, by simpa using hc⟩
      rw [hl] at hy
      rcases List.mem_cons.mp hy with rfl | hy
      · exact h0
      · have hs := h.levels_sorted side.opposite
        rw [hl] at hs
        exact Side.before_of_sorted h0 ((List.pairwise_cons.mp hs).1 y hy)
  · rintro hall ⟨y, rest, hl, hy⟩
    have := hall y (by rw [hl]; exact List.mem_cons_self _ _)
    rw [hy] at this
    cases this

/-- An order that cannot match before a cancellation cannot match after it. -/
theorem OrderBook.WF.canMatch_cancelOrder {ob : OrderBook} (h : ob.WF) (id : Nat)
    (side : Side) (p : Int) (hno : ob.CanMatch side p = false) :
    (ob.CancelOrder id).CanMatch side p = false := by
  rw [(h.cancelOrder_wf id).canMatch_false_iff]
  intro y hy
  obtain ⟨z, hz, hzy⟩ := ob.CancelOrder_keys id side.opposite y hy
  rw [← hzy]
  exact (h.canMatch_false_iff side p).mp hno z hz

theorem OrderBook.WF.size_cancelOrder {ob : OrderBook} (h : ob.WF) {id : Nat} {e : OrderEntry}
    (hreg : ob.orderLookup_.lookup id = some e) : (ob.CancelOrder id).Size + 1 = ob.Size := by
  obtain ⟨a, ha, hid, -⟩ := (h.lookup_iff id e).mp hreg
  obtain ⟨h1, h2, -⟩ := h.cancel_eq id
  have hall : (ob.CancelOrder id).allOrders = ob.allOrders.filter (fun o => o.id_ != id) := by
    simp only [OrderBook.allOrders, h1, h2, List.filter_append]
  have hl1 := (h.cancelOrder_wf id).lockstep.length_eq
  have hl0 := h.lockstep.length_eq
  rw [List.length_map] at hl1 hl0
  have := filter_id_length ha h.nodup
  rw [hid, ← hall] at this
  simp only [OrderBook.Size]
  omega

/-- C9, `MatchOrder` (modification) loses time priority and keeps the order type. On a
reachable book, for a registered id and a modification whose new order cannot match
(tested before the call or once the old order is cancelled), `MatchOrder` returns no
trade; afterwards the id is registered with the old type and the new side and
price; the queue at the new side and price is the old queue without the modified
order, followed by the new order `Order(type, id, side, price, qty)` (initial and
remaining quantity `qty`) as its last element; no other queued order carries the
id; and `Size()` is unchanged. -/
theorem modify_loses_time_priority (ob : OrderBook) (hr : Reachable ob) (m : OrderModify)
    (e : OrderEntry) (hreg : ob.orderLookup_.lookup m.id_ = some e)
    (hno : ob.CanMatch m.side_ m.price_ = false ∨
      (ob.CancelOrder m.id_).CanMatch m.side_ m.price_ = false) :
    ∃ ob1, ob.MatchOrder m = .ok (ob1, []) ∧
      ob1.orderLookup_.lookup m.id_ = some ⟨e.type_, m.side_, m.price_⟩ ∧
      (ob1.levels m.side_).queue m.price_ =
        ((ob.levels m.side_).queue m.price_).filter (fun a => a.id_ != m.id_) ++
          [Order.new e.type_ m.id_ m.side_ m.price_ m.qty_] ∧
      ((ob1.levels m.side_).queue m.price_).getLast? =
        some (Order.new e.type_ m.id_ m.side_ m.price_ m.qty_) ∧
      (∀ x ∈ ob1.allOrders, x.id_ = m.id_ →
        x = Order.new e.type_ m.id_ m.side_ m.price_ m.qty_) ∧
      ob1.Size = ob.Size := by
  have hinv := hr.inv
  have hinv1 := hinv.cancelOrder_inv m.id_
  have hcan : (ob.CancelOrder m.id_).CanMatch m.side_ m.price_ = false :=
    hno.elim (hinv.wf.canMatch_cancelOrder m.id_ _ _) id
  have hgtc : e.type_ = .GoodTillCancel := by
    obtain ⟨a, ha, -, hae⟩ := (hinv.wf.lookup_iff m.id_ e).mp hreg
    rw [← hae]
    exact hinv.noFAK a ha
  have hnone := ob.CancelOrder_lookup_self m.id_
  have hrest := hinv1.addOrder_rest (o := m.ToOrderPointer e.type_) hnone hcan hgtc
  have hq : (((ob.CancelOrder m.id_).insert (m.ToOrderPointer e.type_)).levels m.side_).queue
      m.price_ = ((ob.levels m.side_).queue m.price_).filter (fun a => a.id_ != m.id_) ++
        [Order.new e.type_ m.id_ m.side_ m.price_ m.qty_] := by
    have h1 := (ob.CancelOrder m.id_).insert_levels_own (m.ToOrderPointer e.type_)
    have hside : (m.ToOrderPointer e.type_).side_ = m.side_ := rfl
    have hprice : (m.ToOrderPointer e.type_).price_ = m.price_ := rfl
    rw [hside, hprice] at h1
    rw [h1, (hinv1.wf.levels_wf m.side_).queue_pushBack, if_pos rfl,
      hinv.wf.queue_cancelOrder]
    rfl
  have hc : (ob.CancelOrder m.id_).orderLookup_.contains (m.ToOrderPointer e.type_).id_ = false :=
    Registry.contains_eq_false.mpr hnone
  refine ⟨(ob.CancelOrder m.id_).insert (m.ToOrderPointer e.type_), ?_, ?_, hq, ?_, ?_, ?_⟩
  · simp only [OrderBook.MatchOrder, hreg]
    exact hrest.1
  · rw [OrderBook.insert_lookup, Registry.emplace, hc]
    simp only [Bool.false_eq_true, if_false, List.lookup_cons]
    have : (m.id_ == (m.ToOrderPointer e.type_).id_) = true := by
      simp [OrderModify.ToOrderPointer, Order.new]
    rw [this]
    rfl
  · rw [hq, List.getLast?_append]
    rfl
  · intro x hx hxi
    rcases List.mem_cons.mp
      (((ob.CancelOrder m.id_).insert_allOrders_perm (m.ToOrderPointer e.type_)).mem_iff.mp hx)
      with h | h
    · exact h
    · exact absurd (List.mem_map.mpr ⟨x, h, hxi⟩) ((hinv1.wf.lookup_none_iff m.id_).mp hnone)
  · have h1 := hinv.wf.size_cancelOrder hreg
    have h2 : ((ob.CancelOrder m.id_).insert (m.ToOrderPointer e.type_)).Size =
        (ob.CancelOrder m.id_).Size + 1 := by
      simp only [OrderBook.Size, OrderBook.insert_lookup, Registry.emplace,
        hc, Bool.false_eq_true, if_false, List.length_cons]
    omega

theorem modify_loses_time_priority_witness :
    Reachable sampleBook ∧
      sampleBook.orderLookup_.lookup 6 = some ⟨.GoodTillCancel, .Sell, 100⟩ ∧
      sampleBook.CanMatch .Sell 100 = false ∧
      (∃ ob1, sampleBook.MatchOrder ⟨6, 100, .Sell, 4⟩ = .ok (ob1, []) ∧
        (ob1.levels .Sell).queue 100 =
          [Order.new .GoodTillCancel 9 .Sell 100 3, Order.new .GoodTillCancel 6 .Sell 100 4] ∧
        ob1.Size = sampleBook.Size ∧
        ∃ ob2, ob1.AddOrder (Order.new .GoodTillCancel 7 .Buy 100 1) =
          .ok (ob2, [⟨⟨7, 100, 1⟩, ⟨9, 100, 1⟩⟩])) :=
  ⟨sampleBook_reachable, rfl, rfl,
    (modify_loses_time_priority sampleBook sampleBook_reachable ⟨6, 100, .Sell, 4⟩
      ⟨.GoodTillCancel, .Sell, 100⟩ rfl (Or.inl rfl)).elim
      (fun ob1 h => ⟨ob1, h.1, by
        have h1 := h.1
        have h2 : sampleBook.MatchOrder ⟨6, 100, .Sell, 4⟩ =
          .ok (⟨[(99, [Order.new .GoodTillCancel 10 .Buy 99 3])],
            [(100, [Order.new .GoodTillCancel 9 .Sell 100 3,
                Order.new .GoodTillCancel 6 .Sell 100 4]),
              (101, [Order.new .GoodTillCancel 8 .Sell 101 5])],
            [(6, ⟨.GoodTillCancel, .Sell, 100⟩), (10, ⟨.GoodTillCancel, .Buy, 99⟩),
              (9, ⟨.GoodTillCancel, .Sell, 100⟩), (8, ⟨.GoodTillCancel, .Sell, 101⟩)]⟩, []) := rfl
        rw [h2] at h1
        simp only [Except.ok.injEq, Prod.mk.injEq, and_true] at h1
        subst h1
        exact ⟨rfl, rfl, _, rfl⟩⟩)⟩

/-! ## The level snapshot -/

theorem foldl_quantity (l : OrderList) (acc : Nat) (h : acc < 2 ^ 32) :
    l.foldl (fun sum order => (sum + order.remainingQty_) % 2 ^ 32) acc =
      (acc + totalRemaining l) % 2 ^ 32 := by
  induction l generalizing acc with
  | nil =>
    rw [List.foldl_nil, totalRemaining_nil, Nat.add_zero, Nat.mod_eq_of_lt h]
  | cons a l ih =>
    rw [List.foldl_cons, ih _ (Nat.mod_lt _ (by decide)), totalRemaining_cons,
      Nat.add_mod, Nat.mod_mod, ← Nat.add_mod, Nat.add_assoc]

theorem BuildLevelInfo_eq (price : Int) (orders : OrderList) :
    BuildLevelInfo price orders = ⟨price, totalRemaining orders % 2 ^ 32⟩ := by
  unfold BuildLevelInfo
  rw [foldl_quantity orders 0 (by decide), Nat.zero_add]

/-- In a well-shaped side the queue of a level is the list of all orders of the side
priced at the level's key. -/
theorem Levels.WF.filter_price {side : Side} {l : Levels} (h : Levels.WF side l)
    {x : Int × OrderList} (hx : x ∈ l) :
    l.orders.filter (fun a => a.price_ == x.1) = x.2 := by
  induction l with
  | nil => cases hx
  | cons y l ih =>
    obtain ⟨p1, q⟩ := y
    rw [Levels.orders_cons, List.filter_append]
    have hq : ∀ a ∈ q, a.price_ = p1 := fun a ha => (h.own (p1, q) (List.mem_cons_self _ _) a ha).2
    rcases List.mem_cons.mp hx with rfl | hx
    · have h1 : q.filter (fun a => a.price_ == p1) = q := by
        rw [List.filter_eq_self]
        intro a ha
        simpa using hq a ha
      have h2 : (Levels.orders l).filter (fun a => a.price_ == p1) = [] := by
        rw [List.filter_eq_nil_iff]
        intro a ha
        obtain ⟨z, hz, haz⟩ := Levels.mem_orders.mp ha
        have hp : a.price_ = z.1 := (h.tail.own z hz a haz).2
        have := h.key_ne z hz
        simpa [hp] using this
      simp only [h1, h2, List.append_nil]
    · have h1 : q.filter (fun a => a.price_ == x.1) = [] := by
        rw [List.filter_eq_nil_iff]
        intro a ha
        have := h.key_ne x hx
        simpa [hq a ha] using fun he : p1 = x.1 => this he.symm
      rw [h1, List.nil_append, ih h.tail hx]

theorem find_id_of_mem {l : List Order} {a : Order} (ha : a ∈ l)
    (hn : (l.map (fun o => o.id_)).Nodup) :
    l.find? (fun x => x.id_ == a.id_) = some a := by
  induction l with
  | nil => cases ha
  | cons x l ih =>
    simp only [List.map_cons, List.nodup_cons] at hn
    rcases List.mem_cons.mp ha with rfl | ha
    · simp
    · have hne : x.id_ ≠ a.id_ := fun he =>
        hn.1 (he ▸ List.mem_map_of_mem (fun o => o.id_) ha)
      have : (x.id_ == a.id_) = false := by simpa using hne
      rw [List.find?_cons, this]
      exact ih ha hn.2

theorem OrderBook.WF.remainingOf_mem {ob : OrderBook} (h : ob.WF) {a : Order}
    (ha : a ∈ ob.allOrders) : ob.remainingOf a.id_ = a.remainingQty_ := by
  unfold OrderBook.remainingOf
  rw [find_id_of_mem ha h.nodup]

theorem filter_side_eq_self {l : List Order} {side : Side} (h : ∀ a ∈ l, a.side_ = side) :
    l.filter (fun a => decide (a.side_ = side)) = l := by
  rw [List.filter_eq_self]
  intro a ha
  simpa using h a ha

theorem filter_side_eq_nil {l : List Order} {side : Side} (h : ∀ a ∈ l, a.side_ ≠ side) :
    l.filter (fun a => decide (a.side_ = side)) = [] := by
  rw [List.filter_eq_nil_iff]
  intro a ha
  simpa using h a ha

theorem OrderBook.WF.allOrders_filter_side {ob : OrderBook} (h : ob.WF) (side : Side) :
    ob.allOrders.filter (fun a => decide (a.side_ = side)) = (ob.levels side).orders := by
  have hb : ∀ a ∈ ob.buyOrders_.orders, a.side_ = .Buy := fun a ha => (h.side_of_mem_buy ha).1
  have hs : ∀ a ∈ ob.sellOrders_.orders, a.side_ = .Sell := fun a ha => (h.side_of_mem_sell ha).1
  unfold OrderBook.allOrders
  rw [List.filter_append]
  cases side with
  | Buy =>
    rw [filter_side_eq_self hb, filter_side_eq_nil (fun a ha => by rw [hs a ha]; decide)]
    simp [OrderBook.levels]
  | Sell =>
    rw [filter_side_eq_self hs, filter_side_eq_nil (fun a ha => by rw [hb a ha]; decide)]
    simp [OrderBook.levels]

/-- In a well-formed book the remaining quantities of the registered orders of a
side add up to those of the orders queued on that side. -/
theorem OrderBook.WF.registeredRemaining_eq {ob : OrderBook} (h : ob.WF) (side : Side) :
    ob.registeredRemaining side = totalRemaining (ob.levels side).orders := by
  unfold OrderBook.registeredRemaining
  have hp := (h.lockstep.filter (fun x => decide (x.2.side_ = side))).map
    (fun x => ob.remainingOf x.1)
  rw [hp.sum_eq, ← h.allOrders_filter_side side]
  unfold totalRemaining
  congr 1
  rw [List.filter_map, List.map_map]
  have hfil2 : ((fun x : Nat × OrderEntry => decide (x.2.side_ = side)) ∘ Order.key) =
      fun a : Order => decide (a.side_ = side) := rfl
  rw [hfil2]
  apply List.map_congr_left
  intro a ha
  exact h.remainingOf_mem (List.mem_of_mem_filter ha)

theorem totalRemaining_orders (l : Levels) :
    totalRemaining l.orders = (l.map (fun x => totalRemaining x.2)).sum := by
  induction l with
  | nil => rfl
  | cons x l ih =>
    obtain ⟨p, q⟩ := x
    simp [ih]

theorem OrderBook.GetOrderInfos_side (ob : OrderBook) (side : Side) :
    ob.GetOrderInfos.side side = (ob.levels side).map (fun l => BuildLevelInfo l.1 l.2) := by
  cases side <;> rfl

theorem wrapBook_reachable : Reachable wrapBook :=
  Reachable.add _ (Order.new .GoodTillCancel 2 .Buy 100 2147483648) _ []
    (Reachable.add _ (Order.new .GoodTillCancel 1 .Buy 100 2147483648) _ [] Reachable.empty rfl)
    rfl

/-- C10 as stated fails when a level's total passes `2 ^ 32`: after two
`GoodTillCancel` bids of `2 ^ 31` each at price 100 (both within `uint32_t`), the
snapshot reports quantity 0 for the bid level at 100, while the orders resting there,
and the registered buy orders, have remaining quantities adding up to `2 ^ 32`. -/
theorem level_snapshot_wraps :
    Reachable wrapBook ∧
      wrapBook.restingAt .Buy 100 =
        [Order.new .GoodTillCancel 1 .Buy 100 2147483648,
         Order.new .GoodTillCancel 2 .Buy 100 2147483648] ∧
      wrapBook.GetOrderInfos.side .Buy = [⟨100, 0⟩] ∧
      totalRemaining (wrapBook.restingAt .Buy 100) = 4294967296 ∧
      ((wrapBook.GetOrderInfos.side .Buy).map (fun i => i.quantity_)).sum = 0 ∧
      wrapBook.registeredRemaining .Buy = 4294967296 :=
  ⟨wrapBook_reachable, by decide, by decide, by decide, by decide, by decide⟩

/-- C10, amended: level snapshot quantities in `Quantity` arithmetic. On a reachable
book the snapshot of a side has one entry per level, carrying the level's price and
the sum, modulo `2 ^ 32`, of the remaining quantities of all orders resting at that
price on that side. When no level's sum reaches `2 ^ 32`, each entry's quantity is
that exact sum and the snapshot quantities of the side add up to the exact sum of
the remaining quantities of the registered orders of the side. The scenario of the
third test: after buy 4 (10 at 100) and sell 5 (6 at 100) the bid level at 100
reports 4. -/
theorem level_snapshot_quantities (ob : OrderBook) (hr : Reachable ob) (side : Side) :
    ob.GetOrderInfos.side side =
        (ob.levels side).map
          (fun l => ⟨l.1, totalRemaining (ob.restingAt side l.1) % 2 ^ 32⟩) ∧
      ((∀ l ∈ ob.levels side, totalRemaining (ob.restingAt side l.1) < 2 ^ 32) →
        (∀ i ∈ ob.GetOrderInfos.side side,
          i.quantity_ = totalRemaining (ob.restingAt side i.price_)) ∧
        ((ob.GetOrderInfos.side side).map (fun i => i.quantity_)).sum =
          ob.registeredRemaining side) ∧
      (∃ ob1 ob2 T,
        OrderBook.empty.AddOrder (Order.new .GoodTillCancel 4 .Buy 100 10) = .ok (ob1, []) ∧
        ob1.AddOrder (Order.new .GoodTillCancel 5 .Sell 100 6) = .ok (ob2, T) ∧
        ob2.GetOrderInfos.bidLevels_ = [⟨100, 4⟩]) := by
  have hwf := hr.inv.wf
  have hrest : ∀ l ∈ ob.levels side, ob.restingAt side l.1 = l.2 :=
    fun l hl => (hwf.levels_wf side).filter_price hl
  have hsnap : ob.GetOrderInfos.side side =
      (ob.levels side).map
        (fun l => ⟨l.1, totalRemaining (ob.restingAt side l.1) % 2 ^ 32⟩) := by
    rw [OrderBook.GetOrderInfos_side]
    apply List.map_congr_left
    intro l hl
    rw [BuildLevelInfo_eq, hrest l hl]
  refine ⟨hsnap, ?_, ⟨_, _, _, rfl, rfl, rfl⟩⟩
  intro hsmall
  constructor
  · intro i hi
    rw [hsnap] at hi
    obtain ⟨l, hl, rfl⟩ := List.mem_map.mp hi
    exact Nat.mod_eq_of_lt (hsmall l hl)
  · rw [hwf.registeredRemaining_eq, totalRemaining_orders, hsnap, List.map_map]
    congr 1
    apply List.map_congr_left
    intro l hl
    simp only [Function.comp]
    rw [Nat.mod_eq_of_lt (hsmall l hl), hrest l hl]

theorem level_snapshot_quantities_witness :
    Reachable sampleBook ∧
      (sampleBook.GetOrderInfos.side .Sell =
        (sampleBook.levels .Sell).map
          (fun l => ⟨l.1, totalRemaining (sampleBook.restingAt .Sell l.1) % 2 ^ 32⟩) ∧
      ((∀ l ∈ sampleBook.levels .Sell,
          totalRemaining (sampleBook.restingAt .Sell l.1) < 2 ^ 32) →
        (∀ i ∈ sampleBook.GetOrderInfos.side .Sell,
          i.quantity_ = totalRemaining (sampleBook.restingAt .Sell i.price_)) ∧
        ((sampleBook.GetOrderInfos.side .Sell).map (fun i => i.quantity_)).sum =
          sampleBook.registeredRemaining .Sell) ∧
      (∃ ob1 ob2 T,
        OrderBook.empty.AddOrder (Order.new .GoodTillCancel 4 .Buy 100 10) = .ok (ob1, []) ∧
        ob1.AddOrder (Order.new .GoodTillCancel 5 .Sell 100 6) = .ok (ob2, T) ∧
        ob2.GetOrderInfos.bidLevels_ = [⟨100, 4⟩])) ∧
      (∀ l ∈ sampleBook.levels .Sell,
        totalRemaining (sampleBook.restingAt .Sell l.1) < 2 ^ 32) :=
  ⟨sampleBook_reachable, level_snapshot_quantities sampleBook sampleBook_reachable .Sell,
    by decide⟩

/-- C11, level snapshot order. On every book the snapshot has exactly one entry per
level of each side, in map order and carrying the level's price. Where the bid map
is ordered by `greater<Price>` and the ask map by `less<Price>` (as a `std::map`
always is, and as every reachable book is), the bid entries are in strictly
descending and the ask entries in strictly ascending price order, so the first
entries are the highest bid and the lowest ask. `GetOrderInfos` is a `const`
method: it is embedded as a function of the book that returns the snapshot only. -/
theorem level_snapshot_order (ob : OrderBook) :
    ob.GetOrderInfos.bidLevels_.map (fun i => i.price_) = ob.buyOrders_.map Prod.fst ∧
      ob.GetOrderInfos.askLevels_.map (fun i => i.price_) = ob.sellOrders_.map Prod.fst ∧
      (ob.buyOrders_.Pairwise (fun x y => x.1 > y.1) →
        ob.GetOrderInfos.bidLevels_.Pairwise (fun i j => i.price_ > j.price_)) ∧
      (ob.sellOrders_.Pairwise (fun x y => x.1 < y.1) →
        ob.GetOrderInfos.askLevels_.Pairwise (fun i j => i.price_ < j.price_)) ∧
      (Reachable ob →
        ob.buyOrders_.Pairwise (fun x y => x.1 > y.1) ∧
        ob.sellOrders_.Pairwise (fun x y => x.1 < y.1)) := by
  refine ⟨?_, ?_, ?_, ?_, ?_⟩
  · simp [OrderBook.GetOrderInfos, BuildLevelInfo, Function.comp]
  · simp [OrderBook.GetOrderInfos, BuildLevelInfo, Function.comp]
  · intro hbids
    simp only [OrderBook.GetOrderInfos, List.pairwise_map, BuildLevelInfo]
    exact hbids
  · intro hasks
    simp only [OrderBook.GetOrderInfos, List.pairwise_map, BuildLevelInfo]
    exact hasks
  · intro hr
    have hb := hr.inv.wf.buy.sorted
    have hs := hr.inv.wf.sell.sorted
    simp only [Side.before, decide_eq_true_eq] at hb hs
    exact ⟨hb, hs⟩

theorem level_snapshot_order_witness :
    Reachable sampleBook ∧
      sampleBook.GetOrderInfos = ⟨[⟨99, 3⟩], [⟨100, 8⟩, ⟨101, 5⟩]⟩ ∧
      sampleBook.GetOrderInfos.bidLevels_.map (fun i => i.price_) =
        sampleBook.buyOrders_.map Prod.fst ∧
      sampleBook.GetOrderInfos.askLevels_.map (fun i => i.price_) =
        sampleBook.sellOrders_.map Prod.fst ∧
      sampleBook.GetOrderInfos.bidLevels_.Pairwise (fun i j => i.price_ > j.price_) ∧
      sampleBook.GetOrderInfos.askLevels_.Pairwise (fun i j => i.price_ < j.price_) :=
  ⟨sampleBook_reachable, by decide,
    (level_snapshot_order sampleBook).1,
    (level_snapshot_order sampleBook).2.1,
    (level_snapshot_order sampleBook).2.2.1
      ((level_snapshot_order sampleBook).2.2.2.2 sampleBook_reachable).1,
    (level_snapshot_order sampleBook).2.2.2.1
      ((level_snapshot_order sampleBook).2.2.2.2 sampleBook_reachable).2⟩

/-- C12, no empty price level. In a reachable book no level of either side has an
empty queue, so the snapshot never folds an empty queue. The same holds where the
cleanup of `MatchOrders` takes `front()`: when `AddOrder` inserts an order with an
unregistered id, the crossing loop returns a book without an empty level, and so
is the book between the two cleanup blocks. -/
theorem no_empty_price_level (ob : OrderBook) (hr : Reachable ob) :
    (∀ side, ∀ x ∈ ob.levels side, x.2 ≠ []) ∧
      (∀ o : Order, ob.orderLookup_.contains o.id_ = false →
        ∃ obL T, (ob.insert o).crossingLoop ((ob.insert o).queued + 1) [] = .ok (obL, T) ∧
          (∀ side, ∀ x ∈ obL.levels side, x.2 ≠ []) ∧
          (∀ side, ∀ x ∈ obL.cleanupBuy.levels side, x.2 ≠ [])) := by
  have hwf := hr.inv.wf
  refine ⟨fun side => (hwf.levels_wf side).nonempty, ?_⟩
  intro o hc
  have hwf1 := hwf.insert_wf o (Registry.contains_eq_false.mp hc)
  obtain ⟨r, hloop⟩ := OrderBook.crossingLoop_total ((ob.insert o).queued + 1) (ob.insert o) []
    hwf1.noEmptyLevel (Nat.lt_succ_self _)
  have hrule := OrderBook.crossingLoop_rule (fun ob _ => ob.WF)
    (fun ob T ob1 t hI hround => hI.round_wf hround) _ _ _ r hwf1 hloop
  obtain ⟨obL, T⟩ := r
  refine ⟨obL, T, hloop, fun side => (hrule.1.levels_wf side).nonempty, ?_⟩
  have h2 : obL.cleanupBuy.WF := by
    rcases obL.cleanupBuy_eq with he | ⟨id, he⟩
    · rw [he]; exact hrule.1
    · rw [he]; exact hrule.1.cancelOrder_wf id
  exact fun side => (h2.levels_wf side).nonempty

theorem no_empty_price_level_witness :
    Reachable sampleBook ∧
      ((∀ side, ∀ x ∈ sampleBook.levels side, x.2 ≠ []) ∧
      (∀ o : Order, sampleBook.orderLookup_.contains o.id_ = false →
        ∃ obL T,
          (sampleBook.insert o).crossingLoop ((sampleBook.insert o).queued + 1) [] =
            .ok (obL, T) ∧
          (∀ side, ∀ x ∈ obL.levels side, x.2 ≠ []) ∧
          (∀ side, ∀ x ∈ obL.cleanupBuy.levels side, x.2 ≠ []))) :=
  ⟨sampleBook_reachable, no_empty_price_level sampleBook sampleBook_reachable⟩

/-! ## `Fill` never throws inside the book -/

theorem OrderBook.matchRound_ne_thrown (ob : OrderBook) : ob.matchRound ≠ .thrown := by
  obtain ⟨buy, sell, R⟩ := ob
  match buy, sell with
  | [], _ => simp
  | _ :: _, [] => simp
  | (bp, bl) :: B, (sp, sl) :: S =>
    by_cases hlt : bp < sp
    · rw [OrderBook.matchRound_apart _ _ _ _ _ _ _ hlt]
      exact fun h => nomatch h
    · have hle : sp ≤ bp := Int.not_lt.mp hlt
      match bl, sl with
      | [], _ => simp [OrderBook.matchRound, hlt]
      | _ :: _, [] => simp [OrderBook.matchRound, hlt]
      | b :: bt, s :: st =>
        rw [OrderBook.matchRound_cross _ _ _ _ _ _ _ _ _ hle]
        exact fun h => nomatch h

theorem OrderBook.crossingLoop_ne_logic_error (fuel : Nat) (ob : OrderBook) (T : Trades) :
    ob.crossingLoop fuel T ≠ .error .logic_error := by
  induction fuel generalizing ob T with
  | zero => simp [OrderBook.crossingLoop]
  | succ n ih =>
    unfold OrderBook.crossingLoop
    split
    · exact fun h => nomatch h
    · exact ih ob T
    · exact ih _ _
    · next h => exact absurd h (ob.matchRound_ne_thrown)

theorem OrderBook.MatchOrders_ne_logic_error (ob : OrderBook) :
    ob.MatchOrders ≠ .error .logic_error := by
  unfold OrderBook.MatchOrders
  split
  · exact fun h => nomatch h
  · next e he =>
    intro h
    simp only [Except.error.injEq] at h
    rw [h] at he
    exact OrderBook.crossingLoop_ne_logic_error _ _ _ he

/-- C14, the invariant violation is unreachable. `Order::Fill` throws exactly when the
quantity exceeds the remaining quantity and otherwise lowers the remaining quantity
by exactly the quantity; the two `Fill` calls of a pass, made with the minimum of
the two remaining quantities, succeed; and on every book state, for every order and
every modification, `MatchOrders`, `AddOrder` and `MatchOrder` do not end in the
`logic_error`. -/
theorem fill_violation_unreachable :
    (∀ (o : Order) (q : Nat), o.Fill q = .error .logic_error ↔ q > o.remainingQty_) ∧
      (∀ (o : Order) (q : Nat), q ≤ o.remainingQty_ →
        o.Fill q = .ok { o with remainingQty_ := o.remainingQty_ - q }) ∧
      (∀ buyer seller : Order,
        (∃ b1, buyer.Fill (min buyer.remainingQty_ seller.remainingQty_) = .ok b1) ∧
        (∃ s1, seller.Fill (min buyer.remainingQty_ seller.remainingQty_) = .ok s1)) ∧
      (∀ ob : OrderBook, ob.matchRound ≠ .thrown) ∧
      (∀ ob : OrderBook, ob.MatchOrders ≠ .error .logic_error) ∧
      (∀ (ob : OrderBook) (o : Order), ob.AddOrder o ≠ .error .logic_error) ∧
      (∀ (ob : OrderBook) (m : OrderModify), ob.MatchOrder m ≠ .error .logic_error) := by
  have hadd : ∀ (ob : OrderBook) (o : Order), ob.AddOrder o ≠ .error .logic_error := by
    intro ob o
    unfold OrderBook.AddOrder
    split
    · exact fun h => nomatch h
    · split
      · exact fun h => nomatch h
      · exact OrderBook.MatchOrders_ne_logic_error _
  refine ⟨?_, ?_, ?_, OrderBook.matchRound_ne_thrown, OrderBook.MatchOrders_ne_logic_error,
    hadd, ?_⟩
  · intro o q
    unfold Order.Fill
    split
    · next h => simp [h]
    · next h => simp [h]
  · intro o q h
    simp [Order.Fill, Nat.not_lt.mpr h]
  · intro buyer seller
    exact ⟨⟨_, Order.Fill_eq buyer _ (Nat.min_le_left _ _)⟩,
      ⟨_, Order.Fill_eq seller _ (Nat.min_le_right _ _)⟩⟩
  · intro ob m
    unfold OrderBook.MatchOrder
    split
    · exact fun h => nomatch h
    · exact hadd _ _

theorem fill_violation_unreachable_witness :
    (Order.new .GoodTillCancel 1 .Buy 100 10).Fill 4 =
        .ok ⟨.GoodTillCancel, 1, .Buy, 100, 10, 6⟩ ∧
      ((Order.new .GoodTillCancel 1 .Buy 100 10).Fill 11 = .error .logic_error ↔
        11 > (Order.new .GoodTillCancel 1 .Buy 100 10).remainingQty_) ∧
      sampleBook.AddOrder (Order.new .GoodTillCancel 7 .Buy 101 10) ≠ .error .logic_error :=
  ⟨fill_violation_unreachable.2.1 (Order.new .GoodTillCancel 1 .Buy 100 10) 4 (by decide),
   fill_violation_unreachable.1 (Order.new .GoodTillCancel 1 .Buy 100 10) 11,
   fill_violation_unreachable.2.2.2.2.2.1 sampleBook (Order.new .GoodTillCancel 7 .Buy 101 10)⟩

/-! ## Termination -/

theorem OrderBook.NoEmptyLevel.insert_noEmptyLevel {ob : OrderBook} (h : ob.NoEmptyLevel)
    (o : Order) : (ob.insert o).NoEmptyLevel := by
  have hp : ∀ (side : Side) (l : Levels), (∀ x ∈ l, x.2 ≠ []) →
      ∀ x ∈ Levels.pushBack side o.price_ o l, x.2 ≠ [] := by
    intro side l hl x hx
    rcases Levels.mem_pushBack hx with h1 | h1 | ⟨q, -, h1⟩
    · exact hl x h1
    · simp [h1]
    · simp [h1]
  unfold OrderBook.insert
  cases o.side_ with
  | Buy => exact ⟨hp _ _ h.1, h.2⟩
  | Sell => exact ⟨h.1, hp _ _ h.2⟩

theorem OrderBook.NoEmptyLevel.cancelOrder_noEmptyLevel {ob : OrderBook} (h : ob.NoEmptyLevel)
    (id : Nat) : (ob.CancelOrder id).NoEmptyLevel := by
  have hp : ∀ (p : Int) (l : Levels), (∀ x ∈ l, x.2 ≠ []) →
      ∀ x ∈ Levels.cancel p id l, x.2 ≠ [] := by
    intro p l hl x hx
    rcases Levels.mem_cancel hx with h1 | ⟨q, -, -, h1⟩
    · exact hl x h1
    · exact h1
  rcases OrderBook.CancelOrder_levels ob id with ⟨p, hb, hs⟩ | ⟨p, hs, hb⟩ | he
  · exact ⟨by rw [hb]; exact hp _ _ h.1, by rw [hs]; exact h.2⟩
  · exact ⟨by rw [hb]; exact h.1, by rw [hs]; exact hp _ _ h.2⟩
  · rw [he]; exact h

/-- On a book without an empty level `MatchOrders` returns, and the trades it returns
are at most as many as the orders queued when it starts. -/
theorem OrderBook.NoEmptyLevel.matchOrders_total {ob : OrderBook} (h : ob.NoEmptyLevel) :
    ∃ obL T, ob.crossingLoop (ob.queued + 1) [] = .ok (obL, T) ∧
      ob.MatchOrders = .ok (obL.cleanupBuy.cleanupSell, T) ∧
      T.length + obL.queued ≤ ob.queued := by
  obtain ⟨r, hloop⟩ := OrderBook.crossingLoop_total (ob.queued + 1) ob [] h (Nat.lt_succ_self _)
  have hrule := OrderBook.crossingLoop_rule (fun ob1 T => T.length + ob1.queued ≤ ob.queued)
    (fun ob1 T ob2 t hI hround => by
      have := OrderBook.queued_round hround
      simp only [List.length_append, List.length_singleton]
      omega) _ _ _ r (by simp) hloop
  obtain ⟨obL, T⟩ := r
  exact ⟨obL, T, hloop, OrderBook.MatchOrders_eq hloop, hrule.1⟩

theorem OrderBook.NoEmptyLevel.addOrder_total {ob : OrderBook} (h : ob.NoEmptyLevel)
    (o : Order) :
    ∃ ob1 T, ob.AddOrder o = .ok (ob1, T) ∧ T.length ≤ (ob.insert o).queued := by
  unfold OrderBook.AddOrder
  split
  · exact ⟨ob, [], rfl, Nat.zero_le _⟩
  · split
    · exact ⟨ob, [], rfl, Nat.zero_le _⟩
    · obtain ⟨obL, T, -, hm, hlen⟩ := (h.insert_noEmptyLevel o).matchOrders_total
      exact ⟨_, T, hm, by omega⟩

/-- C20, `MatchOrders` terminates. Every pass of the matching loop that trades removes
at least one order from the queues (on any book). On a book without an empty level
(orders with remaining quantity 0 allowed; nothing else is asked of the book) the
crossing loop returns within `queued + 1` passes, the last one being the exit test,
so it trades at most `queued` times; the trades of one `AddOrder` are at most the
orders queued when matching starts; and `MatchOrders`, `AddOrder` and `MatchOrder`
return a value for every order and every modification. -/
theorem match_orders_terminates (ob : OrderBook) (h : ob.NoEmptyLevel) :
    (∀ (b : OrderBook) (b1 : OrderBook) (t : Trade),
        b.matchRound = .traded b1 t → b1.queued < b.queued) ∧
      (∃ obL T, ob.crossingLoop (ob.queued + 1) [] = .ok (obL, T) ∧
        ob.MatchOrders = .ok (obL.cleanupBuy.cleanupSell, T) ∧
        T.length + obL.queued ≤ ob.queued) ∧
      (∀ o : Order, ∃ ob1 T, ob.AddOrder o = .ok (ob1, T) ∧
        T.length ≤ (ob.insert o).queued) ∧
      (∀ m : OrderModify, ∃ ob1 T, ob.MatchOrder m = .ok (ob1, T)) := by
  refine ⟨fun b b1 t hr => OrderBook.queued_round hr, h.matchOrders_total, h.addOrder_total, ?_⟩
  intro m
  unfold OrderBook.MatchOrder
  split
  · exact ⟨ob, [], rfl⟩
  · obtain ⟨ob1, T, hadd, -⟩ := (h.cancelOrder_noEmptyLevel m.id_).addOrder_total
      (m.ToOrderPointer _)
    exact ⟨ob1, T, hadd⟩

theorem match_orders_terminates_witness :
    crossedBook.NoEmptyLevel ∧
      crossedBook.MatchOrders =
        .ok (⟨[(101, [⟨.GoodTillCancel, 2, .Buy, 101, 4, 1⟩])], [],
              [(2, ⟨.GoodTillCancel, .Buy, 101⟩)]⟩,
             [⟨⟨1, 101, 0⟩, ⟨3, 100, 0⟩⟩, ⟨⟨2, 101, 3⟩, ⟨3, 100, 3⟩⟩]) ∧
      (∃ obL T, crossedBook.crossingLoop (crossedBook.queued + 1) [] = .ok (obL, T) ∧
        crossedBook.MatchOrders = .ok (obL.cleanupBuy.cleanupSell, T) ∧
        T.length + obL.queued ≤ crossedBook.queued) :=
  ⟨⟨by simp [crossedBook], by simp [crossedBook]⟩, rfl,
    (match_orders_terminates crossedBook
      ⟨by simp [crossedBook], by simp [crossedBook]⟩).2.1⟩

/-! ## Add then cancel -/

theorem Levels.cancel_pushBack (side : Side) (o : Order) (l : Levels)
    (hne : ∀ x ∈ l, x.2 ≠ []) (hid : ∀ a ∈ l.orders, a.id_ ≠ o.id_) :
    Levels.cancel o.price_ o.id_ (Levels.pushBack side o.price_ o l) = l := by
  induction l with
  | nil => simp [Levels.pushBack, Levels.cancel, List.eraseP_cons]
  | cons x l ih =>
    obtain ⟨p1, q⟩ := x
    simp only [Levels.orders_cons, List.mem_append] at hid
    unfold Levels.pushBack
    by_cases hp : o.price_ = p1
    · simp only [hp, if_true]
      have hq : (q ++ [o]).eraseP (fun a => a.id_ == o.id_) = q := by
        rw [List.eraseP_append_right _ (fun b hb => by simpa using hid b (Or.inl hb))]
        simp [List.eraseP_cons]
      have hqne : q ≠ [] := hne (p1, q) (List.mem_cons_self _ _)
      simp only [Levels.cancel, if_true, hq]
      cases q with
      | nil => exact absurd rfl hqne
      | cons a t => simp
    · simp only [hp, if_false]
      by_cases hb : side.before o.price_ p1 = true
      · simp only [hb, if_true]
        simp [Levels.cancel, List.eraseP_cons]
      · simp only [hb, Bool.false_eq_true, if_false]
        have hp2 : ¬ p1 = o.price_ := fun h => hp h.symm
        simp only [Levels.cancel, hp2, if_false]
        rw [ih (fun y hy => hne y (List.mem_cons_of_mem _ hy)) (fun a ha => hid a (Or.inr ha))]

/-- C15, add-then-cancel round trip. On a reachable book, `AddOrder` of a
`GoodTillCancel` order with an unregistered id that cannot match returns no trade and
raises `Size()` by one, and `CancelOrder` of that id then gives back the book as it
was before the add: the same level maps, queues and registry. The scenario of the
first test: on the empty book buy 1 (10 at 100) gives `Size() == 1` and no trade,
and cancelling 1 gives `Size() == 0`. -/
theorem add_then_cancel_round_trip (ob : OrderBook) (hr : Reachable ob) (o : Order)
    (hgtc : o.type_ = .GoodTillCancel) (hid : ob.orderLookup_.contains o.id_ = false)
    (hcan : ob.CanMatch o.side_ o.price_ = false) :
    (∃ ob1, ob.AddOrder o = .ok (ob1, []) ∧ ob1.Size = ob.Size + 1 ∧
        ob1.CancelOrder o.id_ = ob) ∧
      (∃ ob1, OrderBook.empty.AddOrder (Order.new .GoodTillCancel 1 .Buy 100 10) = .ok (ob1, []) ∧
        ob1.Size = 1 ∧ (ob1.CancelOrder 1).Size = 0) := by
  have hinv := hr.inv
  have hnone := Registry.contains_eq_false.mp hid
  have hrest := hinv.addOrder_rest hnone hcan hgtc
  have hreg : (ob.insert o).orderLookup_ = (o.id_, o.entry) :: ob.orderLookup_ := by
    rw [OrderBook.insert_lookup, Registry.emplace, hid]
    simp
  have hl : (ob.insert o).orderLookup_.lookup o.id_ = some o.entry := by
    rw [hreg]
    simp [List.lookup_cons]
  have herase : (ob.insert o).orderLookup_.erase o.id_ = ob.orderLookup_ := by
    rw [hreg]
    simp only [Registry.erase, List.filter_cons, bne_self_eq_false, Bool.false_eq_true, if_false]
    exact Registry.erase_of_not_mem hnone
  have hids : ∀ side, ∀ a ∈ (ob.levels side).orders, a.id_ ≠ o.id_ := by
    intro side a ha hai
    exact (hinv.wf.lookup_none_iff o.id_).mp hnone
      (List.mem_map.mpr ⟨a, OrderBook.mem_allOrders_of_levels ha, hai⟩)
  refine ⟨⟨ob.insert o, hrest.1, ?_, ?_⟩, ⟨_, rfl, rfl, rfl⟩⟩
  · simp [OrderBook.Size, hreg]
  · cases hs : o.side_ with
    | Buy =>
      rw [OrderBook.CancelOrder_buy hl hs, herase]
      have hb : (ob.insert o).buyOrders_ = Levels.pushBack .Buy o.price_ o ob.buyOrders_ := by
        simp [OrderBook.insert, hs]
      have hsell : (ob.insert o).sellOrders_ = ob.sellOrders_ := by
        simp [OrderBook.insert, hs]
      have hpe : o.entry.price_ = o.price_ := rfl
      rw [hb, hsell, hpe, Levels.cancel_pushBack .Buy o ob.buyOrders_ hinv.wf.buy.nonempty
        (hids .Buy)]
    | Sell =>
      rw [OrderBook.CancelOrder_sell hl hs, herase]
      have hb : (ob.insert o).sellOrders_ = Levels.pushBack .Sell o.price_ o ob.sellOrders_ := by
        simp [OrderBook.insert, hs]
      have hbuy : (ob.insert o).buyOrders_ = ob.buyOrders_ := by
        simp [OrderBook.insert, hs]
      have hpe : o.entry.price_ = o.price_ := rfl
      rw [hb, hbuy, hpe, Levels.cancel_pushBack .Sell o ob.sellOrders_ hinv.wf.sell.nonempty
        (hids .Sell)]

theorem add_then_cancel_round_trip_witness :
    Reachable sampleBook ∧
      (Order.new .GoodTillCancel 7 .Buy 99 10).type_ = .GoodTillCancel ∧
      sampleBook.orderLookup_.contains (Order.new .GoodTillCancel 7 .Buy 99 10).id_ = false ∧
      sampleBook.CanMatch (Order.new .GoodTillCancel 7 .Buy 99 10).side_
        (Order.new .GoodTillCancel 7 .Buy 99 10).price_ = false ∧
      (∃ ob1, sampleBook.AddOrder (Order.new .GoodTillCancel 7 .Buy 99 10) = .ok (ob1, []) ∧
        ob1.Size = sampleBook.Size + 1 ∧
        ob1.CancelOrder (Order.new .GoodTillCancel 7 .Buy 99 10).id_ = sampleBook) :=
  ⟨sampleBook_reachable, rfl, rfl, rfl,
    (add_then_cancel_round_trip sampleBook sampleBook_reachable
      (Order.new .GoodTillCancel 7 .Buy 99 10) rfl rfl rfl).1⟩

/-- C16, two-order match at one price. From the empty book, for every price, two
distinct ids and quantities `0 < q2 <= q1` (within `Quantity`): the `GoodTillCancel`
buy of `q1` returns no trade; the `GoodTillCancel` sell of `q2` at the same price
returns exactly one trade, bid half `(a, p, q2)`, ask half `(b, p, q2)`; then, when
`q1 = q2`, `Size() == 0` and both snapshot sides are empty, and when `q2 < q1`,
`Size() == 1`, the bid snapshot is `[(p, q1 - q2)]` and the ask snapshot is empty. -/
theorem two_order_match (p : Int) (a b q1 q2 : Nat) (hab : a ≠ b) (hq2 : 0 < q2)
    (hle : q2 ≤ q1) (hq1 : q1 < 2 ^ 32) :
    ∃ ob1 ob2,
      OrderBook.empty.AddOrder (Order.new .GoodTillCancel a .Buy p q1) = .ok (ob1, []) ∧
      ob1.AddOrder (Order.new .GoodTillCancel b .Sell p q2) =
        .ok (ob2, [⟨⟨a, p, q2⟩, ⟨b, p, q2⟩⟩]) ∧
      (q1 = q2 → ob2.Size = 0 ∧ ob2.GetOrderInfos = ⟨[], []⟩) ∧
      (q2 < q1 → ob2.Size = 1 ∧ ob2.GetOrderInfos = ⟨[⟨p, q1 - q2⟩], []⟩) := by
  have h1 : OrderBook.empty.AddOrder (Order.new .GoodTillCancel a .Buy p q1) =
      .ok (⟨[(p, [Order.new .GoodTillCancel a .Buy p q1])], [],
        [(a, ⟨.GoodTillCancel, .Buy, p⟩)]⟩, []) := rfl
  have hba : (b == a) = false := by simpa using fun h : b = a => hab h.symm
  have hmin : min q1 q2 = q2 := Nat.min_eq_right hle
  have hround := OrderBook.matchRound_cross p p (Order.new .GoodTillCancel a .Buy p q1)
    (Order.new .GoodTillCancel b .Sell p q2) [] [] [] []
    [(b, ⟨.GoodTillCancel, .Sell, p⟩), (a, ⟨.GoodTillCancel, .Buy, p⟩)] (le_refl p)
  have hins : (OrderBook.mk [(p, [Order.new .GoodTillCancel a .Buy p q1])] []
      [(a, ⟨.GoodTillCancel, .Buy, p⟩)]).AddOrder (Order.new .GoodTillCancel b .Sell p q2) =
      (OrderBook.mk [(p, [Order.new .GoodTillCancel a .Buy p q1])]
        [(p, [Order.new .GoodTillCancel b .Sell p q2])]
        [(b, ⟨.GoodTillCancel, .Sell, p⟩), (a, ⟨.GoodTillCancel, .Buy, p⟩)]).MatchOrders := by
    simp [OrderBook.AddOrder, Registry.contains, List.lookup_cons, hba, Order.new,
      OrderBook.insert, Levels.pushBack, Registry.emplace, Order.entry]
  have hq : (OrderBook.mk [(p, [Order.new .GoodTillCancel a .Buy p q1])]
        [(p, [Order.new .GoodTillCancel b .Sell p q2])]
        [(b, ⟨.GoodTillCancel, .Sell, p⟩), (a, ⟨.GoodTillCancel, .Buy, p⟩)]).queued = 2 := rfl
  have hnab : (a != b) = true := by simpa using hab
  by_cases heq : q1 = q2
  · subst heq
    have hround1 : (OrderBook.mk [(p, [Order.new .GoodTillCancel a .Buy p q1])]
        [(p, [Order.new .GoodTillCancel b .Sell p q1])]
        [(b, ⟨.GoodTillCancel, .Sell, p⟩), (a, ⟨.GoodTillCancel, .Buy, p⟩)]).matchRound =
        .traded ⟨[], [], []⟩ ⟨⟨a, p, q1⟩, ⟨b, p, q1⟩⟩ := by
      rw [hround]
      simp [popFilled, dropEmptied, eraseFilled, Order.IsFilled, Order.reduce, Order.new,
        Registry.erase, Levels.erase, hab]
    refine ⟨_, ⟨[], [], []⟩, h1, ?_, fun _ => ⟨rfl, rfl⟩, fun h => absurd h (Nat.lt_irrefl _)⟩
    rw [hins]
    have hloop : (OrderBook.mk [(p, [Order.new .GoodTillCancel a .Buy p q1])]
        [(p, [Order.new .GoodTillCancel b .Sell p q1])]
        [(b, ⟨.GoodTillCancel, .Sell, p⟩), (a, ⟨.GoodTillCancel, .Buy, p⟩)]).crossingLoop
          (2 + 1) [] = .ok (⟨[], [], []⟩, [⟨⟨a, p, q1⟩, ⟨b, p, q1⟩⟩]) := by
      simp only [OrderBook.crossingLoop, hround1, OrderBook.matchRound_noSell, List.nil_append]
    rw [← hq] at hloop
    rw [OrderBook.MatchOrders_eq hloop]
    rfl
  · have hlt : q2 < q1 := Nat.lt_of_le_of_ne hle (Ne.symm heq)
    have hne : q1 - q2 ≠ 0 := by omega
    have hround1 : (OrderBook.mk [(p, [Order.new .GoodTillCancel a .Buy p q1])]
        [(p, [Order.new .GoodTillCancel b .Sell p q2])]
        [(b, ⟨.GoodTillCancel, .Sell, p⟩), (a, ⟨.GoodTillCancel, .Buy, p⟩)]).matchRound =
        .traded ⟨[(p, [⟨.GoodTillCancel, a, .Buy, p, q1, q1 - q2⟩])], [],
          [(a, ⟨.GoodTillCancel, .Buy, p⟩)]⟩ ⟨⟨a, p, q2⟩, ⟨b, p, q2⟩⟩ := by
      rw [hround]
      simp [popFilled, dropEmptied, eraseFilled, Order.IsFilled, Order.reduce, Order.new,
        Registry.erase, Levels.erase, hab, hmin, hne]
    refine ⟨_, ⟨[(p, [⟨.GoodTillCancel, a, .Buy, p, q1, q1 - q2⟩])], [],
      [(a, ⟨.GoodTillCancel, .Buy, p⟩)]⟩, h1, ?_, fun h => absurd h heq, fun _ => ⟨rfl, ?_⟩⟩
    · rw [hins]
      have hloop : (OrderBook.mk [(p, [Order.new .GoodTillCancel a .Buy p q1])]
          [(p, [Order.new .GoodTillCancel b .Sell p q2])]
          [(b, ⟨.GoodTillCancel, .Sell, p⟩), (a, ⟨.GoodTillCancel, .Buy, p⟩)]).crossingLoop
            (2 + 1) [] =
          .ok (⟨[(p, [⟨.GoodTillCancel, a, .Buy, p, q1, q1 - q2⟩])], [],
            [(a, ⟨.GoodTillCancel, .Buy, p⟩)]⟩, [⟨⟨a, p, q2⟩, ⟨b, p, q2⟩⟩]) := by
        simp only [OrderBook.crossingLoop, hround1, OrderBook.matchRound_noSell, List.nil_append]
      rw [← hq] at hloop
      rw [OrderBook.MatchOrders_eq hloop]
      rfl
    · have hmod : (q1 - q2) % 2 ^ 32 = q1 - q2 := Nat.mod_eq_of_lt (by omega)
      simp only [OrderBook.GetOrderInfos, BuildLevelInfo, List.map_cons, List.map_nil,
        List.foldl_cons, List.foldl_nil, Nat.zero_add, hmod]

theorem two_order_match_witness :
    (∃ ob1 ob2,
      OrderBook.empty.AddOrder (Order.new .GoodTillCancel 2 .Buy 100 5) = .ok (ob1, []) ∧
      ob1.AddOrder (Order.new .GoodTillCancel 3 .Sell 100 5) =
        .ok (ob2, [⟨⟨2, 100, 5⟩, ⟨3, 100, 5⟩⟩]) ∧
      (5 = 5 → ob2.Size = 0 ∧ ob2.GetOrderInfos = ⟨[], []⟩) ∧
      (5 < 5 → ob2.Size = 1 ∧ ob2.GetOrderInfos = ⟨[⟨100, 5 - 5⟩], []⟩)) ∧
    (∃ ob1 ob2,
      OrderBook.empty.AddOrder (Order.new .GoodTillCancel 4 .Buy 100 10) = .ok (ob1, []) ∧
      ob1.AddOrder (Order.new .GoodTillCancel 5 .Sell 100 6) =
        .ok (ob2, [⟨⟨4, 100, 6⟩, ⟨5, 100, 6⟩⟩]) ∧
      (10 = 6 → ob2.Size = 0 ∧ ob2.GetOrderInfos = ⟨[], []⟩) ∧
      (6 < 10 → ob2.Size = 1 ∧ ob2.GetOrderInfos = ⟨[⟨100, 10 - 6⟩], []⟩)) :=
  ⟨two_order_match 100 2 3 5 5 (by decide) (by decide) (by decide) (by decide),
   two_order_match 100 4 5 10 6 (by decide) (by decide) (by decide) (by decide)⟩

/-! ## The cleanup looks at the two front orders only -/

theorem Levels.front_eq_head {l : Levels} (hne : ∀ x ∈ l, x.2 ≠ []) :
    l.front = l.orders.head? := by
  match l with
  | [] => rfl
  | (p, []) :: rest => exact absurd rfl (hne (p, []) (List.mem_cons_self _ _))
  | (p, o :: q) :: rest => simp [Levels.front]

theorem Levels.cancel_front (p : Int) (b : Order) (q : OrderList) (rest : Levels) :
    (Levels.cancel p b.id_ ((p, b :: q) :: rest)).orders = q ++ rest.orders := by
  simp only [Levels.cancel, if_true, List.eraseP_cons, beq_self_eq_true, cond_true]
  cases q <;> simp

/-- The buy-side cleanup on a well-formed book: the queued bids lose their first order
when it is `FillAndKill` and are otherwise unchanged; the asks are untouched. -/
theorem OrderBook.WF.cleanupBuy_spec {ob : OrderBook} (h : ob.WF) :
    ob.cleanupBuy.buyOrders_.orders =
        (if ob.buyOrders_.front.map (fun o => o.type_) = some .FillAndKill
          then ob.buyOrders_.orders.tail else ob.buyOrders_.orders) ∧
      ob.cleanupBuy.sellOrders_ = ob.sellOrders_ ∧ ob.cleanupBuy.WF := by
  cases hb : ob.buyOrders_ with
  | nil => simp [OrderBook.cleanupBuy, hb, Levels.front]; exact h
  | cons x rest =>
    obtain ⟨p, q⟩ := x
    cases q with
    | nil => exact absurd rfl (h.buy.nonempty (p, []) (by rw [hb]; exact List.mem_cons_self _ _))
    | cons b q =>
      by_cases hf : b.type_ = .FillAndKill
      · have hown := h.buy.own (p, b :: q) (by rw [hb]; exact List.mem_cons_self _ _) b
          (List.mem_cons_self _ _)
        have hl : ob.orderLookup_.lookup b.id_ = some b.entry :=
          (h.lookup_iff b.id_ b.entry).mpr ⟨b, by simp [OrderBook.allOrders, hb], rfl, rfl⟩
        have hc := OrderBook.CancelOrder_buy hl hown.1
        have hpx : b.entry.price_ = p := hown.2
        have hcl : ob.cleanupBuy = ob.CancelOrder b.id_ := by
          simp [OrderBook.cleanupBuy, hb, hf]
        refine ⟨?_, ?_, ?_⟩
        · rw [hcl, hc, hpx, hb]
          simp only [Levels.cancel_front, Levels.front, Option.map_some', hf, if_true,
            Levels.orders_cons, List.cons_append, List.tail_cons]
        · rw [hcl, hc]
        · rw [hcl]
          exact h.cancelOrder_wf _
      · have hcl : ob.cleanupBuy = ob := by
          simp [OrderBook.cleanupBuy, hb, hf]
        rw [hcl, hb]
        refine ⟨?_, rfl, ?_⟩
        · simp [Levels.front, hf]
        · exact h

/-- The sell-side cleanup on a well-formed book. -/
theorem OrderBook.WF.cleanupSell_spec {ob : OrderBook} (h : ob.WF) :
    ob.cleanupSell.sellOrders_.orders =
        (if ob.sellOrders_.front.map (fun o => o.type_) = some .FillAndKill
          then ob.sellOrders_.orders.tail else ob.sellOrders_.orders) ∧
      ob.cleanupSell.buyOrders_ = ob.buyOrders_ ∧ ob.cleanupSell.WF := by
  cases hb : ob.sellOrders_ with
  | nil => simp [OrderBook.cleanupSell, hb, Levels.front]; exact h
  | cons x rest =>
    obtain ⟨p, q⟩ := x
    cases q with
    | nil => exact absurd rfl (h.sell.nonempty (p, []) (by rw [hb]; exact List.mem_cons_self _ _))
    | cons b q =>
      by_cases hf : b.type_ = .FillAndKill
      · have hown := h.sell.own (p, b :: q) (by rw [hb]; exact List.mem_cons_self _ _) b
          (List.mem_cons_self _ _)
        have hl : ob.orderLookup_.lookup b.id_ = some b.entry :=
          (h.lookup_iff b.id_ b.entry).mpr ⟨b, by simp [OrderBook.allOrders, hb], rfl, rfl⟩
        have hc := OrderBook.CancelOrder_sell hl hown.1
        have hpx : b.entry.price_ = p := hown.2
        have hcl : ob.cleanupSell = ob.CancelOrder b.id_ := by
          simp [OrderBook.cleanupSell, hb, hf]
        refine ⟨?_, ?_, ?_⟩
        · rw [hcl, hc, hpx, hb]
          simp only [Levels.cancel_front, Levels.front, Option.map_some', hf, if_true,
            Levels.orders_cons, List.cons_append, List.tail_cons]
        · rw [hcl, hc]
        · rw [hcl]
          exact h.cancelOrder_wf _
      · have hcl : ob.cleanupSell = ob := by
          simp [OrderBook.cleanupSell, hb, hf]
        rw [hcl, hb]
        refine ⟨?_, rfl, ?_⟩
        · simp [Levels.front, hf]
        · exact h

/-- In a list without repeated ids, dropping the first element when it is
`FillAndKill` removes that element and no other. -/
theorem dropFront_mem {L : List Order} (hn : (L.map (fun o => o.id_)).Nodup) (x : Order)
    (hx : x ∈ L) :
    x ∉ (if L.head?.map (fun o => o.type_) = some .FillAndKill then L.tail else L) ↔
      (x.type_ = .FillAndKill ∧ L.head? = some x) := by
  cases L with
  | nil => cases hx
  | cons a t =>
    simp only [List.head?_cons, Option.map_some', Option.some.injEq, List.tail_cons]
    have hat : a ∉ t := fun h =>
      (List.nodup_cons.mp hn).1 (List.mem_map_of_mem (fun o => o.id_) h)
    by_cases hf : a.type_ = .FillAndKill
    · rw [if_pos hf]
      constructor
      · intro hxt
        rcases List.mem_cons.mp hx with rfl | h
        · exact ⟨hf, rfl⟩
        · exact absurd h hxt
      · rintro ⟨-, rfl⟩
        exact hat
    · rw [if_neg hf]
      constructor
      · intro h
        exact absurd hx h
      · rintro ⟨h1, rfl⟩
        exact absurd h1 hf

theorem deepBook_wf : deepBook.WF := by
  refine ⟨⟨?_, ?_, ?_⟩, ⟨?_, ?_, ?_⟩, ?_, ?_⟩
  · simp [deepBook, Side.before]
  · simp [deepBook]
  · simp [deepBook, Order.new]
  · simp [deepBook, Side.before]
  · simp [deepBook]
  · simp [deepBook, Order.new]
  · decide
  · exact List.Perm.refl _

/-- C17, the `FillAndKill` cleanup looks only at the top of each side. On every
well-formed book (reachable or not) `MatchOrders` returns; writing `obL` for the
book the crossing loop leaves, an order queued in `obL` is missing from the returned
book exactly when it is `FillAndKill` and is the front order of the best bid level
or of the best ask level of `obL`; the queued bids (asks) of the returned book are
those of `obL`, in the same order, without that first order when it is
`FillAndKill`; and a queued order stays registered exactly when it stays queued. So
a `FillAndKill` order behind the front of the best level, or at another level, is
still resting when `MatchOrders` returns. -/
theorem cleanup_inspects_top_only (ob : OrderBook) (hwf : ob.WF) :
    ∃ obL T ob1, ob.crossingLoop (ob.queued + 1) [] = .ok (obL, T) ∧
      ob.MatchOrders = .ok (ob1, T) ∧ ob1 = obL.cleanupBuy.cleanupSell ∧
      obL.buyOrders_.front = obL.buyOrders_.orders.head? ∧
      obL.sellOrders_.front = obL.sellOrders_.orders.head? ∧
      ob1.buyOrders_.orders =
        (if obL.buyOrders_.front.map (fun o => o.type_) = some .FillAndKill
          then obL.buyOrders_.orders.tail else obL.buyOrders_.orders) ∧
      ob1.sellOrders_.orders =
        (if obL.sellOrders_.front.map (fun o => o.type_) = some .FillAndKill
          then obL.sellOrders_.orders.tail else obL.sellOrders_.orders) ∧
      (∀ x ∈ obL.allOrders, x ∉ ob1.allOrders ↔
        (x.type_ = .FillAndKill ∧
          (obL.buyOrders_.front = some x ∨ obL.sellOrders_.front = some x))) ∧
      (∀ x ∈ obL.allOrders, ob1.orderLookup_.contains x.id_ = true ↔ x ∈ ob1.allOrders) := by
  obtain ⟨r, hloop⟩ := OrderBook.crossingLoop_total (ob.queued + 1) ob []
    hwf.noEmptyLevel (Nat.lt_succ_self _)
  have hrule := OrderBook.crossingLoop_rule (fun ob _ => ob.WF)
    (fun ob T ob1 t hI hround => hI.round_wf hround) _ _ _ r hwf hloop
  obtain ⟨obL, T⟩ := r
  have hL : obL.WF := hrule.1
  obtain ⟨hb1, hb2, hb3⟩ := hL.cleanupBuy_spec
  obtain ⟨hs1, hs2, hs3⟩ := hb3.cleanupSell_spec
  have hfb := Levels.front_eq_head hL.buy.nonempty
  have hfs := Levels.front_eq_head hL.sell.nonempty
  have hbuy : obL.cleanupBuy.cleanupSell.buyOrders_.orders =
      (if obL.buyOrders_.front.map (fun o => o.type_) = some .FillAndKill
        then obL.buyOrders_.orders.tail else obL.buyOrders_.orders) := by
    rw [hs2, hb1]
  have hsell : obL.cleanupBuy.cleanupSell.sellOrders_.orders =
      (if obL.sellOrders_.front.map (fun o => o.type_) = some .FillAndKill
        then obL.sellOrders_.orders.tail else obL.sellOrders_.orders) := by
    rw [hs1, hb2]
  have hsubB : ∀ x ∈ obL.cleanupBuy.cleanupSell.buyOrders_.orders, x ∈ obL.buyOrders_.orders := by
    intro x hx
    rw [hbuy] at hx
    split at hx
    · exact List.mem_of_mem_tail hx
    · exact hx
  have hsubS : ∀ x ∈ obL.cleanupBuy.cleanupSell.sellOrders_.orders,
      x ∈ obL.sellOrders_.orders := by
    intro x hx
    rw [hsell] at hx
    split at hx
    · exact List.mem_of_mem_tail hx
    · exact hx
  have hdis : ∀ x, x ∈ obL.buyOrders_.orders → x ∈ obL.sellOrders_.orders → False := by
    intro x h1 h2
    have := (hL.side_of_mem_buy h1).1
    rw [(hL.side_of_mem_sell h2).1] at this
    cases this
  have hmem : ∀ x ∈ obL.allOrders, x ∉ obL.cleanupBuy.cleanupSell.allOrders ↔
      (x.type_ = .FillAndKill ∧
        (obL.buyOrders_.front = some x ∨ obL.sellOrders_.front = some x)) := by
    intro x hx
    have hnb := hL.levels_nodup .Buy
    have hns := hL.levels_nodup .Sell
    simp only [OrderBook.levels] at hnb hns
    simp only [OrderBook.allOrders, List.mem_append, not_or]
    rcases List.mem_append.mp hx with h | h
    · have hkey := dropFront_mem hnb x h
      rw [← hfb, ← hbuy] at hkey
      have hnot : x ∉ obL.cleanupBuy.cleanupSell.sellOrders_.orders :=
        fun hm => hdis x h (hsubS x hm)
      have hnf : obL.sellOrders_.front ≠ some x := by
        intro hfx
        rw [hfs] at hfx
        exact hdis x h (List.mem_of_mem_head? hfx)
      constructor
      · intro hh
        exact ⟨(hkey.mp hh.1).1, Or.inl (hkey.mp hh.1).2⟩
      · rintro ⟨h1, h2 | h2⟩
        · exact ⟨hkey.mpr ⟨h1, h2⟩, hnot⟩
        · exact absurd h2 hnf
    · have hkey := dropFront_mem hns x h
      rw [← hfs, ← hsell] at hkey
      have hnot : x ∉ obL.cleanupBuy.cleanupSell.buyOrders_.orders :=
        fun hm => hdis x (hsubB x hm) h
      have hnf : obL.buyOrders_.front ≠ some x := by
        intro hfx
        rw [hfb] at hfx
        exact hdis x (List.mem_of_mem_head? hfx) h
      constructor
      · intro hh
        exact ⟨(hkey.mp hh.2).1, Or.inr (hkey.mp hh.2).2⟩
      · rintro ⟨h1, h2 | h2⟩
        · exact absurd h2 hnf
        · exact ⟨hnot, hkey.mpr ⟨h1, h2⟩⟩
  refine ⟨obL, T, _, hloop, OrderBook.MatchOrders_eq hloop, rfl, hfb, hfs, hbuy, hsell, hmem, ?_⟩
  intro x hx
  rw [hs3.contains_iff]
  constructor
  · intro hm
    obtain ⟨y, hy, hyx⟩ := List.mem_map.mp hm
    have hyL : y ∈ obL.allOrders := by
      rcases List.mem_append.mp hy with h | h
      · exact List.mem_append_left _ (hsubB y h)
      · exact List.mem_append_right _ (hsubS y h)
    rw [← hL.eq_of_id hyL hx hyx]
    exact hy
  · intro hm
    exact List.mem_map_of_mem (fun a => a.id_) hm

theorem cleanup_inspects_top_only_witness :
    deepBook.WF ∧
      deepBook.MatchOrders =
        .ok (⟨[(100, [Order.new .GoodTillCancel 1 .Buy 100 5, Order.new .FillAndKill 2 .Buy 100 4]),
               (99, [Order.new .FillAndKill 3 .Buy 99 2])],
              [(101, [Order.new .GoodTillCancel 6 .Sell 101 2]),
               (102, [Order.new .FillAndKill 5 .Sell 102 7])],
              [(1, ⟨.GoodTillCancel, .Buy, 100⟩), (2, ⟨.FillAndKill, .Buy, 100⟩),
               (3, ⟨.FillAndKill, .Buy, 99⟩), (6, ⟨.GoodTillCancel, .Sell, 101⟩),
               (5, ⟨.FillAndKill, .Sell, 102⟩)]⟩, []) ∧
      (∃ obL T ob1, deepBook.crossingLoop (deepBook.queued + 1) [] = .ok (obL, T) ∧
        deepBook.MatchOrders = .ok (ob1, T) ∧ ob1 = obL.cleanupBuy.cleanupSell ∧
        obL.buyOrders_.front = obL.buyOrders_.orders.head? ∧
        obL.sellOrders_.front = obL.sellOrders_.orders.head? ∧
        ob1.buyOrders_.orders =
          (if obL.buyOrders_.front.map (fun o => o.type_) = some .FillAndKill
            then obL.buyOrders_.orders.tail else obL.buyOrders_.orders) ∧
        ob1.sellOrders_.orders =
          (if obL.sellOrders_.front.map (fun o => o.type_) = some .FillAndKill
            then obL.sellOrders_.orders.tail else obL.sellOrders_.orders) ∧
        (∀ x ∈ obL.allOrders, x ∉ ob1.allOrders ↔
          (x.type_ = .FillAndKill ∧
            (obL.buyOrders_.front = some x ∨ obL.sellOrders_.front = some x))) ∧
        (∀ x ∈ obL.allOrders, ob1.orderLookup_.contains x.id_ = true ↔ x ∈ ob1.allOrders)) :=
  ⟨deepBook_wf, rfl, cleanup_inspects_top_only deepBook deepBook_wf⟩

/-! ## Remaining quantities of queued orders -/

theorem mem_popFilled_unfilled {x y : Order} {t : OrderList} (h : x ∈ popFilled y t) :
    (x = y ∧ y.remainingQty_ ≠ 0) ∨ x ∈ t := by
  unfold popFilled at h
  split at h
  · exact Or.inr h
  · next hf =>
    rcases List.mem_cons.mp h with h | h
    · exact Or.inl ⟨h, by simpa [Order.IsFilled] using hf⟩
    · exact Or.inr h

/-- After a pass that trades, each queued order was queued before, or is what a fill
left of a queued order and has a remaining quantity other than 0: an order filled
down to 0 is popped in the same pass. -/
theorem OrderBook.round_source {ob ob1 : OrderBook} {t : Trade}
    (hr : ob.matchRound = .traded ob1 t) :
    ∀ x ∈ ob1.allOrders, x ∈ ob.allOrders ∨
      ∃ y ∈ ob.allOrders, ∃ q, x = y.reduce q ∧ x.remainingQty_ ≠ 0 := by
  obtain ⟨bp, sp, b, s, bt, st, B, S, hb, hs, -, rfl, -⟩ := OrderBook.matchRound_traded_inv hr
  intro x hx
  simp only [OrderBook.allOrders, dropEmptied_orders, List.mem_append] at hx
  simp only [OrderBook.allOrders, hb, hs, Levels.orders_cons, List.mem_append, List.mem_cons]
  rcases hx with (hx | hx) | (hx | hx)
  · rcases mem_popFilled_unfilled hx with ⟨h1, h2⟩ | h1
    · exact Or.inr ⟨b, Or.inl (Or.inl (Or.inl rfl)), _, h1, by rw [h1]; exact h2⟩
    · exact Or.inl (Or.inl (Or.inl (Or.inr h1)))
  · exact Or.inl (Or.inl (Or.inr hx))
  · rcases mem_popFilled_unfilled hx with ⟨h1, h2⟩ | h1
    · exact Or.inr ⟨s, Or.inr (Or.inl (Or.inl rfl)), _, h1, by rw [h1]; exact h2⟩
    · exact Or.inl (Or.inr (Or.inl (Or.inr h1)))
  · exact Or.inl (Or.inr (Or.inr hx))

theorem OrderBook.WF.mem_of_mem_cancelOrder {ob : OrderBook} (h : ob.WF) (id : Nat) {x : Order}
    (hx : x ∈ (ob.CancelOrder id).allOrders) : x ∈ ob.allOrders := by
  obtain ⟨h1, h2, -⟩ := h.cancel_eq id
  simp only [OrderBook.allOrders, h1, h2] at hx ⊢
  rcases List.mem_append.mp hx with hx | hx
  · exact List.mem_append_left _ (List.mem_of_mem_filter hx)
  · exact List.mem_append_right _ (List.mem_of_mem_filter hx)

theorem OrderBook.WF.mem_of_mem_cleanup {ob : OrderBook} (h : ob.WF) {x : Order}
    (hx : x ∈ ob.cleanupBuy.cleanupSell.allOrders) : x ∈ ob.allOrders := by
  have h1 : ob.cleanupBuy.WF ∧ ∀ y ∈ ob.cleanupBuy.allOrders, y ∈ ob.allOrders := by
    rcases ob.cleanupBuy_eq with he | ⟨id, he⟩
    · rw [he]; exact ⟨h, fun y hy => hy⟩
    · rw [he]; exact ⟨h.cancelOrder_wf id, fun y hy => h.mem_of_mem_cancelOrder id hy⟩
  rcases ob.cleanupBuy.cleanupSell_eq with he | ⟨id, he⟩
  · rw [he] at hx; exact h1.2 x hx
  · rw [he] at hx; exact h1.2 x (h1.1.mem_of_mem_cancelOrder id hx)

theorem OrderBook.MatchOrders_ok_inv {ob ob1 : OrderBook} {T : Trades}
    (h : ob.MatchOrders = .ok (ob1, T)) :
    ∃ obL, ob.crossingLoop (ob.queued + 1) [] = .ok (obL, T) ∧
      ob1 = obL.cleanupBuy.cleanupSell := by
  unfold OrderBook.MatchOrders at h
  split at h
  · next obL T1 hl =>
    simp only [Except.ok.injEq, Prod.mk.injEq] at h
    exact ⟨obL, by rw [hl, h.2], h.1.symm⟩
  · cases h

/-- A property of orders that a fill keeps on an order it leaves unfilled is kept, on
all queued orders, by `AddOrder` into a well-formed book, when the incoming order has
it. -/
theorem OrderBook.WF.addOrder_all {ob : OrderBook} (h : ob.WF) (Q : Order → Prop)
    (hQ : ∀ (x : Order) (q : Nat), Q x → (x.reduce q).remainingQty_ ≠ 0 → Q (x.reduce q))
    {o : Order} {ob1 : OrderBook} {T : Trades} (hadd : ob.AddOrder o = .ok (ob1, T))
    (hall : ∀ x ∈ ob.allOrders, Q x) (ho : Q o) : ∀ x ∈ ob1.allOrders, Q x := by
  unfold OrderBook.AddOrder at hadd
  split at hadd
  · simp only [Except.ok.injEq, Prod.mk.injEq] at hadd
    rw [← hadd.1]; exact hall
  · next hc =>
    split at hadd
    · simp only [Except.ok.injEq, Prod.mk.injEq] at hadd
      rw [← hadd.1]; exact hall
    · have hid : ob.orderLookup_.lookup o.id_ = none :=
        Registry.contains_eq_false.mp (by simpa using hc)
      obtain ⟨obL, hloop, rfl⟩ := OrderBook.MatchOrders_ok_inv hadd
      have hins : ∀ x ∈ (ob.insert o).allOrders, Q x := by
        intro x hx
        rcases List.mem_cons.mp ((ob.insert_allOrders_perm o).mem_iff.mp hx) with h1 | h1
        · rw [h1]; exact ho
        · exact hall x h1
      have hrule := OrderBook.crossingLoop_rule (fun b _ => b.WF ∧ ∀ x ∈ b.allOrders, Q x)
        (fun b T b1 t hI hround => ⟨hI.1.round_wf hround, fun x hx => by
          rcases OrderBook.round_source hround x hx with h1 | ⟨y, hy, q, h1, h2⟩
          · exact hI.2 x h1
          · rw [h1] at h2 ⊢
            exact hQ y q (hI.2 y hy) h2⟩)
        _ _ _ (obL, T) ⟨h.insert_wf o hid, hins⟩ hloop
      intro x hx
      exact hrule.1.2 x (hrule.1.1.mem_of_mem_cleanup hx)

theorem ReachableWith.reachable {positive : Bool} {ob : OrderBook}
    (h : ReachableWith positive ob) : Reachable ob := by
  induction h with
  | empty => exact Reachable.empty
  | add ob o ob1 ts _ _ _ hadd ih => exact Reachable.add ob o ob1 ts ih hadd
  | cancel ob id _ ih => exact Reachable.cancel ob id ih
  | modify ob m ob1 ts _ _ hmod ih => exact Reachable.modify ob m ob1 ts ih hmod

theorem ReachableWith.remaining {positive : Bool} {ob : OrderBook}
    (h : ReachableWith positive ob) :
    ∀ x ∈ ob.allOrders, x.remainingQty_ ≤ x.initialQty_ ∧
      (positive = true → 0 < x.remainingQty_) := by
  have hQ : ∀ (x : Order) (q : Nat),
      (x.remainingQty_ ≤ x.initialQty_ ∧ (positive = true → 0 < x.remainingQty_)) →
      (x.reduce q).remainingQty_ ≠ 0 →
      ((x.reduce q).remainingQty_ ≤ (x.reduce q).initialQty_ ∧
        (positive = true → 0 < (x.reduce q).remainingQty_)) := by
    intro x q hx hne
    refine ⟨?_, fun _ => Nat.pos_of_ne_zero hne⟩
    have : (x.reduce q).initialQty_ = x.initialQty_ := rfl
    rw [this, Order.reduce_remaining]
    exact le_trans (Nat.sub_le _ _) hx.1
  induction h with
  | empty => intro x hx; cases hx
  | add ob o ob1 ts hr h1 h2 hadd ih =>
    exact hr.reachable.inv.wf.addOrder_all _ hQ hadd ih ⟨h1, h2⟩
  | cancel ob id hr ih =>
    intro x hx
    exact ih x (hr.reachable.inv.wf.mem_of_mem_cancelOrder id hx)
  | modify ob m ob1 ts hr h1 hmod ih =>
    unfold OrderBook.MatchOrder at hmod
    split at hmod
    · simp only [Except.ok.injEq, Prod.mk.injEq] at hmod
      rw [← hmod.1]; exact ih
    · next existing _ =>
      refine (hr.reachable.inv.wf.cancelOrder_wf m.id_).addOrder_all _ hQ hmod ?_ ?_
      · intro x hx
        exact ih x (hr.reachable.inv.wf.mem_of_mem_cancelOrder m.id_ hx)
      · exact ⟨le_refl _, h1⟩

/-- What a pass that trades does to the two orders it fills, on a well-formed book:
they are the front orders of the two best levels, both filled by the minimum of their
remaining quantities; one brought to 0 is afterwards in no queue and not registered,
one with quantity left is still queued and registered. -/
theorem OrderBook.WF.round_fronts {ob ob1 : OrderBook} {t : Trade}
    (h : ob.WF) (hr : ob.matchRound = .traded ob1 t) :
    ∃ buyer seller, Levels.front ob.buyOrders_ = some buyer ∧
      Levels.front ob.sellOrders_ = some seller ∧
      t = ⟨⟨buyer.id_, buyer.price_, min buyer.remainingQty_ seller.remainingQty_⟩,
         ⟨seller.id_, seller.price_, min buyer.remainingQty_ seller.remainingQty_⟩⟩ ∧
      ∀ y, y = buyer ∨ y = seller →
        ((y.reduce (min buyer.remainingQty_ seller.remainingQty_)).remainingQty_ = 0 →
          y.id_ ∉ ob1.allOrders.map (fun a => a.id_) ∧
          ob1.orderLookup_.contains y.id_ = false) ∧
        ((y.reduce (min buyer.remainingQty_ seller.remainingQty_)).remainingQty_ ≠ 0 →
          y.reduce (min buyer.remainingQty_ seller.remainingQty_) ∈ ob1.allOrders ∧
          ob1.orderLookup_.contains y.id_ = true) := by
  have hwf1 := h.round_wf hr
  obtain ⟨bp, sp, b, s, bt, st, B, S, hb, hs, -, hob1, ht⟩ := OrderBook.matchRound_traded_inv hr
  refine ⟨b, s, by rw [hb]; rfl, by rw [hs]; rfl, ht, ?_⟩
  have hnd : (ob.allOrders).Nodup := List.Nodup.of_map _ h.nodup
  have hall : ob.allOrders = (b :: bt ++ Levels.orders B) ++ (s :: st ++ Levels.orders S) := by
    simp [OrderBook.allOrders, hb, hs]
  have hall1 : ob1.allOrders =
      (popFilled (b.reduce (min b.remainingQty_ s.remainingQty_)) bt ++ Levels.orders B) ++
        (popFilled (s.reduce (min b.remainingQty_ s.remainingQty_)) st ++ Levels.orders S) := by
    rw [hob1]
    simp [OrderBook.allOrders]
  have hbmem : b ∈ ob.allOrders := by rw [hall]; simp
  have hsmem : s ∈ ob.allOrders := by rw [hall]; simp
  rw [hall] at hnd
  have hbs : b ≠ s := by
    intro hbs
    have := (List.nodup_append.mp hnd).2.2
    exact this (List.mem_cons_self _ _) (by rw [hbs]; exact List.mem_cons_self _ _)
  have hbt : b ∉ bt ++ Levels.orders B := by
    have := (List.nodup_append.mp hnd).1
    exact (List.nodup_cons.mp this).1
  have hst : s ∉ st ++ Levels.orders S := by
    have := (List.nodup_append.mp hnd).2.1
    exact (List.nodup_cons.mp this).1
  have hbS : b ∉ st ++ Levels.orders S := by
    intro hm
    exact (List.nodup_append.mp hnd).2.2 (List.mem_cons_self _ _) (List.mem_cons_of_mem _ hm)
  have hsB : s ∉ bt ++ Levels.orders B := by
    intro hm
    exact (List.nodup_append.mp hnd).2.2 (List.mem_cons_of_mem _ hm) (List.mem_cons_self _ _)
  have hold : ∀ x, x ∈ bt ++ Levels.orders B ∨ x ∈ st ++ Levels.orders S → x ∈ ob.allOrders := by
    intro x hx
    rw [hall]
    rcases hx with hx | hx
    · exact List.mem_append_left _ (List.mem_cons_of_mem _ hx)
    · exact List.mem_append_right _ (List.mem_cons_of_mem _ hx)
  -- where an order queued after the pass comes from
  have hsrc : ∀ x ∈ ob1.allOrders,
      (x = b.reduce (min b.remainingQty_ s.remainingQty_) ∧
        (b.reduce (min b.remainingQty_ s.remainingQty_)).remainingQty_ ≠ 0) ∨
      (x = s.reduce (min b.remainingQty_ s.remainingQty_) ∧
        (s.reduce (min b.remainingQty_ s.remainingQty_)).remainingQty_ ≠ 0) ∨
      x ∈ bt ++ Levels.orders B ∨ x ∈ st ++ Levels.orders S := by
    intro x hx
    rw [hall1] at hx
    rcases List.mem_append.mp hx with hx | hx
    · rcases List.mem_append.mp hx with hx | hx
      · rcases mem_popFilled_unfilled hx with h1 | h1
        · exact Or.inl h1
        · exact Or.inr (Or.inr (Or.inl (List.mem_append_left _ h1)))
      · exact Or.inr (Or.inr (Or.inl (List.mem_append_right _ hx)))
    · rcases List.mem_append.mp hx with hx | hx
      · rcases mem_popFilled_unfilled hx with h1 | h1
        · exact Or.inr (Or.inl h1)
        · exact Or.inr (Or.inr (Or.inr (List.mem_append_left _ h1)))
      · exact Or.inr (Or.inr (Or.inr (List.mem_append_right _ hx)))
  have hgone : ∀ y, y ∈ ob.allOrders → y ∉ bt ++ Levels.orders B → y ∉ st ++ Levels.orders S →
      (y = b → (b.reduce (min b.remainingQty_ s.remainingQty_)).remainingQty_ = 0) →
      (y = s → (s.reduce (min b.remainingQty_ s.remainingQty_)).remainingQty_ = 0) →
      y.id_ ∉ ob1.allOrders.map (fun a => a.id_) := by
    intro y hy hyB hyS hyb hys hmem
    obtain ⟨x, hx, hxy⟩ := List.mem_map.mp hmem
    rcases hsrc x hx with ⟨h1, h2⟩ | ⟨h1, h2⟩ | h1 | h1
    · have hid : y.id_ = b.id_ := by rw [← hxy, h1]; rfl
      exact h2 (hyb (h.eq_of_id hy hbmem hid))
    · have hid : y.id_ = s.id_ := by rw [← hxy, h1]; rfl
      exact h2 (hys (h.eq_of_id hy hsmem hid))
    · have := h.eq_of_id hy (hold x (Or.inl h1)) hxy.symm
      exact hyB (by rw [this]; exact h1)
    · have := h.eq_of_id hy (hold x (Or.inr h1)) hxy.symm
      exact hyS (by rw [this]; exact h1)
  intro y hy
  rcases hy with rfl | rfl
  · refine ⟨fun h0 => ?_, fun h0 => ?_⟩
    · have hnot := hgone y hbmem hbt hbS (fun _ => h0) (fun hys => absurd hys hbs)
      refine ⟨hnot, ?_⟩
      rw [← Bool.not_eq_true, hwf1.contains_iff]
      exact hnot
    · have hmem : y.reduce (min y.remainingQty_ s.remainingQty_) ∈ ob1.allOrders := by
        rw [hall1, popFilled_rest _ h0]
        simp
      exact ⟨hmem, (hwf1.contains_iff _).mpr (List.mem_map.mpr ⟨_, hmem, rfl⟩)⟩
  · refine ⟨fun h0 => ?_, fun h0 => ?_⟩
    · have hnot := hgone y hsmem hsB hst (fun hyb => absurd hyb.symm hbs) (fun _ => h0)
      refine ⟨hnot, ?_⟩
      rw [← Bool.not_eq_true, hwf1.contains_iff]
      exact hnot
    · have hmem : y.reduce (min b.remainingQty_ y.remainingQty_) ∈ ob1.allOrders := by
        rw [hall1, popFilled_rest _ h0]
        simp
      exact ⟨hmem, (hwf1.contains_iff _).mpr (List.mem_map.mpr ⟨_, hmem, rfl⟩)⟩

theorem zeroBook_reachable : ReachableWith false zeroBook :=
  ReachableWith.add _ (Order.new .GoodTillCancel 1 .Buy 100 0) _ [] ReachableWith.empty
    (le_refl _) (fun h => nomatch h) rfl

/-- C13 as stated fails for a quantity of 0, which `Quantity` admits: on the empty book
`AddOrder` of a `GoodTillCancel` buy of quantity 0 returns no trade and leaves that
order queued and registered with remaining quantity 0. -/
theorem zero_quantity_order_rests :
    OrderBook.empty.AddOrder (Order.new .GoodTillCancel 1 .Buy 100 0) = .ok (zeroBook, []) ∧
      Reachable zeroBook ∧
      Order.new .GoodTillCancel 1 .Buy 100 0 ∈ zeroBook.allOrders ∧
      zeroBook.orderLookup_.contains 1 = true ∧
      (Order.new .GoodTillCancel 1 .Buy 100 0).remainingQty_ = 0 ∧
      (Order.new .GoodTillCancel 1 .Buy 100 0).IsFilled = true :=
  ⟨rfl, zeroBook_reachable.reachable, by simp [zeroBook, OrderBook.allOrders], rfl, rfl, rfl⟩

/-- C13, amended: remaining quantities of resting orders. In every book reached from
the empty book by `AddOrder`, `CancelOrder` and `MatchOrder` with orders that
`class Order` admits (remaining <= initial): every queued order has remaining <=
initial quantity; the registered ids are exactly the ids of the queued orders; and
when every order submitted has a quantity above 0 left and every modification a
quantity above 0, every queued order has remaining quantity above 0. Fills happen in
the passes of the matching loop only, which runs on the book with the incoming order
inserted, a well-formed book, and a pass that trades keeps the book well formed. Such
a pass fills the front orders of the two best levels by the minimum of their remaining
quantities; each of the two that is brought to 0 is, after that pass, in no queue and
not registered, each of the two with quantity left is still queued and registered; and
(on any book) every queued order that was not queued unchanged before the pass has a
remaining quantity above 0. A quantity of 0 is not refused: `AddOrder` of a
`GoodTillCancel` order with an unregistered id that cannot match returns no trade and
leaves the order queued and registered as it is, with remaining quantity 0 when that
is its quantity. -/
theorem filled_order_does_not_rest (positive : Bool) (ob : OrderBook)
    (hr : ReachableWith positive ob) :
    Reachable ob ∧
      (∀ x ∈ ob.allOrders, x.remainingQty_ ≤ x.initialQty_) ∧
      (positive = true → ∀ x ∈ ob.allOrders, 0 < x.remainingQty_) ∧
      (∀ id, ob.orderLookup_.contains id = true ↔ id ∈ ob.allOrders.map (fun a => a.id_)) ∧
      (∀ (b b1 : OrderBook) (t : Trade), b.matchRound = .traded b1 t →
        ∀ x ∈ b1.allOrders, x ∉ b.allOrders → 0 < x.remainingQty_) ∧
      (∀ o : Order, ob.orderLookup_.contains o.id_ = false → (ob.insert o).WF) ∧
      (∀ (b b1 : OrderBook) (t : Trade), b.WF → b.matchRound = .traded b1 t →
        b1.WF ∧
        ∃ buyer seller, Levels.front b.buyOrders_ = some buyer ∧
          Levels.front b.sellOrders_ = some seller ∧
          t = ⟨⟨buyer.id_, buyer.price_, min buyer.remainingQty_ seller.remainingQty_⟩,
             ⟨seller.id_, seller.price_, min buyer.remainingQty_ seller.remainingQty_⟩⟩ ∧
          ∀ y, y = buyer ∨ y = seller →
            ((y.reduce (min buyer.remainingQty_ seller.remainingQty_)).remainingQty_ = 0 →
              y.id_ ∉ b1.allOrders.map (fun a => a.id_) ∧
              b1.orderLookup_.contains y.id_ = false) ∧
            ((y.reduce (min buyer.remainingQty_ seller.remainingQty_)).remainingQty_ ≠ 0 →
              y.reduce (min buyer.remainingQty_ seller.remainingQty_) ∈ b1.allOrders ∧
              b1.orderLookup_.contains y.id_ = true)) ∧
      (∀ o : Order, o.type_ = .GoodTillCancel → ob.orderLookup_.contains o.id_ = false →
        ob.CanMatch o.side_ o.price_ = false →
        ob.AddOrder o = .ok (ob.insert o, []) ∧ Reachable (ob.insert o) ∧
          o ∈ (ob.insert o).allOrders ∧
          (ob.insert o).orderLookup_.contains o.id_ = true) := by
  have hinv := hr.reachable.inv
  refine ⟨hr.reachable, fun x hx => (hr.remaining x hx).1,
    fun hp x hx => (hr.remaining x hx).2 hp, hinv.wf.contains_iff, ?_, ?_, ?_, ?_⟩
  · intro b b1 t hround x hx hnot
    rcases OrderBook.round_source hround x hx with h1 | ⟨y, -, q, -, h2⟩
    · exact absurd h1 hnot
    · exact Nat.pos_of_ne_zero h2
  · intro o hid
    exact hinv.wf.insert_wf o (Registry.contains_eq_false.mp hid)
  · intro b b1 t hwf hround
    exact ⟨hwf.round_wf hround, hwf.round_fronts hround⟩
  · intro o hgtc hid hcan
    have hnone := Registry.contains_eq_false.mp hid
    have hrest := hinv.addOrder_rest hnone hcan hgtc
    have hmem : o ∈ (ob.insert o).allOrders :=
      (ob.insert_allOrders_perm o).mem_iff.mpr (List.mem_cons_self _ _)
    exact ⟨hrest.1, Reachable.add ob o _ [] hr.reachable hrest.1, hmem,
      (hrest.2.wf.contains_iff o.id_).mpr (List.mem_map.mpr ⟨o, hmem, rfl⟩)⟩

theorem sampleBook_reachableWith : ReachableWith true sampleBook :=
  ReachableWith.add _ (Order.new .GoodTillCancel 10 .Buy 99 3) _ []
    (ReachableWith.add _ (Order.new .GoodTillCancel 9 .Sell 100 3) _ []
      (ReachableWith.add _ (Order.new .GoodTillCancel 8 .Sell 101 5) _ []
        (ReachableWith.add _ (Order.new .GoodTillCancel 6 .Sell 100 5) _ []
          ReachableWith.empty (le_refl _) (fun _ => by decide) rfl)
        (le_refl _) (fun _ => by decide) rfl)
      (le_refl _) (fun _ => by decide) rfl)
    (le_refl _) (fun _ => by decide) rfl

theorem filled_order_does_not_rest_witness :
    ReachableWith true sampleBook ∧
      (∀ x ∈ sampleBook.allOrders, x.remainingQty_ ≤ x.initialQty_) ∧
      (∀ x ∈ sampleBook.allOrders, 0 < x.remainingQty_) ∧
      (∃ b1 t, (sampleBook.insert (Order.new .GoodTillCancel 7 .Buy 100 5)).matchRound =
          .traded b1 t ∧ b1.WF ∧
        (∃ buyer seller,
          Levels.front (sampleBook.insert (Order.new .GoodTillCancel 7 .Buy 100 5)).buyOrders_ =
            some buyer ∧
          Levels.front (sampleBook.insert (Order.new .GoodTillCancel 7 .Buy 100 5)).sellOrders_ =
            some seller ∧
          t = ⟨⟨buyer.id_, buyer.price_, min buyer.remainingQty_ seller.remainingQty_⟩,
             ⟨seller.id_, seller.price_, min buyer.remainingQty_ seller.remainingQty_⟩⟩ ∧
          ∀ y, y = buyer ∨ y = seller →
            ((y.reduce (min buyer.remainingQty_ seller.remainingQty_)).remainingQty_ = 0 →
              y.id_ ∉ b1.allOrders.map (fun a => a.id_) ∧
              b1.orderLookup_.contains y.id_ = false) ∧
            ((y.reduce (min buyer.remainingQty_ seller.remainingQty_)).remainingQty_ ≠ 0 →
              y.reduce (min buyer.remainingQty_ seller.remainingQty_) ∈ b1.allOrders ∧
              b1.orderLookup_.contains y.id_ = true))) ∧
      ReachableWith false OrderBook.empty ∧
      (Order.new .GoodTillCancel 1 .Buy 100 0).remainingQty_ = 0 ∧
      (OrderBook.empty.AddOrder (Order.new .GoodTillCancel 1 .Buy 100 0) =
          .ok (OrderBook.empty.insert (Order.new .GoodTillCancel 1 .Buy 100 0), []) ∧
        Reachable (OrderBook.empty.insert (Order.new .GoodTillCancel 1 .Buy 100 0)) ∧
        Order.new .GoodTillCancel 1 .Buy 100 0 ∈
          (OrderBook.empty.insert (Order.new .GoodTillCancel 1 .Buy 100 0)).allOrders ∧
        (OrderBook.empty.insert (Order.new .GoodTillCancel 1 .Buy 100 0)).orderLookup_.contains
          (Order.new .GoodTillCancel 1 .Buy 100 0).id_ = true) :=
  ⟨sampleBook_reachableWith,
    (filled_order_does_not_rest true sampleBook sampleBook_reachableWith).2.1,
    (filled_order_does_not_rest true sampleBook sampleBook_reachableWith).2.2.1 rfl,
    ⟨_, _, rfl,
      (filled_order_does_not_rest true sampleBook sampleBook_reachableWith).2.2.2.2.2.2.1 _ _ _
        ((filled_order_does_not_rest true sampleBook sampleBook_reachableWith).2.2.2.2.2.1
          (Order.new .GoodTillCancel 7 .Buy 100 5) rfl) rfl⟩,
    ReachableWith.empty, rfl,
    (filled_order_does_not_rest false OrderBook.empty ReachableWith.empty).2.2.2.2.2.2.2
      (Order.new .GoodTillCancel 1 .Buy 100 0) rfl rfl rfl⟩

/-! ## How much an incoming order trades -/

theorem Order.crosses_eq (o a : Order) :
    o.crosses a = !(o.side_.before a.price_ o.price_) := by
  unfold Order.crosses
  cases o.side_ with
  | Buy =>
    simp only [Side.before, gt_iff_lt]
    by_cases h : a.price_ ≤ o.price_
    · simp [h, Int.not_lt.mpr h]
    · simp [h, Int.not_le.mp h]
  | Sell =>
    simp only [Side.before, ge_iff_le]
    by_cases h : o.price_ ≤ a.price_
    · simp [h, Int.not_lt.mpr h]
    · simp [h, Int.not_le.mp h]

theorem filter_crosses_all {o : Order} {l : List Order}
    (h : ∀ a ∈ l, o.side_.before a.price_ o.price_ = false) :
    l.filter (fun a => o.crosses a) = l := by
  rw [List.filter_eq_self]
  intro a ha
  rw [Order.crosses_eq, h a ha]
  rfl

theorem filter_crosses_none {o : Order} {l : List Order}
    (h : ∀ a ∈ l, o.side_.before a.price_ o.price_ = true) :
    l.filter (fun a => o.crosses a) = [] := by
  rw [List.filter_eq_nil_iff]
  intro a ha
  rw [Order.crosses_eq, h a ha]
  simp

/-- When the incoming order cannot match, it crosses no resting order. -/
theorem OrderBook.WF.crossingLiquidity_zero {ob : OrderBook} (h : ob.WF) (o : Order)
    (hcan : ob.CanMatch o.side_ o.price_ = false) : ob.crossingLiquidity o = 0 := by
  unfold OrderBook.crossingLiquidity
  rw [filter_crosses_none, totalRemaining_nil]
  intro a ha
  obtain ⟨y, hy, hay⟩ := Levels.mem_orders.mp ha
  rw [(h.levels_own _ y hy a hay).2]
  exact (h.canMatch_false_iff o.side_ o.price_).mp hcan y hy

/-- Where a sweep stands when the loop exits: the traded total is the smaller of the
incoming quantity and the crossed liquidity, and an incoming order larger than the
crossed liquidity is still at the front of its side with the difference left. -/
theorem Sweep.exhaustive {ob0 obL : OrderBook} {o : Order} {T : Trades}
    (hsw : Sweep ob0 o obL T) (hwfL : obL.WF) (hexit : obL.matchRound = .exit) :
    tradedQty T = min o.remainingQty_ (ob0.crossingLiquidity o) ∧
      (ob0.crossingLiquidity o < o.remainingQty_ →
        obL.levels o.side_ =
          (o.price_, [o.reduce (ob0.crossingLiquidity o)]) :: ob0.levels o.side_) := by
  have hun := hwfL.uncrossed_of_exit hexit
  cases hsw with
  | alive pre post hpre hpost hown hk hT hcross hapart =>
    have hnone : ∀ a ∈ post, o.side_.before a.price_ o.price_ = true := by
      intro a ha
      rw [← hpost] at ha
      obtain ⟨y, hy, hay⟩ := Levels.mem_orders.mp ha
      rw [(hwfL.levels_own _ y hy a hay).2]
      have hmem : (o.price_, [o.reduce (totalRemaining pre)]) ∈ obL.levels o.side_ := by
        rw [hown]; exact List.mem_cons_self _ _
      exact hun.apart o.side_ _ hmem y hy
    have hL : ob0.crossingLiquidity o = totalRemaining pre := by
      unfold OrderBook.crossingLiquidity
      rw [hpre, List.filter_append, filter_crosses_all hcross, filter_crosses_none hnone,
        List.append_nil]
    rw [hL, hT, tradedQty_full]
    exact ⟨(Nat.min_eq_right hk).symm, fun _ => hown⟩
  | gone pre a post q hpre hpost hown hk hq hT hcross hapart =>
    have hL : totalRemaining pre + a.remainingQty_ ≤ ob0.crossingLiquidity o := by
      unfold OrderBook.crossingLiquidity
      have hsplit : pre ++ a :: post = (pre ++ [a]) ++ post := by simp
      rw [hpre, hsplit, List.filter_append, filter_crosses_all hcross, totalRemaining_append,
        totalRemaining_append, totalRemaining_cons, totalRemaining_nil]
      omega
    rw [hT, tradedQty_append, tradedQty_full, tradedQty_single]
    constructor
    · rw [Nat.min_eq_left (by omega)]
      exact hk
    · intro hlt
      omega

/-- C18, matching is exhaustive for the incoming order. On a reachable book, for an
order of either type with an unregistered id, `AddOrder` returns trades whose
quantities add up to the minimum of the order's quantity and `L`, the exact sum of
the remaining quantities of the other side's resting orders priced within the
order's limit; and a `GoodTillCancel` order whose quantity exceeds `L` rests
afterwards on its own side, registered, with remaining quantity lowered by `L`. -/
theorem matching_is_exhaustive (ob : OrderBook) (hr : Reachable ob) (o : Order)
    (hid : ob.orderLookup_.contains o.id_ = false) :
    ∃ ob1 T, ob.AddOrder o = .ok (ob1, T) ∧
      tradedQty T = min o.remainingQty_ (ob.crossingLiquidity o) ∧
      (o.type_ = .GoodTillCancel → ob.crossingLiquidity o < o.remainingQty_ →
        o.reduce (ob.crossingLiquidity o) ∈ (ob1.levels o.side_).orders ∧
        (o.reduce (ob.crossingLiquidity o)).remainingQty_ =
          o.remainingQty_ - ob.crossingLiquidity o ∧
        ob1.orderLookup_.contains o.id_ = true) := by
  have hinv := hr.inv
  have hnone := Registry.contains_eq_false.mp hid
  obtain ⟨ob1, T, hadd, hcase⟩ := hinv.addOrder_cases o hnone
  have hinv1 := hinv.addOrder hadd
  have hreg : ∀ k, o.reduce k ∈ (ob1.levels o.side_).orders →
      ob1.orderLookup_.contains o.id_ = true := fun k hk =>
    (hinv1.wf.contains_iff o.id_).mpr
      (List.mem_map.mpr ⟨o.reduce k, OrderBook.mem_allOrders_of_levels hk, rfl⟩)
  refine ⟨ob1, T, hadd, ?_⟩
  rcases hcase with ⟨hcan, hT, hob⟩ | ⟨hcan, obL, hsw, hwfL, hexit, hob⟩
  · have hL := hinv.wf.crossingLiquidity_zero o hcan
    subst hT
    rw [hL]
    refine ⟨by simp [tradedQty], fun hgtc _ => ?_⟩
    rcases hob with ⟨h1, -⟩ | ⟨-, h1⟩
    · rw [hgtc] at h1
      cases h1
    · have hmem : o.reduce 0 ∈ (ob1.levels o.side_).orders := by
        have h0 : o.reduce 0 = o := by simp [Order.reduce]
        rw [h0, h1, OrderBook.insert_levels_own]
        exact (Levels.pushBack_orders_perm _ _ _ _).mem_iff.mpr (List.mem_cons_self _ _)
      exact ⟨hmem, rfl, hreg 0 hmem⟩
  · obtain ⟨h1, h2⟩ := hsw.exhaustive hwfL hexit
    refine ⟨h1, fun hgtc hlt => ?_⟩
    have hsame : ob1 = obL := by rw [hob]; exact (hsw.final hwfL hinv hnone).2.2 hgtc
    have hmem : o.reduce (ob.crossingLiquidity o) ∈ (ob1.levels o.side_).orders := by
      rw [hsame, h2 hlt]
      simp
    exact ⟨hmem, rfl, hreg _ hmem⟩

theorem matching_is_exhaustive_witness :
    Reachable sampleBook ∧
      sampleBook.orderLookup_.contains (Order.new .GoodTillCancel 7 .Buy 100 10).id_ = false ∧
      sampleBook.crossingLiquidity (Order.new .GoodTillCancel 7 .Buy 100 10) = 8 ∧
      ∃ ob1 T, sampleBook.AddOrder (Order.new .GoodTillCancel 7 .Buy 100 10) = .ok (ob1, T) ∧
        tradedQty T = min (Order.new .GoodTillCancel 7 .Buy 100 10).remainingQty_
          (sampleBook.crossingLiquidity (Order.new .GoodTillCancel 7 .Buy 100 10)) ∧
        ((Order.new .GoodTillCancel 7 .Buy 100 10).type_ = .GoodTillCancel →
          sampleBook.crossingLiquidity (Order.new .GoodTillCancel 7 .Buy 100 10) <
            (Order.new .GoodTillCancel 7 .Buy 100 10).remainingQty_ →
          (Order.new .GoodTillCancel 7 .Buy 100 10).reduce
              (sampleBook.crossingLiquidity (Order.new .GoodTillCancel 7 .Buy 100 10)) ∈
            (ob1.levels (Order.new .GoodTillCancel 7 .Buy 100 10).side_).orders ∧
          ((Order.new .GoodTillCancel 7 .Buy 100 10).reduce
              (sampleBook.crossingLiquidity
                (Order.new .GoodTillCancel 7 .Buy 100 10))).remainingQty_ =
            (Order.new .GoodTillCancel 7 .Buy 100 10).remainingQty_ -
              sampleBook.crossingLiquidity (Order.new .GoodTillCancel 7 .Buy 100 10) ∧
          ob1.orderLookup_.contains (Order.new .GoodTillCancel 7 .Buy 100 10).id_ = true) :=
  ⟨sampleBook_reachable, rfl, by decide,
    matching_is_exhaustive sampleBook sampleBook_reachable
      (Order.new .GoodTillCancel 7 .Buy 100 10) rfl⟩

/-! ## The incoming order's own side -/

/-- After the sweep and the cleanup, the incoming order's side is as it was before
the call, or as it was with the incoming order (what is left of it) alone on a new
best level. -/
theorem Sweep.final_own {ob0 obL : OrderBook} {o : Order} {T : Trades}
    (hsw : Sweep ob0 o obL T) (hwfL : obL.WF) (h0 : ob0.Inv)
    (hid : ob0.orderLookup_.lookup o.id_ = none) :
    obL.cleanupBuy.cleanupSell.levels o.side_ = ob0.levels o.side_ ∨
      ∃ k, obL.cleanupBuy.cleanupSell.levels o.side_ =
        (o.price_, [o.reduce k]) :: ob0.levels o.side_ := by
  have hfin := hsw.final hwfL h0 hid
  cases hsw with
  | alive pre post hpre hpost hown hk hT hcross hun =>
    cases htype : o.type_ with
    | GoodTillCancel =>
      rw [hfin.2.2 htype]
      exact Or.inr ⟨_, hown⟩
    | FillAndKill =>
      left
      have hopp : ∀ x ∈ (obL.levels o.side_.opposite).orders, x.type_ = .GoodTillCancel := by
        intro x hx
        rw [hpost] at hx
        exact h0.noFAK x (OrderBook.mem_allOrders_of_levels
          (by rw [hpre]; exact List.mem_append_right _ hx))
      cases hside : o.side_ with
      | Buy =>
        simp only [hside, Side.opposite, OrderBook.levels] at hopp hown ⊢
        have h1 := hwfL.cleanupBuy_fak hown (by simpa using htype)
        rw [h1, OrderBook.cleanupSell_gtc (by simpa using hopp)]
      | Sell =>
        simp only [hside, Side.opposite, OrderBook.levels] at hopp hown ⊢
        rw [OrderBook.cleanupBuy_gtc (by simpa using hopp)]
        have h1 := hwfL.cleanupSell_fak hown (by simpa using htype)
        rw [h1]
  | gone pre a post q hpre hpost hown hk hq hT hcross hun =>
    left
    have hno : obL.NoFAK := by
      intro x hx
      rcases (obL.mem_allOrders_iff o.side_ x).mp hx with h | h
      · rw [hown] at h
        exact h0.noFAK x (OrderBook.mem_allOrders_of_levels h)
      · rw [hpost] at h
        rcases mem_popFilled h with h | h
        · rw [h]
          exact h0.noFAK a (OrderBook.mem_allOrders_of_levels (by rw [hpre]; simp))
        · exact h0.noFAK x (OrderBook.mem_allOrders_of_levels (by rw [hpre]; simp [h]))
    rw [hno.cleanup_id]
    exact hown

/-- C19, only the incoming order trades. On a reachable book, for an order with an
unregistered id, `AddOrder` returns; every returned trade carries the incoming
order's id and price on the incoming order's side and, on the other side, the id
and price of an order that rested on the other side, so no trade is between two
orders that both rested before; and every queue of the incoming order's side holds
afterwards, apart from the incoming order itself, exactly the orders it held
before, with the same remaining quantities and in the same order. -/
theorem only_incoming_order_trades (ob : OrderBook) (hr : Reachable ob) (o : Order)
    (hid : ob.orderLookup_.contains o.id_ = false) :
    ∃ ob1 T, ob.AddOrder o = .ok (ob1, T) ∧
      (∀ t ∈ T, (t.info o.side_).orderId_ = o.id_ ∧ (t.info o.side_).price_ = o.price_ ∧
        (∀ x ∈ ob.allOrders, x.id_ ≠ (t.info o.side_).orderId_) ∧
        ∃ a ∈ (ob.levels o.side_.opposite).orders,
          (t.info o.side_.opposite).orderId_ = a.id_ ∧
          (t.info o.side_.opposite).price_ = a.price_) ∧
      (∀ p, ((ob1.levels o.side_).queue p).filter (fun a => a.id_ != o.id_) =
        (ob.levels o.side_).queue p) := by
  have hinv := hr.inv
  have hnone := Registry.contains_eq_false.mp hid
  have hfresh : ∀ x ∈ ob.allOrders, x.id_ ≠ o.id_ := fun x hx hxi =>
    (hinv.wf.lookup_none_iff o.id_).mp hnone (List.mem_map.mpr ⟨x, hx, hxi⟩)
  have hkeep : ∀ p, ((ob.levels o.side_).queue p).filter (fun a => a.id_ != o.id_) =
      (ob.levels o.side_).queue p := by
    intro p
    apply filter_id_of_not_mem
    intro hm
    obtain ⟨x, hx, hxi⟩ := List.mem_map.mp hm
    exact hfresh x (OrderBook.mem_allOrders_of_levels (Levels.mem_orders_of_mem_queue hx)) hxi
  obtain ⟨ob1, T, hadd, hcase⟩ := hinv.addOrder_cases o hnone
  have hinv1 := hinv.addOrder hadd
  refine ⟨ob1, T, hadd, ?_, ?_⟩
  · intro t ht
    have hmem : ∃ a q, a ∈ (ob.levels o.side_.opposite).orders ∧ t = tradeOf o a q := by
      rcases hcase with ⟨-, hT, -⟩ | ⟨-, obL, hsw, -, -, -⟩
      · subst hT
        cases ht
      · obtain ⟨a, q, ha, hta, -, -⟩ := hsw.trade_mem t ht
        exact ⟨a, q, ha, hta⟩
    obtain ⟨a, q, ha, rfl⟩ := hmem
    rw [tradeOf_info_own, tradeOf_info_opposite]
    exact ⟨rfl, rfl, hfresh, a, ha, rfl, rfl⟩
  · intro p
    have hshape : ob1.levels o.side_ = ob.levels o.side_ ∨
        (∃ k, ob1.levels o.side_ = (o.price_, [o.reduce k]) :: ob.levels o.side_) ∨
        ob1.levels o.side_ = Levels.pushBack o.side_ o.price_ o (ob.levels o.side_) := by
      rcases hcase with ⟨-, -, ⟨-, h1⟩ | ⟨-, h1⟩⟩ | ⟨-, obL, hsw, hwfL, -, h1⟩
      · rw [h1]
        exact Or.inl rfl
      · rw [h1]
        exact Or.inr (Or.inr (ob.insert_levels_own o))
      · rw [h1]
        rcases hsw.final_own hwfL hinv hnone with h | h
        · exact Or.inl h
        · exact Or.inr (Or.inl h)
    rcases hshape with h | ⟨k, h⟩ | h
    · rw [h]
      exact hkeep p
    · have hwf1 := hinv1.wf.levels_wf o.side_
      rw [h] at hwf1 ⊢
      rw [Levels.queue_cons]
      by_cases hp : p = o.price_
      · rw [if_pos hp, hp, Levels.queue_of_not_key hwf1.key_ne]
        simp [List.filter_cons]
      · rw [if_neg hp]
        exact hkeep p
    · rw [h, (hinv.wf.levels_wf o.side_).queue_pushBack]
      by_cases hp : p = o.price_
      · rw [if_pos hp, hp, List.filter_append, hkeep]
        simp [List.filter_cons]
      · rw [if_neg hp]
        exact hkeep p

theorem only_incoming_order_trades_witness :
    Reachable sampleBook ∧
      sampleBook.orderLookup_.contains (Order.new .GoodTillCancel 7 .Buy 101 10).id_ = false ∧
      ∃ ob1 T, sampleBook.AddOrder (Order.new .GoodTillCancel 7 .Buy 101 10) = .ok (ob1, T) ∧
        (∀ t ∈ T,
          (t.info (Order.new .GoodTillCancel 7 .Buy 101 10).side_).orderId_ =
            (Order.new .GoodTillCancel 7 .Buy 101 10).id_ ∧
          (t.info (Order.new .GoodTillCancel 7 .Buy 101 10).side_).price_ =
            (Order.new .GoodTillCancel 7 .Buy 101 10).price_ ∧
          (∀ x ∈ sampleBook.allOrders,
            x.id_ ≠ (t.info (Order.new .GoodTillCancel 7 .Buy 101 10).side_).orderId_) ∧
          ∃ a ∈ (sampleBook.levels
              (Order.new .GoodTillCancel 7 .Buy 101 10).side_.opposite).orders,
            (t.info (Order.new .GoodTillCancel 7 .Buy 101 10).side_.opposite).orderId_ = a.id_ ∧
            (t.info (Order.new .GoodTillCancel 7 .Buy 101 10).side_.opposite).price_ =
              a.price_) ∧
        (∀ p, ((ob1.levels (Order.new .GoodTillCancel 7 .Buy 101 10).side_).queue p).filter
            (fun a => a.id_ != (Order.new .GoodTillCancel 7 .Buy 101 10).id_) =
          (sampleBook.levels (Order.new .GoodTillCancel 7 .Buy 101 10).side_).queue p) :=
  ⟨sampleBook_reachable, rfl,
    only_incoming_order_trades sampleBook sampleBook_reachable
      (Order.new .GoodTillCancel 7 .Buy 101 10) rfl⟩
